import Mathlib

/-!
go-yacl: environment filter, parse entry points, default applier and declared defaults.

A shallow embedding of `config.go` and `defaults.go`.

* Go strings are lists of characters (`Str`).
* The standard library `regexp` package, which `EnvironmentReader` calls, is modelled by
  a small backtracking engine with Go's leftmost-first semantics (`Regex`,
  `parsePattern`, `findAllStringSubmatch`).  The parser covers the part of the RE2 syntax
  that the pattern built by `EnvironmentReader` uses for metacharacter-free prefixes,
  plus alternation, groups and the star.  A pattern with any other construct is not
  judged by the model: `compile` hands it to a parameter `Library` that stands for what
  `regexp.Compile` does with it, and the theorems hold for every value of that
  parameter.  The library's limits on the size and nesting depth of an expression are
  not modelled.
* The destination object graph is a tree of `Value`s: a pointer owns its pointee, so
  aliasing and cyclic graphs are outside the model.  Reflection is replaced by an
  explicit type description (`GoType`, `Program.fields`).
* The YAML decoder and the document builder (`newReader`, `collectInfos`) lie outside
  the two source files; the decoder is a parameter and a built reader is represented
  by the argument list it was built from.
* `applyDefaultsRecursive` carries a recursion budget: `none` means the budget was
  exhausted, and a result obtained with some budget is the result with every larger one
  (`applyDefaultsRecursive_mono`).  Setters are pure functions on the instance they
  are called on; every call is recorded with its kind, type and place.
-/

namespace Yacl

/-- A Go string. -/
abbrev Str := List Char

/-! ## The `regexp` model -/

/-- Abstract syntax of the modelled regular expressions. -/
inductive Regex where
  | empty : Regex
  | char (c : Char) : Regex
  | any : Regex
  | cls (neg : Bool) (items : List Char) : Regex
  | bol : Regex
  | eol : Regex
  | cat (a b : Regex) : Regex
  | alt (a b : Regex) : Regex
  | star (a : Regex) : Regex
  | group (idx : Nat) (a : Regex) : Regex
  deriving DecidableEq, Repr

/-- The error of `regexp.Compile` (the error code of a `*syntax.Error`): the codes the
modelled part of the syntax can produce, and `other` for every other code of the
library (invalid escape sequence, invalid character class range, invalid repeat count,
expression too large, ...). -/
inductive CompileError where
  | missingParen
  | unexpectedParen
  | missingRepeatArgument
  | invalidNestedRepetition
  | trailingBackslash
  | missingBracket
  | other (code : Nat)
  deriving DecidableEq, Repr

/-- Why the modelled parser stops before the end of the pattern: the pattern has a
syntax error, or it uses syntax outside the modelled part at the given character (the
library may well accept it). -/
inductive ParseStop where
  | error (e : CompileError)
  | notModelled (c : Char)
  deriving DecidableEq, Repr

/-- The characters `regexp.QuoteMeta` escapes: a string without them is a literal pattern. -/
def metaChars : List Char :=
  ['\\', '.', '+', '*', '?', '(', ')', '|', '[', ']', '{', '}', '^', '$']

/-- Parser mode: ordinary text, after a backslash, or inside a bracket class. -/
inductive Mode where
  | normal
  | escape
  | classOpen
  | classBody (neg : Bool) (items : List Char)
  deriving DecidableEq, Repr

/-- A suspended enclosing group: its finished alternatives, its current concatenation
(both most recent first) and the capture index of the group being opened. -/
structure Frame where
  alts : List Regex
  cur : List Regex
  idx : Nat
  deriving DecidableEq, Repr

/-- Parser state. -/
structure PState where
  stack : List Frame
  alts : List Regex
  cur : List Regex
  ncap : Nat
  mode : Mode
  deriving DecidableEq, Repr

/-- Concatenation of a list of expressions, in order. -/
def mkCat : List Regex → Regex
  | [] => Regex.empty
  | r :: rs => Regex.cat r (mkCat rs)

/-- The expression of a group body: the finished alternatives (most recent first) and the
current concatenation (most recent first). -/
def collapse (alts cur : List Regex) : Regex :=
  alts.foldl (fun acc a => Regex.alt a acc) (mkCat cur.reverse)

/-- One parser step in normal mode on a metacharacter. -/
def stepMeta (st : PState) (c : Char) : Except ParseStop PState :=
  if c = '\\' then .ok { st with mode := Mode.escape }
  else if c = '.' then .ok { st with cur := Regex.any :: st.cur }
  else if c = '^' then .ok { st with cur := Regex.bol :: st.cur }
  else if c = '$' then .ok { st with cur := Regex.eol :: st.cur }
  else if c = '[' then .ok { st with mode := Mode.classOpen }
  else if c = ']' then .ok { st with cur := Regex.char c :: st.cur }
  else if c = '}' then .ok { st with cur := Regex.char c :: st.cur }
  else if c = '|' then .ok { st with alts := mkCat st.cur.reverse :: st.alts, cur := [] }
  else if c = '(' then
    .ok { st with stack := ⟨st.alts, st.cur, st.ncap + 1⟩ :: st.stack,
                  alts := [], cur := [], ncap := st.ncap + 1 }
  else if c = ')' then
    match st.stack with
    | [] => .error (ParseStop.error CompileError.unexpectedParen)
    | f :: fs =>
      .ok { st with stack := fs, alts := f.alts,
                    cur := Regex.group f.idx (collapse st.alts st.cur) :: f.cur }
  else if c = '*' then
    match st.cur with
    | [] => .error (ParseStop.error CompileError.missingRepeatArgument)
    | Regex.star _ :: _ => .error (ParseStop.error CompileError.invalidNestedRepetition)
    | r :: rs => .ok { st with cur := Regex.star r :: rs }
  else .error (ParseStop.notModelled c)

/-- One parser step. -/
def step (st : PState) (c : Char) : Except ParseStop PState :=
  match st.mode with
  | Mode.normal =>
    if c ∈ metaChars then stepMeta st c else .ok { st with cur := Regex.char c :: st.cur }
  | Mode.escape =>
    if c ∈ metaChars then .ok { st with cur := Regex.char c :: st.cur, mode := Mode.normal }
    else .error (ParseStop.notModelled c)
  | Mode.classOpen =>
    if c = '^' then .ok { st with mode := Mode.classBody true [] }
    else if c = ']' ∨ c = '\\' ∨ c = '[' ∨ c = '-' then .error (ParseStop.notModelled c)
    else .ok { st with mode := Mode.classBody false [c] }
  | Mode.classBody neg items =>
    if c = ']' then
      match items with
      | [] => .error (ParseStop.notModelled c)
      | _ => .ok { st with cur := Regex.cls neg items.reverse :: st.cur, mode := Mode.normal }
    else if c = '\\' ∨ c = '[' ∨ c = '-' then .error (ParseStop.notModelled c)
    else .ok { st with mode := Mode.classBody neg (c :: items) }

/-- Runs the parser over the pattern text. -/
def parseFrom : PState → Str → Except ParseStop PState
  | st, [] => .ok st
  | st, c :: cs =>
    match step st c with
    | .ok st' => parseFrom st' cs
    | .error e => .error e

/-- A compiled expression: the syntax tree and the number of capture groups. -/
structure Regexp where
  re : Regex
  numSubexp : Nat
  deriving DecidableEq, Repr

/-- Builds the compiled expression when the pattern text is exhausted. -/
def finish (st : PState) : Except ParseStop Regexp :=
  match st.mode with
  | Mode.escape => .error (ParseStop.error CompileError.trailingBackslash)
  | Mode.classOpen => .error (ParseStop.error CompileError.missingBracket)
  | Mode.classBody _ _ => .error (ParseStop.error CompileError.missingBracket)
  | Mode.normal =>
    match st.stack with
    | [] => .ok ⟨collapse st.alts st.cur, st.ncap⟩
    | _ :: _ => .error (ParseStop.error CompileError.missingParen)

/-- The modelled parser on a whole pattern. -/
def parsePattern (pattern : Str) : Except ParseStop Regexp :=
  match parseFrom ⟨[], [], [], 0, Mode.normal⟩ pattern with
  | .ok st => finish st
  | .error e => .error e

/-- Matcher state: offset in the text, remaining text, captures set so far. -/
structure MState where
  pos : Nat
  rest : Str
  caps : List (Nat × Str)
  deriving DecidableEq, Repr

/-- Greedy iteration: every way of repeating `stepFn` with progress, longest first, and
finally no further iteration. -/
def starRun (stepFn : MState → List MState) : Nat → MState → List MState
  | 0, s => [s]
  | n + 1, s =>
    (((stepFn s).filter (fun s' => decide (s'.rest.length < s.rest.length))).map
        (starRun stepFn n)).flatten ++ [s]

/-- All ways the expression matches at the state, in the order a backtracking matcher
tries them (the first is the leftmost-first match). -/
def run : Regex → MState → List MState
  | Regex.empty, s => [s]
  | Regex.char c, s =>
    match s.rest with
    | x :: xs => if x = c then [⟨s.pos + 1, xs, s.caps⟩] else []
    | [] => []
  | Regex.any, s =>
    match s.rest with
    | x :: xs => if x = '\n' then [] else [⟨s.pos + 1, xs, s.caps⟩]
    | [] => []
  | Regex.cls neg items, s =>
    match s.rest with
    | x :: xs => if (decide (x ∈ items)) != neg then [⟨s.pos + 1, xs, s.caps⟩] else []
    | [] => []
  | Regex.bol, s => if s.pos = 0 then [s] else []
  | Regex.eol, s => if s.rest = [] then [s] else []
  | Regex.cat a b, s => ((run a s).map (fun s' => run b s')).flatten
  | Regex.alt a b, s => run a s ++ run b s
  | Regex.star a, s => starRun (fun s' => run a s') s.rest.length s
  | Regex.group i a, s =>
    (run a s).map (fun s' => ⟨s'.pos, s'.rest, (i, s.rest.take (s'.pos - s.pos)) :: s'.caps⟩)

/-- Text of capture group `i` of a match (empty when the group did not take part). -/
def capture (caps : List (Nat × Str)) (i : Nat) : Str :=
  match caps.find? (fun p => p.1 == i) with
  | some p => p.2
  | none => []

/-- The leftmost match whose start is at offset `pos` or later: start, end, captures.
`n` bounds the number of start offsets tried. -/
def execute (re : Regex) (text : Str) : Nat → Nat → Option (Nat × Nat × List (Nat × Str))
  | 0, _ => none
  | n + 1, pos =>
    match run re ⟨pos, text.drop pos, []⟩ with
    | s :: _ => some (pos, s.pos, s.caps)
    | [] => if pos < text.length then execute re text n (pos + 1) else none

/-- The loop of `Regexp.allMatches`: successive non-overlapping matches; an empty match
directly after the previous match is skipped. -/
def allMatches (r : Regexp) (text : Str) :
    Nat → Nat → Option Nat → List (List Str)
  | 0, _, _ => []
  | n + 1, pos, prevMatchEnd =>
    if pos ≤ text.length then
      match execute r.re text (text.length + 1 - pos) pos with
      | none => []
      | some (b, e, caps) =>
        let accept := !(decide (e = pos) && decide (some b = prevMatchEnd))
        let pos' := if e = pos then pos + 1 else e
        let m := ((text.drop b).take (e - b)) ::
          (List.range r.numSubexp).map (fun i => capture caps (i + 1))
        (if accept then [m] else []) ++ allMatches r text n pos' (some e)
    else []

/-- Model of `(*Regexp).FindAllStringSubmatch(text, -1)`. -/
def findAllStringSubmatch (r : Regexp) (text : Str) : List (List Str) :=
  allMatches r text (text.length + 2) 0 none

/-- What `EnvironmentReader` uses of a compiled expression: the function
`FindAllStringSubmatch(text, -1)` of the expression. -/
abbrev Matcher := Str → List (List Str)

/-- The result of the library's `regexp.Compile` on the patterns that use syntax outside
the modelled part.  The library is not part of the repository; its behaviour on these
patterns is left open, and every theorem holds for each such behaviour. -/
abbrev Library := Str → Except CompileError Matcher

/-- Model of `regexp.Compile`: a pattern of the modelled syntax is compiled or rejected by
the modelled parser; for any other pattern the result is the library's. -/
def compile (lib : Library) (pattern : Str) : Except CompileError Matcher :=
  match parsePattern pattern with
  | .ok re => .ok (findAllStringSubmatch re)
  | .error (ParseStop.error e) => .error e
  | .error (ParseStop.notModelled _) => lib pattern

/-! ## The destination object graph -/

/-- A Go type as the walker sees it through `reflect`: a struct type (named by an
identifier, so that a struct may mention itself), a pointer, a slice, a map (the key
type plays no role) or any other kind. -/
inductive GoType where
  | struct (id : Nat) : GoType
  | ptr (elem : GoType) : GoType
  | slice (elem : GoType) : GoType
  | map (elem : GoType) : GoType
  | other (id : Nat) : GoType
  deriving DecidableEq, Repr

/-- A value of the destination graph.  `other` is a value of a kind the walker ignores
(`0` is its zero value); `none` is the nil pointer, nil slice or nil map; map keys are
identified by numbers. -/
inductive Value where
  | other (n : Nat) : Value
  | struct (fields : List Value) : Value
  | ptr (target : Option Value) : Value
  | slice (elems : Option (List Value)) : Value
  | map (entries : Option (List (Nat × Value))) : Value
  deriving Repr

/-- One declared field of a struct type (`reflect.StructField`). -/
structure StructField where
  exported : Bool
  type : GoType
  deriving DecidableEq, Repr

/-- The program around the library: the declared fields of each struct type, the
`SetDefaults` method of each type whose pointer type implements `DefaultSetter`, and
the order in which the runtime iterates the keys of a map. -/
structure Program where
  fields : Nat → List StructField
  setDefaults : GoType → Option (Value → Value)
  mapRange : List (Nat × Value) → List Nat

/-- Modelled from the spec: the `Options` struct is declared outside the two source
files; these are the three options `config.go` and `defaults.go` read (the decoder
options are passed to the decoder unread). -/
structure Options where
  prefixEnv : Str
  autoApplyDefaults : Bool
  defaultSetter : GoType → Option (Value → Value)

/-- The `Config` struct; `dest` is the value the destination pointer points to and
`destType` its type. -/
structure Config where
  options : Options
  destType : GoType
  dest : Value

/-! ## Errors and readers -/

/-- Go error values: the `io.EOF` sentinel, a `regexp` syntax error, an error built by
`fmt.Errorf` with `%w` (message prefix and wrapped error), and any other error value. -/
inductive GoError where
  | eof : GoError
  | syntaxError (e : CompileError) : GoError
  | wrap (msg : Str) (err : GoError) : GoError
  | other (id : Nat) : GoError
  deriving DecidableEq, Repr

/-- An `io.ReadCloser` interface value: nil, an `*errorReader`, or the reader
`newReader` builds, represented by the argument list it was built from (its field
infos and options are determined by the `Config`). -/
inductive ReadCloser where
  | nil : ReadCloser
  | errorReader (err : GoError) : ReadCloser
  | reader (args : List Str) : ReadCloser
  deriving DecidableEq, Repr

/-- `(*errorReader).Read`: the number of bytes read and the error. -/
def errorReader.Read (err : GoError) (_p : List Nat) : Nat × Option GoError :=
  (0, some err)

/-- `(*errorReader).Close`. -/
def errorReader.Close (_err : GoError) : Option GoError :=
  none

/-- `Config.ArgumentReader`. -/
def ArgumentReader (_c : Config) (args : List Str) : ReadCloser :=
  ReadCloser.reader args

/-- The pattern text `EnvironmentReader` compiles. -/
def envPattern (prefixEnv : Str) : Str :=
  "^".toList ++ prefixEnv ++ "[^=]*=(.*)$".toList

/-- The loop of `EnvironmentReader` that transforms the entries into arguments:
an entry with exactly one match contributes submatch 1 of that match. -/
def envToArgs (re : Matcher) : List Str → List Str → List Str
  | args, [] => args
  | args, e :: env =>
    match re e with
    | [m] => envToArgs re (args ++ [m.getD 1 []]) env
    | _ => envToArgs re args env

/-- `Config.EnvironmentReader`. -/
def EnvironmentReader (lib : Library) (c : Config) (env : List Str) : ReadCloser :=
  if c.options.prefixEnv = [] then ReadCloser.nil
  else
    match compile lib (envPattern c.options.prefixEnv) with
    | .error err =>
      ReadCloser.errorReader
        (GoError.wrap "invalid env variable prefix: ".toList (GoError.syntaxError err))
    | .ok re => ArgumentReader c (envToArgs re [] env)

/-! ## Reference functions for the environment filter -/

/-- Removes the prefix `p` from `e`, if `e` starts with it. -/
def stripPrefix : Str → Str → Option Str
  | [], e => some e
  | _ :: _, [] => none
  | c :: p, x :: e => if x = c then stripPrefix p e else none

/-- The text an entry of the form `p ++ k ++ "=" ++ v` holds after the first `=` that
follows the prefix `p`, provided that text is on a single line. -/
def envValue (p e : Str) : Option Str :=
  match stripPrefix p e with
  | none => none
  | some r =>
    match r.dropWhile (fun x => decide (x ≠ '=')) with
    | [] => none
    | _ :: v => if '\n' ∈ v then none else some v

/-- The syntax tree of `envPattern p` for a literal prefix `p`. -/
def envRegex (p : Str) : Regex :=
  mkCat (Regex.bol :: (p.map Regex.char ++
    [Regex.star (Regex.cls true ['=']), Regex.char '=',
     Regex.group 1 (mkCat [Regex.star Regex.any]), Regex.eol]))

/-- The key of an environment entry: the text before the first `=`. -/
def entryKey (e : Str) : Str :=
  e.takeWhile (fun x => decide (x ≠ '='))

/-- The value of an environment entry: the text after the first `=`. -/
def entryValue (e : Str) : Str :=
  (e.dropWhile (fun x => decide (x ≠ '='))).tail

/-- An entry is selected under the prefix `p` when it has the shape `KEY=VALUE`, its
key begins with `p` and its value is on a single line. -/
def selects (p e : Str) : Bool :=
  decide ('=' ∈ e) && p.isPrefixOf (entryKey e) && !decide ('\n' ∈ entryValue e)

/-- A configuration with the given environment prefix, no registered setters and a
scalar destination. -/
def envConfig (prefixEnv : Str) : Config :=
  ⟨⟨prefixEnv, false, fun _ => none⟩, GoType.other 0, Value.other 0⟩

/-! ## The default applier (`defaults.go`) -/

/-- One step from a value to a value below it: a struct field, the pointee of a
pointer, a slice element or a map value. -/
inductive Seg where
  | field (i : Nat)
  | deref
  | index (i : Nat)
  | key (k : Nat)
  deriving DecidableEq, Repr

/-- The place of a value in the destination graph, from the root. -/
abbrev Path := List Seg

/-- Which of the two setters was called. -/
inductive SetterKind where
  | own
  | registered
  deriving DecidableEq, Repr

/-- A setter call: which setter, for which type, on the instance at which place. -/
structure Event where
  kind : SetterKind
  type : GoType
  path : Path
  deriving DecidableEq, Repr

/-- The shape of `applyDefaultsRecursive` once the configuration is fixed: type, place
and value in; value after the walk and the setter calls made, in order, out (`none`
when the recursion budget is exhausted). -/
abbrev Walk := GoType → Path → Value → Option (Value × List Event)

/-- Lines 20-28 of `applyDefaultsRecursive`: the address of an addressable value is
never nil, so the own `SetDefaults` is called if the pointer type implements
`DefaultSetter`, then the registered setter for the type if there is one. -/
def runSetters (P : Program) (o : Options) (t : GoType) (p : Path) (v : Value) :
    Value × List Event :=
  let r :=
    match P.setDefaults t with
    | some f => (f v, [Event.mk SetterKind.own t p])
    | none => (v, [])
  match o.defaultSetter t with
  | some g => (g r.1, r.2 ++ [Event.mk SetterKind.registered t p])
  | none => r

/-- The pointer case (fields, slice elements, map values): recurse into the pointee
when the element type is a struct and the pointer is not nil. -/
def walkPtr (rec : Walk) (p : Path) (elemT : GoType) (v : Value) :
    Option (Value × List Event) :=
  match elemT, v with
  | GoType.struct id, Value.ptr (some x) =>
    match rec (GoType.struct id) (p ++ [Seg.deref]) x with
    | none => none
    | some r => some (Value.ptr (some r.1), r.2)
  | _, _ => some (v, [])

/-- The body of the slice loop for one element. -/
def walkSliceElem (rec : Walk) (p : Path) (elemT : GoType) (x : Value) :
    Option (Value × List Event) :=
  match elemT with
  | GoType.struct id => rec (GoType.struct id) p x
  | GoType.ptr e => walkPtr rec p e x
  | _ => some (x, [])

/-- The slice loop, from index `i` on. -/
def walkSlice (rec : Walk) (p : Path) (elemT : GoType) :
    Nat → List Value → Option (List Value × List Event)
  | _, [] => some ([], [])
  | i, x :: xs =>
    match walkSliceElem rec (p ++ [Seg.index i]) elemT x with
    | none => none
    | some r =>
      match walkSlice rec p elemT (i + 1) xs with
      | none => none
      | some rs => some (r.1 :: rs.1, r.2 ++ rs.2)

/-- `reflect.Value.SetMapIndex`: stores the value under the key. -/
def setMapIndex : List (Nat × Value) → Nat → Value → List (Nat × Value)
  | [], k, v => [(k, v)]
  | (k', v') :: m, k, v =>
    if k' = k then (k, v) :: m else (k', v') :: setMapIndex m k v

/-- The value stored under a key. -/
def mapIndex : List (Nat × Value) → Nat → Option Value
  | [], _ => none
  | (k', v') :: m, k => if k' = k then some v' else mapIndex m k

/-- The map loop over the keys the iterator yields.  A struct value is copied out,
walked and stored back under its key; a pointer value is walked through the pointer
(the entry then holds the pointer to the mutated pointee). -/
def walkMap (rec : Walk) (p : Path) (elemT : GoType) :
    List Nat → List (Nat × Value) → Option (List (Nat × Value) × List Event)
  | [], m => some (m, [])
  | k :: ks, m =>
    match mapIndex m k with
    | none => walkMap rec p elemT ks m
    | some elem =>
      match elemT with
      | GoType.struct id =>
        match rec (GoType.struct id) (p ++ [Seg.key k]) elem with
        | none => none
        | some r =>
          match walkMap rec p elemT ks (setMapIndex m k r.1) with
          | none => none
          | some rs => some (rs.1, r.2 ++ rs.2)
      | GoType.ptr e =>
        match walkPtr rec (p ++ [Seg.key k]) e elem with
        | none => none
        | some r =>
          match walkMap rec p elemT ks (setMapIndex m k r.1) with
          | none => none
          | some rs => some (rs.1, r.2 ++ rs.2)
      | _ => walkMap rec p elemT ks m

/-- The `switch field.Type.Kind()` of the field loop. -/
def walkField (P : Program) (rec : Walk) (p : Path) (ft : GoType) (fv : Value) :
    Option (Value × List Event) :=
  match ft with
  | GoType.struct id => rec (GoType.struct id) p fv
  | GoType.ptr e => walkPtr rec p e fv
  | GoType.slice e =>
    match fv with
    | Value.slice (some xs) =>
      match walkSlice rec p e 0 xs with
      | none => none
      | some r => some (Value.slice (some r.1), r.2)
    | _ => some (fv, [])
  | GoType.map e =>
    match fv with
    | Value.map (some m) =>
      match walkMap rec p e (P.mapRange m) m with
      | none => none
      | some r => some (Value.map (some r.1), r.2)
    | _ => some (fv, [])
  | GoType.other _ => some (fv, [])

/-- The field loop, from field index `i` on; unexported fields are skipped. -/
def walkFields (P : Program) (rec : Walk) (p : Path) :
    Nat → List StructField → List Value → Option (List Value × List Event)
  | _, [], vs => some (vs, [])
  | _, _ :: _, [] => some ([], [])
  | i, f :: fs, v :: vs =>
    match (if f.exported then walkField P rec (p ++ [Seg.field i]) f.type v
           else some (v, [])) with
    | none => none
    | some r =>
      match walkFields P rec p (i + 1) fs vs with
      | none => none
      | some rs => some (r.1 :: rs.1, r.2 ++ rs.2)

/-- `Config.applyDefaultsRecursive`, with a recursion budget: the setters, then, for a
struct, the field loop over the value the setters left. -/
def applyDefaultsRecursive (P : Program) (o : Options) : Nat → Walk
  | 0, _, _, _ => none
  | fuel + 1, t, p, v =>
    let r := runSetters P o t p v
    match t, r.1 with
    | GoType.struct id, Value.struct fs =>
      match walkFields P (applyDefaultsRecursive P o fuel) p 0 (P.fields id) fs with
      | none => none
      | some rs => some (Value.struct rs.1, r.2 ++ rs.2)
    | _, _ => some r

/-- `Config.ApplyDefaults`: the destination is a non-nil pointer, the walk starts at its
pointee. -/
def ApplyDefaults (P : Program) (c : Config) (fuel : Nat) : Option (Value × List Event) :=
  applyDefaultsRecursive P c.options fuel c.destType [] c.dest

/-! ## The parse entry points (`config.go`) -/

/-- The external YAML decoder run on a reader for the destination of a config: the
destination after the decode pass and the error it returns. -/
abbrev Decoder := Config → ReadCloser → Value × Option GoError

/-- `Config.ParseYaml`. -/
def ParseYaml (dec : Decoder) (c : Config) (reader : ReadCloser) : Value × Option GoError :=
  dec c reader

/-- How a call ends: it returns an error value (or nil) and leaves the destination in a
state, having made the given setter calls; it panics; or the recursion budget of the
default applier is exhausted. -/
inductive Outcome where
  | returned (err : Option GoError) (dest : Value) (calls : List Event)
  | panicked (dest : Value)
  | outOfFuel

/-- `Config.ParseArguments`.  `defer reader.Close()` evaluates the method value of the
reader, which panics for a nil interface value. -/
def ParseArguments (P : Program) (dec : Decoder) (c : Config) (args : List Str)
    (fuel : Nat) : Outcome :=
  match ArgumentReader c args with
  | ReadCloser.nil => Outcome.panicked c.dest
  | reader =>
    let r := ParseYaml dec c reader
    if r.2 ≠ none ∧ r.2 ≠ some GoError.eof then Outcome.returned r.2 r.1 []
    else if c.options.autoApplyDefaults then
      match ApplyDefaults P { c with dest := r.1 } fuel with
      | some d => Outcome.returned none d.1 d.2
      | none => Outcome.outOfFuel
    else Outcome.returned none r.1 []

/-- `Config.ParseEnvironment`.  `defer reader.Close()` evaluates the method value of the
reader, which panics for a nil interface value. -/
def ParseEnvironment (lib : Library) (dec : Decoder) (c : Config) (env : List Str) :
    Outcome :=
  match EnvironmentReader lib c env with
  | ReadCloser.nil => Outcome.panicked c.dest
  | reader =>
    let r := ParseYaml dec c reader
    if r.2 ≠ none ∧ r.2 ≠ some GoError.eof then Outcome.returned r.2 r.1 []
    else Outcome.returned none r.1 []

/-! ## Example programs -/

/-- `SetDefaults` of the example struct types: stores `n` in the first field when that
field holds its zero value. -/
def fillFirst (n : Nat) : Value → Value
  | Value.struct (Value.other 0 :: rest) => Value.struct (Value.other n :: rest)
  | w => w

/-- A registered setter of the examples: doubles the first field. -/
def doubleFirst : Value → Value
  | Value.struct (Value.other k :: rest) => Value.struct (Value.other (2 * k) :: rest)
  | w => w

/-- Example program.  Struct 0 has a scalar field, a map of struct 1, a pointer to a
pointer to struct 1, a slice of struct 1, a pointer to struct 1, an unexported
struct 1, a slice of slices of struct 1 and a map of slices of struct 1; struct 1 and
struct 2 have one scalar field.  `*struct0`, `*struct1` and `*struct2` implement
`DefaultSetter`.  Maps are iterated from the last key to the first. -/
def demoProgram : Program where
  fields := fun id =>
    if id = 0 then
      [⟨true, GoType.other 0⟩, ⟨true, GoType.map (GoType.struct 1)⟩,
       ⟨true, GoType.ptr (GoType.ptr (GoType.struct 1))⟩,
       ⟨true, GoType.slice (GoType.struct 1)⟩, ⟨true, GoType.ptr (GoType.struct 1)⟩,
       ⟨false, GoType.struct 1⟩, ⟨true, GoType.slice (GoType.slice (GoType.struct 1))⟩,
       ⟨true, GoType.map (GoType.slice (GoType.struct 1))⟩]
    else if id = 1 then [⟨true, GoType.other 0⟩]
    else if id = 2 then [⟨true, GoType.other 0⟩]
    else []
  setDefaults := fun t =>
    if t = GoType.struct 0 then some (fillFirst 7)
    else if t = GoType.struct 1 then some (fillFirst 5)
    else if t = GoType.struct 2 then some (fillFirst 7)
    else none
  mapRange := fun m => (m.map Prod.fst).reverse

/-- A zero-valued struct 1. -/
def zeroItem : Value :=
  Value.struct [Value.other 0]

/-- A destination of type struct 0: the scalar is zero, the map holds two zero-valued
items, the double pointer leads to a zero-valued item, the slice holds one item, the
pointer is nil, and the unexported field, the slice of slices and the map of slices
hold one zero-valued item each. -/
def demoDest : Value :=
  Value.struct [Value.other 0, Value.map (some [(10, zeroItem), (20, zeroItem)]),
    Value.ptr (some (Value.ptr (some zeroItem))), Value.slice (some [zeroItem]),
    Value.ptr none, zeroItem, Value.slice (some [Value.slice (some [zeroItem])]),
    Value.map (some [(30, Value.slice (some [zeroItem]))])]

/-- The value `ApplyDefaults` leaves in place of `demoDest` under `demoConfig`. -/
def demoDestAfter : Value :=
  Value.struct [Value.other 14,
    Value.map (some [(10, Value.struct [Value.other 5]), (20, Value.struct [Value.other 5])]),
    Value.ptr (some (Value.ptr (some zeroItem))),
    Value.slice (some [Value.struct [Value.other 5]]),
    Value.ptr none, zeroItem, Value.slice (some [Value.slice (some [zeroItem])]),
    Value.map (some [(30, Value.slice (some [zeroItem]))])]

/-- The setter calls `ApplyDefaults` makes on `demoDest` under `demoConfig`, in order. -/
def demoCalls : List Event :=
  [⟨SetterKind.own, GoType.struct 0, []⟩, ⟨SetterKind.registered, GoType.struct 0, []⟩,
   ⟨SetterKind.own, GoType.struct 1, [Seg.field 1, Seg.key 20]⟩,
   ⟨SetterKind.own, GoType.struct 1, [Seg.field 1, Seg.key 10]⟩,
   ⟨SetterKind.own, GoType.struct 1, [Seg.field 3, Seg.index 0]⟩]

/-- Example configuration over `demoDest`: prefix `APP_`, the given auto-apply option,
and a registered setter for struct 0 and for struct 2. -/
def demoConfig (auto : Bool) : Config :=
  ⟨⟨"APP_".toList, auto,
    fun t => if t = GoType.struct 0 ∨ t = GoType.struct 2 then some doubleFirst else none⟩,
   GoType.struct 0, demoDest⟩

/-- The value at a place below a value, if the place exists. -/
def valueAt : Value → Path → Option Value
  | v, [] => some v
  | Value.struct fs, Seg.field i :: q =>
    match fs.get? i with
    | some x => valueAt x q
    | none => none
  | Value.ptr (some x), Seg.deref :: q => valueAt x q
  | Value.slice (some xs), Seg.index i :: q =>
    match xs.get? i with
    | some x => valueAt x q
    | none => none
  | Value.map (some m), Seg.key k :: q =>
    match mapIndex m k with
    | some x => valueAt x q
    | none => none
  | _, _ :: _ => none

/-- A decoder that sees an empty stream: it reports end of input and does not touch
the destination. -/
def emptyStreamDecoder : Decoder :=
  fun c _ => (c.dest, some GoError.eof)

/-- A decoder that fails with error 1 on every reader it is given. -/
def failingDecoder : Decoder :=
  fun c _ => (c.dest, some (GoError.other 1))

/-! ## Reference notions for the default applier -/

/-- The value a setter leaves, when there is one. -/
def applySetter (g : Option (Value → Value)) (v : Value) : Value :=
  match g with
  | some f => f v
  | none => v

/-- The call of a setter as it shows in the list of calls, when there is one. -/
def setterEvent (g : Option (Value → Value)) (k : SetterKind) (t : GoType) (p : Path) :
    List Event :=
  match g with
  | some _ => [Event.mk k t p]
  | none => []

/-- `Reach P id v p q t`: starting from the struct instance `v` of type `struct id` at
place `p`, the place `q` holds a struct instance of type `t` that is reached through
exported fields of struct type, exported non-nil pointer-to-struct fields, and the
elements of exported slice and map fields whose element type is a struct or a pointer
to a struct (pointers non-nil). -/
inductive Reach (P : Program) : Nat → Value → Path → Path → GoType → Prop where
  | here (id : Nat) (v : Value) (p : Path) : Reach P id v p p (GoType.struct id)
  | fieldStruct (id : Nat) (fs : List Value) (p : Path) (i id' : Nat) (fv : Value)
      (q : Path) (t : GoType) :
      (P.fields id).get? i = some ⟨true, GoType.struct id'⟩ → fs.get? i = some fv →
      Reach P id' fv (p ++ [Seg.field i]) q t → Reach P id (Value.struct fs) p q t
  | fieldPtr (id : Nat) (fs : List Value) (p : Path) (i id' : Nat) (x : Value)
      (q : Path) (t : GoType) :
      (P.fields id).get? i = some ⟨true, GoType.ptr (GoType.struct id')⟩ →
      fs.get? i = some (Value.ptr (some x)) →
      Reach P id' x (p ++ [Seg.field i] ++ [Seg.deref]) q t →
      Reach P id (Value.struct fs) p q t
  | fieldSliceStruct (id : Nat) (fs : List Value) (p : Path) (i id' : Nat)
      (xs : List Value) (j : Nat) (x : Value) (q : Path) (t : GoType) :
      (P.fields id).get? i = some ⟨true, GoType.slice (GoType.struct id')⟩ →
      fs.get? i = some (Value.slice (some xs)) → xs.get? j = some x →
      Reach P id' x (p ++ [Seg.field i] ++ [Seg.index j]) q t →
      Reach P id (Value.struct fs) p q t
  | fieldSlicePtr (id : Nat) (fs : List Value) (p : Path) (i id' : Nat)
      (xs : List Value) (j : Nat) (x : Value) (q : Path) (t : GoType) :
      (P.fields id).get? i = some ⟨true, GoType.slice (GoType.ptr (GoType.struct id'))⟩ →
      fs.get? i = some (Value.slice (some xs)) → xs.get? j = some (Value.ptr (some x)) →
      Reach P id' x (p ++ [Seg.field i] ++ [Seg.index j] ++ [Seg.deref]) q t →
      Reach P id (Value.struct fs) p q t
  | fieldMapStruct (id : Nat) (fs : List Value) (p : Path) (i id' : Nat)
      (m : List (Nat × Value)) (k : Nat) (x : Value) (q : Path) (t : GoType) :
      (P.fields id).get? i = some ⟨true, GoType.map (GoType.struct id')⟩ →
      fs.get? i = some (Value.map (some m)) → mapIndex m k = some x →
      Reach P id' x (p ++ [Seg.field i] ++ [Seg.key k]) q t →
      Reach P id (Value.struct fs) p q t
  | fieldMapPtr (id : Nat) (fs : List Value) (p : Path) (i id' : Nat)
      (m : List (Nat × Value)) (k : Nat) (x : Value) (q : Path) (t : GoType) :
      (P.fields id).get? i = some ⟨true, GoType.map (GoType.ptr (GoType.struct id'))⟩ →
      fs.get? i = some (Value.map (some m)) → mapIndex m k = some (Value.ptr (some x)) →
      Reach P id' x (p ++ [Seg.field i] ++ [Seg.key k] ++ [Seg.deref]) q t →
      Reach P id (Value.struct fs) p q t

/-- Both setters of type `t` that exist were called on the instance at place `q`. -/
def Called (P : Program) (o : Options) (t : GoType) (q : Path) (tr : List Event) : Prop :=
  ((P.setDefaults t).isSome → Event.mk SetterKind.own t q ∈ tr) ∧
    ((o.defaultSetter t).isSome → Event.mk SetterKind.registered t q ∈ tr)
/-- The calls the map loop makes for key `k` of the map `m`: those of the walk of the
value stored under `k`. -/
def callsAtKey (rec : Walk) (p : Path) (t : GoType) (m : List (Nat × Value)) (k : Nat) :
    List Event :=
  match mapIndex m k with
  | none => []
  | some v =>
    match rec t (p ++ [Seg.key k]) v with
    | none => []
    | some r => r.2

/-- The map loop with the walk of one entry left open: `walkMap` is this loop with the
struct case or the pointer case as the walk. -/
def mapLoopWith (w : Nat → Value → Option (Value × List Event)) :
    List Nat → List (Nat × Value) → Option (List (Nat × Value) × List Event)
  | [], m => some (m, [])
  | k :: ks, m =>
    match mapIndex m k with
    | none => mapLoopWith w ks m
    | some elem =>
      match w k elem with
      | none => none
      | some r =>
        match mapLoopWith w ks (setMapIndex m k r.1) with
        | none => none
        | some rs => some (rs.1, r.2 ++ rs.2)

/-- A walk only reports calls at places at or below the place it was started at. -/
def Below (rec : Walk) : Prop :=
  ∀ t p v r, rec t p v = some r → ∀ e ∈ r.2, p <+: e.path

/-- A `SetDefaults` that installs a pointee, a slice element and a map value (all
zero-valued struct 1 instances) into fields that are nil. -/
def installDefaults : Value → Value
  | Value.struct [Value.ptr none, Value.slice none, Value.map none] =>
    Value.struct [Value.ptr (some zeroItem), Value.slice (some [zeroItem]),
      Value.map (some [(1, zeroItem)])]
  | w => w

/-- Example program whose root setter installs struct instances: struct 0 has a pointer
to struct 1, a slice of struct 1 and a map of struct 1; struct 1 has one scalar
field; both pointer types implement `DefaultSetter`. -/
def installProgram : Program where
  fields := fun id =>
    if id = 0 then
      [⟨true, GoType.ptr (GoType.struct 1)⟩, ⟨true, GoType.slice (GoType.struct 1)⟩,
       ⟨true, GoType.map (GoType.struct 1)⟩]
    else if id = 1 then [⟨true, GoType.other 0⟩]
    else []
  setDefaults := fun t =>
    if t = GoType.struct 0 then some installDefaults
    else if t = GoType.struct 1 then some (fillFirst 5)
    else none
  mapRange := fun m => m.map Prod.fst

/-- Options without a prefix, without auto-apply and without registered setters. -/
def plainOptions : Options :=
  ⟨[], false, fun _ => none⟩

/-- A zero-valued struct 0 of `installProgram`: nil pointer, nil slice, nil map. -/
def emptyRoot : Value :=
  Value.struct [Value.ptr none, Value.slice none, Value.map none]

/-- The setter a call refers to is the identity function. -/
def IdentityCall (P : Program) (o : Options) (e : Event) : Prop :=
  match e.kind with
  | SetterKind.own => ∀ f, P.setDefaults e.type = some f → ∀ w, f w = w
  | SetterKind.registered => ∀ g, o.defaultSetter e.type = some g → ∀ w, g w = w

/-- A walk that leaves the value as it was whenever all setters it called are the
identity. -/
def Untouched (P : Program) (o : Options) (rec : Walk) : Prop :=
  ∀ t p v r, rec t p v = some r → (∀ e ∈ r.2, IdentityCall P o e) → r.1 = v

/-- A relation between a value before and after a walk that every step of the walk
respects: it is reflexive and transitive, and it is inherited from the pointee of a
pointer, from the elements of a slice, from a value stored back into a map and from
the fields of a struct. -/
structure WalkRel (R : Value → Value → Prop) : Prop where
  refl : ∀ v, R v v
  trans : ∀ a b c, R a b → R b c → R a c
  ptr : ∀ x x', R x x' → R (Value.ptr (some x)) (Value.ptr (some x'))
  slice : ∀ xs xs', List.Forall₂ R xs xs' → R (Value.slice (some xs)) (Value.slice (some xs'))
  struct : ∀ fs fs', List.Forall₂ R fs fs' → R (Value.struct fs) (Value.struct fs')
  map : ∀ m k x x', mapIndex m k = some x → R x x' →
    R (Value.map (some m)) (Value.map (some (setMapIndex m k x')))

/-- Every result of the walk is related to the value the walk started from. -/
def Relates (R : Value → Value → Prop) (rec : Walk) : Prop :=
  ∀ t p v r, rec t p v = some r → R v r.1

/-- Both kinds of setter relate the value they are given to the value they leave. -/
def SettersRelate (P : Program) (o : Options) (R : Value → Value → Prop) : Prop :=
  (∀ t f, P.setDefaults t = some f → ∀ v, R v (f v)) ∧
    (∀ t g, o.defaultSetter t = some g → ∀ v, R v (g v))

/-- Every scalar that holds a non-zero value at some place of `v` holds the same value at
that place of `v'`. -/
def KeepsScalars (v v' : Value) : Prop :=
  ∀ q n, valueAt v q = some (Value.other n) → n ≠ 0 → valueAt v' q = some (Value.other n)

/-- A destination of type struct 0 of `demoProgram` in which the user has set the scalar
to 3 and holds one slice element whose scalar is 9 and one whose scalar is zero. -/
def userDest : Value :=
  Value.struct [Value.other 3, Value.map (some [(10, zeroItem)]), Value.ptr none,
    Value.slice (some [Value.struct [Value.other 9], zeroItem]), Value.ptr none, zeroItem,
    Value.slice none, Value.map none]

/-- The value `ApplyDefaults` leaves in place of `userDest` under `demoProgram` without
registered setters. -/
def userDestAfter : Value :=
  Value.struct [Value.other 3, Value.map (some [(10, Value.struct [Value.other 5])]),
    Value.ptr none,
    Value.slice (some [Value.struct [Value.other 9], Value.struct [Value.other 5]]),
    Value.ptr none, zeroItem, Value.slice none, Value.map none]

/-- The setter calls `ApplyDefaults` makes on `userDest`. -/
def userCalls : List Event :=
  [⟨SetterKind.own, GoType.struct 0, []⟩,
   ⟨SetterKind.own, GoType.struct 1, [Seg.field 1, Seg.key 10]⟩,
   ⟨SetterKind.own, GoType.struct 1, [Seg.field 3, Seg.index 0]⟩,
   ⟨SetterKind.own, GoType.struct 1, [Seg.field 3, Seg.index 1]⟩]

/-- The value has at most `n` layers of nesting: a scalar, a nil pointer, a nil slice
and a nil map have one layer; a struct, a non-nil pointer, a slice and a map have one
more than the deepest value they hold. -/
def depthAtMost : Nat → Value → Bool
  | 0, _ => false
  | _ + 1, Value.other _ => true
  | n + 1, Value.struct fs => fs.all (depthAtMost n)
  | _ + 1, Value.ptr none => true
  | n + 1, Value.ptr (some x) => depthAtMost n x
  | _ + 1, Value.slice none => true
  | n + 1, Value.slice (some xs) => xs.all (depthAtMost n)
  | _ + 1, Value.map none => true
  | n + 1, Value.map (some m) => m.all (fun kv => depthAtMost n kv.2)

/-- The value `v'` is nowhere nested deeper than `v`. -/
def NoDeeper (v v' : Value) : Prop :=
  ∀ k, depthAtMost k v = true → depthAtMost k v' = true

/-- The walk returns on every value with at most `n` layers. -/
def TotalAt (n : Nat) (rec : Walk) : Prop :=
  ∀ t p v, depthAtMost n v = true → ∃ r, rec t p v = some r

/-- No setter call is reported twice by the walk. -/
def CallsOnce (rec : Walk) : Prop :=
  ∀ t p v r, rec t p v = some r → r.2.Nodup

/-- The types of `demoProgram` without any `SetDefaults`. -/
def bareProgram : Program where
  fields := demoProgram.fields
  setDefaults := fun _ => none
  mapRange := demoProgram.mapRange

mutual
/-- The nesting depth of the struct instances of a value: a struct instance lies one
level above the deepest instance among its fields; pointers, slices and maps add no
level, and a value that holds no struct instance has depth 0. -/
def structDepth : Value → Nat
  | Value.other _ => 0
  | Value.struct fs => structDepthList fs + 1
  | Value.ptr none => 0
  | Value.ptr (some x) => structDepth x
  | Value.slice none => 0
  | Value.slice (some xs) => structDepthList xs
  | Value.map none => 0
  | Value.map (some m) => structDepthMap m
/-- The largest struct depth among the values of a list. -/
def structDepthList : List Value → Nat
  | [] => 0
  | x :: xs => max (structDepth x) (structDepthList xs)
/-- The largest struct depth among the values of the entries of a map. -/
def structDepthMap : List (Nat × Value) → Nat
  | [] => 0
  | (_, x) :: m => max (structDepth x) (structDepthMap m)
end

/-- The struct instances of `v'` are nowhere nested deeper than those of `v`: going from
`v` to `v'` makes no chain of struct instances longer.  A change that installs no struct
instance (it assigns scalars, fills a slice of strings or a pointer to a number, drops
a pointee or an element) is of this kind. -/
def NoDeeperStructs (v v' : Value) : Prop :=
  structDepth v' ≤ structDepth v

/-- The walk returns on every value whose struct instances are nested at most `n` deep. -/
def TotalBelow (n : Nat) (rec : Walk) : Prop :=
  ∀ t p v, structDepth v ≤ n → ∃ r, rec t p v = some r

/-- `SetDefaults` of the node type: fills the tags (field 3, a slice of scalars) with one
tag when the slice is nil, and the weight (field 4, a pointer to a scalar) when it is nil.
It installs no struct instance. -/
def fillTags : Value → Value
  | Value.struct [a, next, children, Value.slice none, Value.ptr none] =>
    Value.struct [a, next, children, Value.slice (some [Value.other 1]),
      Value.ptr (some (Value.other 1))]
  | w => w

/-- A self-referential struct type: struct 0 has a scalar, a pointer to struct 0, a
slice of struct 0, a slice of scalars (the tags) and a pointer to a scalar (the weight);
`*struct0` implements `DefaultSetter` by `fillTags`.  The iterator yields every key of a
map once. -/
def nodeProgram : Program where
  fields := fun id =>
    if id = 0 then
      [⟨true, GoType.other 0⟩, ⟨true, GoType.ptr (GoType.struct 0)⟩,
       ⟨true, GoType.slice (GoType.struct 0)⟩, ⟨true, GoType.slice (GoType.other 0)⟩,
       ⟨true, GoType.ptr (GoType.other 0)⟩]
    else []
  setDefaults := fun t => if t = GoType.struct 0 then some fillTags else none
  mapRange := fun m => (m.map Prod.fst).dedup

/-- A node without successor, without children, without tags and without weight. -/
def leafNode : Value :=
  Value.struct [Value.other 0, Value.ptr none, Value.slice none, Value.slice none,
    Value.ptr none]

/-- A finite chain: a node whose pointer leads to a leaf and whose slice holds a leaf. -/
def nodeDest : Value :=
  Value.struct [Value.other 0, Value.ptr (some leafNode), Value.slice (some [leafNode]),
    Value.slice none, Value.ptr none]

/-- The struct types a type mentions, through any nesting of pointers, slices and maps. -/
def mentions : GoType → List Nat
  | GoType.struct id => [id]
  | GoType.ptr e => mentions e
  | GoType.slice e => mentions e
  | GoType.map e => mentions e
  | GoType.other _ => []

/-- The declared type shape is not self-referential: `rank` bounds the nesting depth, every
struct type mentioned by a field of a struct type has a smaller rank than that type. -/
def Acyclic (P : Program) (rank : Nat → Nat) : Prop :=
  ∀ id, ∀ f ∈ P.fields id, ∀ id' ∈ mentions f.type, rank id' < rank id

/-- The walk `rec'` returns whatever the walk `rec` returns. -/
def Extends (rec rec' : Walk) : Prop :=
  ∀ t p v r, rec t p v = some r → rec' t p v = some r

/-- Nesting depth of the struct types of `demoProgram`: struct 0 holds the others. -/
def demoRank (id : Nat) : Nat :=
  if id = 0 then 1 else 0

/-! ## Declared defaults (`getDefaultValue`) -/

/-- `reflect.New(t).Elem()`: the zero value of a type; `n` bounds the nesting of struct
types by value. -/
def zeroValue (P : Program) : Nat → GoType → Value
  | _, GoType.other _ => Value.other 0
  | _, GoType.ptr _ => Value.ptr none
  | _, GoType.slice _ => Value.slice none
  | _, GoType.map _ => Value.map none
  | 0, GoType.struct _ => Value.struct []
  | n + 1, GoType.struct id =>
    Value.struct ((P.fields id).map (fun f => zeroValue P n f.type))

/-- Whether Go can compare two values of the type with `==`: slices and maps cannot be
compared, nor can structs that hold them (`other` stands for the scalar kinds here). -/
def comparable (P : Program) : Nat → GoType → Bool
  | _, GoType.other _ => true
  | _, GoType.ptr _ => true
  | _, GoType.slice _ => false
  | _, GoType.map _ => false
  | 0, GoType.struct _ => true
  | n + 1, GoType.struct id => (P.fields id).all (fun f => comparable P n f.type)

/-- Go's `==` on two values of one comparable type.  Two non-nil pointers are taken to be
different allocations; in `getDefaultValue` one side is a zero value, which holds no
non-nil pointer. -/
def sameValue : Nat → Value → Value → Bool
  | _, Value.other a, Value.other b => a == b
  | _, Value.ptr none, Value.ptr none => true
  | n + 1, Value.struct fs, Value.struct gs =>
    (fs.length == gs.length) && (fs.zip gs).all (fun ab => sameValue n ab.1 ab.2)
  | _, _, _ => false

/-- `reflect.Value.FieldByName` on a struct value, fields being identified by index. -/
def fieldOf (v : Value) (i : Nat) : Option Value :=
  match v with
  | Value.struct fs => fs.get? i
  | _ => none

/-- What `getDefaultValue` does: it returns `(v, true)`, it returns `(nil, false)`, or
it panics. -/
inductive DefaultResult where
  | found (v : Value)
  | absent
  | panics

/-- `Config.getDefaultValue` for field `i` of the parent type.  Both setters are run on
a fresh zero value; when one ran, the field of the result and the field of a second
fresh zero value are turned into interface values (which panics for an unexported
field) and compared with `!=` (which panics when their type is not comparable). -/
def getDefaultValue (P : Program) (o : Options) (fuel : Nat) (parentType : GoType)
    (i : Nat) : DefaultResult :=
  let zero := zeroValue P fuel parentType
  let r1 :=
    match P.setDefaults parentType with
    | some f => (f zero, true)
    | none => (zero, false)
  let r2 :=
    match o.defaultSetter parentType with
    | some g => (g r1.1, true)
    | none => r1
  if r2.2 then
    match parentType with
    | GoType.struct id =>
      match (P.fields id).get? i, fieldOf r2.1 i, fieldOf zero i with
      | some f, some u, some z =>
        if !f.exported then DefaultResult.panics
        else if !comparable P fuel f.type then DefaultResult.panics
        else if sameValue fuel u z then DefaultResult.absent
        else DefaultResult.found u
      | _, _, _ => DefaultResult.panics
    | _ => DefaultResult.panics
  else DefaultResult.absent

/-- A `SetDefaults` that fills the slice field (field 3) of struct 0 of `demoProgram`
with one item when it is nil. -/
def fillSlice : Value → Value
  | Value.struct [a, b, c, Value.slice none, d, e, f, g] =>
    Value.struct [a, b, c, Value.slice (some [zeroItem]), d, e, f, g]
  | w => w

/-- `demoProgram` with `fillSlice` as the `SetDefaults` of struct 0. -/
def sliceDefaultProgram : Program where
  fields := demoProgram.fields
  setDefaults := fun t => if t = GoType.struct 0 then some fillSlice else none
  mapRange := demoProgram.mapRange

/-! # Theorems -/

/-! ## The pattern of `EnvironmentReader` under a literal prefix -/

theorem parseFrom_append (st : PState) (xs ys : Str) :
    parseFrom st (xs ++ ys) =
      match parseFrom st xs with
      | .ok st' => parseFrom st' ys
      | .error e => .error e := by
  induction xs generalizing st with
  | nil => simp [parseFrom]
  | cons x xs ih =>
    simp only [List.cons_append, parseFrom]
    cases h : step st x with
    | ok st' => simp [ih]
    | error e => simp

theorem parseFrom_literal (p : Str) (hp : ∀ c ∈ p, c ∉ metaChars) (st : PState)
    (hm : st.mode = Mode.normal) :
    parseFrom st p = .ok { st with cur := (p.map Regex.char).reverse ++ st.cur } := by
  induction p generalizing st with
  | nil => simp [parseFrom]
  | cons x xs ih =>
    have hx : x ∉ metaChars := hp x (List.mem_cons_self _ _)
    have hxs : ∀ c ∈ xs, c ∉ metaChars := fun c hc => hp c (List.mem_cons_of_mem _ hc)
    simp only [parseFrom, step, hm, hx, if_false]
    rw [ih hxs ⟨st.stack, st.alts, Regex.char x :: st.cur, st.ncap, Mode.normal⟩ rfl]
    simp

theorem parsePattern_envPattern (p : Str) (hp : ∀ c ∈ p, c ∉ metaChars) :
    parsePattern (envPattern p) = .ok ⟨envRegex p, 1⟩ := by
  unfold parsePattern envPattern
  have h1 : parseFrom ⟨[], [], [], 0, Mode.normal⟩ ("^".toList) = .ok ⟨[], [], [Regex.bol], 0, Mode.normal⟩ := by
    rfl
  rw [List.append_assoc, parseFrom_append, h1]
  simp only []
  rw [parseFrom_append, parseFrom_literal p hp _ rfl]
  simp only []
  simp [parseFrom, step, stepMeta, metaChars, finish, collapse, envRegex, mkCat]


theorem compile_envPattern (lib : Library) (p : Str) (hp : ∀ c ∈ p, c ∉ metaChars) :
    compile lib (envPattern p) = .ok (findAllStringSubmatch ⟨envRegex p, 1⟩) := by
  unfold compile
  rw [parsePattern_envPattern p hp]

theorem flatten_map_singleton {α : Type} (l : List α) : (l.map (fun x => [x])).flatten = l := by
  induction l with
  | nil => rfl
  | cons x xs ih => simp [ih]

theorem run_lits (p : Str) (tail : List Regex) (s : MState) :
    run (mkCat (p.map Regex.char ++ tail)) s =
      match stripPrefix p s.rest with
      | some r => run (mkCat tail) ⟨s.pos + p.length, r, s.caps⟩
      | none => [] := by
  induction p generalizing s with
  | nil => simp [stripPrefix]
  | cons c p ih =>
    obtain ⟨pos, rest, caps⟩ := s
    cases rest with
    | nil => simp [mkCat, run, stripPrefix]
    | cons x xs =>
      by_cases hx : x = c
      · simp [mkCat, run, stripPrefix, hx, ih, Nat.add_assoc, Nat.add_comm 1]
      · simp [mkCat, run, stripPrefix, hx]

theorem star_cls_then (K : MState → List MState)
    (hK : ∀ s : MState, s.rest.head? ≠ some '=' → K s = []) :
    ∀ (n : Nat) (s : MState), s.rest.length ≤ n →
      ((starRun (fun s' => run (Regex.cls true ['=']) s') n s).map K).flatten =
        K ⟨s.pos + (s.rest.takeWhile (fun x => decide (x ≠ '='))).length,
           s.rest.dropWhile (fun x => decide (x ≠ '=')), s.caps⟩ := by
  intro n
  induction n with
  | zero =>
    intro s hs
    obtain ⟨pos, rest, caps⟩ := s
    have : rest = [] := List.eq_nil_of_length_eq_zero (Nat.le_zero.mp hs)
    subst this
    simp [starRun]
  | succ n ih =>
    intro s hs
    obtain ⟨pos, rest, caps⟩ := s
    cases rest with
    | nil => simp [starRun, run]
    | cons x xs =>
      by_cases hx : x = '='
      · subst hx
        simp [starRun, run]
      · have hlen : xs.length ≤ n := by simpa using hs
        have hKs : K ⟨pos, x :: xs, caps⟩ = [] := hK _ (by simp [hx])
        have := ih ⟨pos + 1, xs, caps⟩ hlen
        have hrun : run (Regex.cls true ['=']) ⟨pos, x :: xs, caps⟩ = [⟨pos + 1, xs, caps⟩] := by
          simp [run, hx]
        simp only [starRun, hrun]
        simp [this, hKs, hx, Nat.add_assoc, Nat.add_comm 1]

theorem star_any_then (K : MState → List MState)
    (hK : ∀ s : MState, s.rest ≠ [] → K s = []) :
    ∀ (n : Nat) (s : MState), s.rest.length ≤ n →
      ((starRun (fun s' => run Regex.any s') n s).map K).flatten =
        if '\n' ∈ s.rest then [] else K ⟨s.pos + s.rest.length, [], s.caps⟩ := by
  intro n
  induction n with
  | zero =>
    intro s hs
    obtain ⟨pos, rest, caps⟩ := s
    have : rest = [] := List.eq_nil_of_length_eq_zero (Nat.le_zero.mp hs)
    subst this
    simp [starRun]
  | succ n ih =>
    intro s hs
    obtain ⟨pos, rest, caps⟩ := s
    cases rest with
    | nil => simp [starRun, run]
    | cons x xs =>
      have hKs : K ⟨pos, x :: xs, caps⟩ = [] := hK _ (by simp)
      by_cases hx : x = '\n'
      · subst hx
        simp [starRun, run, hKs]
      · have hlen : xs.length ≤ n := by simpa using hs
        have := ih ⟨pos + 1, xs, caps⟩ hlen
        have hx' : ¬ '\n' = x := fun h => hx h.symm
        have hrun : run Regex.any ⟨pos, x :: xs, caps⟩ = [⟨pos + 1, xs, caps⟩] := by
          simp [run, hx]
        simp only [starRun, hrun]
        simp [this, hKs, hx, hx', Nat.add_assoc, Nat.add_comm 1]

theorem run_group_any_eol (s : MState) :
    run (mkCat [Regex.group 1 (mkCat [Regex.star Regex.any]), Regex.eol]) s =
      if '\n' ∈ s.rest then []
      else [⟨s.pos + s.rest.length, [], (1, s.rest) :: s.caps⟩] := by
  have hK : ∀ t : MState, t.rest ≠ [] →
      (fun s' : MState => run (mkCat [Regex.eol])
        ⟨s'.pos, s'.rest, (1, s.rest.take (s'.pos - s.pos)) :: s'.caps⟩) t = [] := by
    intro t ht
    simp [mkCat, run, ht]
  have h := star_any_then _ hK s.rest.length s (Nat.le_refl _)
  simp only [mkCat, run, flatten_map_singleton, List.map_map, Function.comp_def] at h ⊢
  simpa using h

theorem dropWhile_cons_head {α : Type} (p : α → Bool) :
    ∀ (l : List α) (x : α) (v : List α), l.dropWhile p = x :: v → p x = false := by
  intro l
  induction l with
  | nil => intro x v h; simp at h
  | cons a l ih =>
    intro x v h
    by_cases ha : p a = true
    · rw [List.dropWhile_cons_of_pos ha] at h
      exact ih x v h
    · rw [List.dropWhile_cons_of_neg ha] at h
      injection h with h1 h2
      subst h1
      simpa using ha

theorem run_cat_char (c : Char) (r : Regex) (pos : Nat) (v : Str) (caps : List (Nat × Str)) :
    run (Regex.cat (Regex.char c) r) ⟨pos, c :: v, caps⟩ = run r ⟨pos + 1, v, caps⟩ := by
  simp [run]

theorem run_envTail (s : MState) :
    run (mkCat [Regex.star (Regex.cls true ['=']), Regex.char '=',
        Regex.group 1 (mkCat [Regex.star Regex.any]), Regex.eol]) s =
      match s.rest.dropWhile (fun x => decide (x ≠ '=')) with
      | [] => []
      | _ :: v =>
        if '\n' ∈ v then []
        else [⟨s.pos + s.rest.length, [], (1, v) :: s.caps⟩] := by
  have hK : ∀ t : MState, t.rest.head? ≠ some '=' →
      (fun s' => run (mkCat [Regex.char '=',
        Regex.group 1 (mkCat [Regex.star Regex.any]), Regex.eol]) s') t = [] := by
    intro t ht
    obtain ⟨pos, rest, caps⟩ := t
    cases rest with
    | nil => simp [mkCat, run]
    | cons x xs =>
      have hx : x ≠ '=' := by simpa using ht
      simp [mkCat, run, hx]
  have h := star_cls_then _ hK s.rest.length s (Nat.le_refl _)
  have e : run (mkCat [Regex.star (Regex.cls true ['=']), Regex.char '=',
        Regex.group 1 (mkCat [Regex.star Regex.any]), Regex.eol]) s =
      ((starRun (fun s' => run (Regex.cls true ['=']) s') s.rest.length s).map
        (fun s' => run (mkCat [Regex.char '=',
          Regex.group 1 (mkCat [Regex.star Regex.any]), Regex.eol]) s')).flatten := by
    rw [mkCat, run, run]
  rw [e, h]
  have hsplit := List.takeWhile_append_dropWhile (fun x => decide (x ≠ '=')) s.rest
  cases hd : s.rest.dropWhile (fun x => decide (x ≠ '=')) with
  | nil => simp [mkCat, run]
  | cons x v =>
    have hx : x = '=' := by
      have := dropWhile_cons_head _ _ _ _ hd
      simpa using this
    subst hx
    have hlen : s.rest.length = (s.rest.takeWhile (fun x => decide (x ≠ '='))).length + (v.length + 1) := by
      conv_lhs => rw [← hsplit, hd]
      simp
    have hg := run_group_any_eol ⟨s.pos + (s.rest.takeWhile (fun x => decide (x ≠ '='))).length + 1, v, s.caps⟩
    rw [mkCat, run_cat_char, hg]
    simp [hlen, Nat.add_assoc, Nat.add_comm 1]

theorem stripPrefix_eq : ∀ (p e r : Str), stripPrefix p e = some r → e = p ++ r := by
  intro p
  induction p with
  | nil => intro e r h; simpa [stripPrefix] using h
  | cons c p ih =>
    intro e r h
    cases e with
    | nil => simp [stripPrefix] at h
    | cons x e =>
      by_cases hx : x = c
      · simp only [stripPrefix, hx, if_true] at h
        rw [ih e r h, hx]; rfl
      · simp [stripPrefix, hx] at h

theorem stripPrefix_append (p r : Str) : stripPrefix p (p ++ r) = some r := by
  induction p with
  | nil => simp [stripPrefix]
  | cons c p ih => simp [stripPrefix, ih]

theorem run_envRegex_start (p e : Str) :
    run (envRegex p) ⟨0, e, []⟩ =
      match envValue p e with
      | some v => [⟨e.length, [], [(1, v)]⟩]
      | none => [] := by
  unfold envRegex envValue
  rw [mkCat, run]
  simp only [run, if_true, List.map_cons, List.map_nil, List.flatten_cons, List.flatten_nil,
    List.append_nil]
  rw [run_lits]
  cases hs : stripPrefix p e with
  | none => simp
  | some r =>
    simp only [run_envTail]
    have he := stripPrefix_eq p e r hs
    cases hd : r.dropWhile (fun x => decide (x ≠ '=')) with
    | nil => simp
    | cons x v =>
      by_cases hn : '\n' ∈ v
      · simp [hn]
      · simp [hn, he]

theorem run_envRegex_later (p : Str) (pos : Nat) (rest : Str) (caps : List (Nat × Str))
    (hpos : 0 < pos) : run (envRegex p) ⟨pos, rest, caps⟩ = [] := by
  unfold envRegex
  rw [mkCat, run]
  have : pos ≠ 0 := Nat.pos_iff_ne_zero.mp hpos
  simp [run, this]

theorem execute_later (p text : Str) :
    ∀ (n pos : Nat), 0 < pos → execute (envRegex p) text n pos = none := by
  intro n
  induction n with
  | zero => intro pos _; rfl
  | succ n ih =>
    intro pos hpos
    simp only [execute, run_envRegex_later p pos _ _ hpos]
    split
    · exact ih (pos + 1) (Nat.succ_pos _)
    · rfl

theorem envValue_length_pos (p e v : Str) (h : envValue p e = some v) : 0 < e.length := by
  cases e with
  | nil =>
    unfold envValue at h
    cases p with
    | nil => simp [stripPrefix] at h
    | cons c p => simp [stripPrefix] at h
  | cons x e => simp

theorem execute_start (p e : Str) (n : Nat) :
    execute (envRegex p) e (n + 1) 0 =
      match envValue p e with
      | some v => some (0, e.length, [(1, v)])
      | none => none := by
  simp only [execute, List.drop_zero, run_envRegex_start]
  cases envValue p e with
  | none =>
    simp only []
    split
    · exact execute_later p e _ _ (Nat.succ_pos _)
    · rfl
  | some v => rfl

theorem findAll_envRegex (p e : Str) :
    findAllStringSubmatch ⟨envRegex p, 1⟩ e =
      match envValue p e with
      | some v => [[e, v]]
      | none => [] := by
  unfold findAllStringSubmatch
  rw [show e.length + 2 = (e.length + 1) + 1 from rfl, allMatches]
  simp only [Nat.zero_le, if_true, Nat.sub_zero, execute_start]
  cases hv : envValue p e with
  | none => rfl
  | some v =>
    have hlen := envValue_length_pos p e v hv
    have hne : e.length ≠ 0 := Nat.pos_iff_ne_zero.mp hlen
    have hr : List.range 1 = [0] := rfl
    simp only [hne, if_false, allMatches, Nat.le_refl, if_true, execute_later p e _ _ hlen, hr]
    simp [capture]

theorem envToArgs_literal (p : Str) :
    ∀ (env args : List Str),
      envToArgs (findAllStringSubmatch ⟨envRegex p, 1⟩) args env
        = args ++ env.filterMap (envValue p) := by
  intro env
  induction env with
  | nil => intro args; simp [envToArgs]
  | cons e env ih =>
    intro args
    simp only [envToArgs, findAll_envRegex]
    cases hv : envValue p e with
    | none => simp [ih, hv]
    | some v => simp [ih, hv]

theorem EnvironmentReader_literal (lib : Library) (c : Config) (env : List Str)
    (hne : c.options.prefixEnv ≠ []) (hlit : ∀ x ∈ c.options.prefixEnv, x ∉ metaChars) :
    EnvironmentReader lib c env
      = ReadCloser.reader (env.filterMap (envValue c.options.prefixEnv)) := by
  unfold EnvironmentReader
  rw [if_neg hne, compile_envPattern lib _ hlit]
  simp [ArgumentReader, envToArgs_literal]

theorem dropWhile_eq_cons_split (r v : Str) :
    (∃ x, r.dropWhile (fun x => decide (x ≠ '=')) = x :: v) ↔
      ∃ k, r = k ++ '=' :: v ∧ '=' ∉ k := by
  constructor
  · rintro ⟨x, hx⟩
    have h1 := dropWhile_cons_head _ _ _ _ hx
    have hx' : x = '=' := by simpa using h1
    subst hx'
    refine ⟨r.takeWhile (fun x => decide (x ≠ '=')), ?_, ?_⟩
    · rw [← hx, List.takeWhile_append_dropWhile]
    · intro hmem
      have := List.mem_takeWhile_imp hmem
      simp at this
  · rintro ⟨k, rfl, hk⟩
    refine ⟨'=', ?_⟩
    induction k with
    | nil => simp
    | cons a k ih =>
      have ha : a ≠ '=' := fun h => hk (by simp [h])
      have hk' : '=' ∉ k := fun h => hk (List.mem_cons_of_mem _ h)
      have := ih hk'
      simpa [List.dropWhile_cons, ha] using this

theorem envValue_eq_some_iff (p e v : Str) :
    envValue p e = some v ↔ ∃ k, e = p ++ k ++ '=' :: v ∧ '=' ∉ k ∧ '\n' ∉ v := by
  unfold envValue
  constructor
  · intro h
    cases hs : stripPrefix p e with
    | none => simp [hs] at h
    | some r =>
      rw [hs] at h
      simp only [] at h
      cases hd : r.dropWhile (fun x => decide (x ≠ '=')) with
      | nil => rw [hd] at h; simp at h
      | cons x w =>
        rw [hd] at h
        simp only [] at h
        by_cases hn : '\n' ∈ w
        · simp [hn] at h
        · simp only [hn, if_false, Option.some.injEq] at h
          subst h
          obtain ⟨k, hk, hk2⟩ := (dropWhile_eq_cons_split r w).mp ⟨x, hd⟩
          refine ⟨k, ?_, hk2, hn⟩
          rw [stripPrefix_eq p e r hs, hk, List.append_assoc]
  · rintro ⟨k, rfl, hk, hn⟩
    rw [List.append_assoc, stripPrefix_append]
    obtain ⟨x, hx⟩ := (dropWhile_eq_cons_split (k ++ '=' :: v) v).mpr ⟨k, rfl, hk⟩
    simp only [hx, hn, if_false]

theorem takeWhile_dropWhile_sentinel (k v : Str) (hk : '=' ∉ k) :
    (k ++ '=' :: v).takeWhile (fun x => decide (x ≠ '=')) = k ∧
      (k ++ '=' :: v).dropWhile (fun x => decide (x ≠ '=')) = '=' :: v := by
  induction k with
  | nil => simp
  | cons a k ih =>
    have ha : a ≠ '=' := fun h => hk (by simp [h])
    have hk' : '=' ∉ k := fun h => hk (List.mem_cons_of_mem _ h)
    obtain ⟨h1, h2⟩ := ih hk'
    constructor
    · simpa [List.takeWhile_cons, ha] using h1
    · simpa [List.dropWhile_cons, ha] using h2

theorem envValue_eq_selects (p e : Str) (hp : '=' ∉ p) :
    envValue p e = if selects p e then some (entryValue e) else none := by
  by_cases hs : selects p e = true
  · rw [if_pos hs]
    simp only [selects, Bool.and_eq_true, decide_eq_true_eq, Bool.not_eq_true',
      decide_eq_false_iff_not] at hs
    obtain ⟨⟨hmem, hpre⟩, hnl⟩ := hs
    rw [envValue_eq_some_iff]
    obtain ⟨k, hk⟩ := List.isPrefixOf_iff_prefix.mp hpre
    cases hd : e.dropWhile (fun x => decide (x ≠ '=')) with
    | nil =>
      exfalso
      have := List.dropWhile_eq_nil_iff.mp hd '=' hmem
      simp at this
    | cons x w =>
      have hx : x = '=' := by simpa using dropWhile_cons_head _ _ _ _ hd
      subst hx
      have hsplit := List.takeWhile_append_dropWhile (fun x => decide (x ≠ '=')) e
      have hkey : '=' ∉ entryKey e := by
        intro hmem'
        have := List.mem_takeWhile_imp hmem'
        simp at this
      have hev : entryValue e = w := by
        unfold entryValue
        rw [hd]
        rfl
      rw [hev] at hnl ⊢
      refine ⟨k, ?_, ?_, hnl⟩
      · unfold entryKey at hk
        calc e = List.takeWhile (fun x => decide (x ≠ '=')) e
                  ++ List.dropWhile (fun x => decide (x ≠ '=')) e := hsplit.symm
          _ = p ++ k ++ '=' :: w := by rw [hd, ← hk]
      · intro h
        exact hkey (by rw [← hk]; exact List.mem_append_right _ h)
  · rw [if_neg hs]
    cases hv : envValue p e with
    | none => rfl
    | some v =>
      exfalso
      apply hs
      obtain ⟨k, rfl, hk, hn⟩ := (envValue_eq_some_iff p e v).mp hv
      have hpk : '=' ∉ p ++ k := by
        intro h
        rcases List.mem_append.mp h with h | h
        · exact hp h
        · exact hk h
      obtain ⟨h1, h2⟩ := takeWhile_dropWhile_sentinel (p ++ k) v hpk
      simp only [selects, entryKey, entryValue, h1, h2, List.tail_cons, Bool.and_eq_true,
        decide_eq_true_eq, Bool.not_eq_true', decide_eq_false_iff_not]
      refine ⟨⟨by simp, ?_⟩, hn⟩
      exact List.isPrefixOf_iff_prefix.mpr ⟨k, rfl⟩

theorem filterMap_ite_some {α β : Type} (q : α → Bool) (f : α → β) (l : List α) :
    l.filterMap (fun a => if q a then some (f a) else none) = (l.filter q).map f := by
  induction l with
  | nil => rfl
  | cons a l ih =>
    by_cases h : q a = true
    · simp [List.filterMap_cons, List.filter_cons, h, ih]
    · simp [List.filterMap_cons, List.filter_cons, h, ih]

/-! ## Claims about the environment filter -/

/-- C1, as stated, fails: with prefix `APP_` the entries `["APP_NAME=bob","OTHER=1"]`
forward the argument list `["bob"]`, not `["NAME=bob"]`: submatch 1 of the pattern is
the text after the `=`, the rest of the key lies outside the group. -/
theorem EnvironmentReader_example_forwards_value_only :
    (∀ lib : Library,
      EnvironmentReader lib (envConfig "APP_".toList)
          ["APP_NAME=bob".toList, "OTHER=1".toList]
        = ReadCloser.reader ["bob".toList]) ∧
    (∀ lib : Library,
      EnvironmentReader lib (envConfig "APP_".toList)
          ["APP_NAME=bob".toList, "OTHER=1".toList]
        ≠ ReadCloser.reader ["NAME=bob".toList]) := by
  have h : ∀ lib : Library,
      EnvironmentReader lib (envConfig "APP_".toList)
          ["APP_NAME=bob".toList, "OTHER=1".toList]
        = ReadCloser.reader ["bob".toList] := by
    intro lib
    rw [EnvironmentReader_literal lib _ _ (by decide) (by decide)]
    decide
  refine ⟨h, fun lib => ?_⟩
  rw [h lib]
  decide

/-- C1, amended: for a non-empty literal prefix `P` (no regexp metacharacter) the
argument forwarded for an entry `P+REST=VALUE` (`REST` without `=`, `VALUE` without
line feed) is `VALUE` alone, placed between the arguments of the entries before it and
those of the entries after it. -/
theorem EnvironmentReader_forwards_value (lib : Library) (c : Config)
    (before after : List Str) (rest value : Str)
    (hne : c.options.prefixEnv ≠ []) (hlit : ∀ x ∈ c.options.prefixEnv, x ∉ metaChars)
    (hrest : '=' ∉ rest) (hvalue : '\n' ∉ value) :
    ∃ a b, EnvironmentReader lib c before = ReadCloser.reader a ∧
      EnvironmentReader lib c after = ReadCloser.reader b ∧
      EnvironmentReader lib c
          (before ++ [c.options.prefixEnv ++ rest ++ '=' :: value] ++ after)
        = ReadCloser.reader (a ++ [value] ++ b) := by
  refine ⟨before.filterMap (envValue c.options.prefixEnv),
    after.filterMap (envValue c.options.prefixEnv), ?_, ?_, ?_⟩
  · exact EnvironmentReader_literal lib c before hne hlit
  · exact EnvironmentReader_literal lib c after hne hlit
  · rw [EnvironmentReader_literal lib c _ hne hlit]
    have hv : envValue c.options.prefixEnv (c.options.prefixEnv ++ rest ++ '=' :: value)
        = some value :=
      (envValue_eq_some_iff _ _ _).mpr ⟨rest, rfl, hrest, hvalue⟩
    simp only [List.append_assoc] at hv
    simp [List.filterMap_append, List.filterMap_cons, hv]

/-- Witness of C1 amended: prefix `APP_`, entries `["APP_NAME=bob","OTHER=1"]`, whatever
the library does outside the modelled syntax. -/
theorem EnvironmentReader_forwards_value_witness :
    (envConfig "APP_".toList).options.prefixEnv ≠ [] ∧
    ∀ lib : Library,
      ∃ a b, EnvironmentReader lib (envConfig "APP_".toList) [] = ReadCloser.reader a ∧
        EnvironmentReader lib (envConfig "APP_".toList) ["OTHER=1".toList]
          = ReadCloser.reader b ∧
        EnvironmentReader lib (envConfig "APP_".toList)
            ([] ++ ["APP_".toList ++ "NAME".toList ++ '=' :: "bob".toList]
              ++ ["OTHER=1".toList])
          = ReadCloser.reader (a ++ ["bob".toList] ++ b) :=
  ⟨by decide, fun lib =>
    EnvironmentReader_forwards_value lib (envConfig "APP_".toList) [] ["OTHER=1".toList]
      "NAME".toList "bob".toList (by decide) (by decide) (by decide) (by decide)⟩

/-- C2, as stated, fails: an entry whose key begins with the prefix but whose value
holds a line feed yields no argument, and a prefix is read as a regular expression, so
under the prefix `A.` the entry `AXB=1`, whose key does not begin with `A.`, yields one. -/
theorem EnvironmentReader_not_key_prefix_filter :
    ((∀ lib : Library,
        EnvironmentReader lib (envConfig "APP_".toList) ["APP_A=x\ny".toList]
          = ReadCloser.reader []) ∧
      "APP_".toList.isPrefixOf (entryKey "APP_A=x\ny".toList) = true) ∧
    ((∀ lib : Library,
        EnvironmentReader lib (envConfig "A.".toList) ["AXB=1".toList]
          = ReadCloser.reader ["1".toList]) ∧
      "A.".toList.isPrefixOf (entryKey "AXB=1".toList) = false) := by
  refine ⟨⟨fun lib => ?_, by decide⟩, ⟨fun lib => ?_, by decide⟩⟩
  · rw [EnvironmentReader_literal lib _ _ (by decide) (by decide)]
    decide
  · have hc : compile lib (envPattern (envConfig "A.".toList).options.prefixEnv)
        = .ok (findAllStringSubmatch
            ⟨mkCat [Regex.bol, Regex.char 'A', Regex.any, Regex.star (Regex.cls true ['=']),
              Regex.char '=', Regex.group 1 (mkCat [Regex.star Regex.any]), Regex.eol], 1⟩) :=
      rfl
    unfold EnvironmentReader
    rw [if_neg (by decide), hc]
    decide

/-- C2, amended: for a non-empty literal prefix `P` without `=` the argument list is an
order-preserving filter of the entries: one argument (the entry's value) for each entry
that has the shape `KEY=VALUE`, whose key begins with `P` and whose value holds no line
feed, none for any other entry, in the order of the entries; an entry is selected exactly
when it reads `P ++ k ++ "=" ++ v` with `k` free of `=` and `v` free of line feeds. -/
theorem EnvironmentReader_order_preserving_filter (lib : Library) (c : Config)
    (env : List Str)
    (hne : c.options.prefixEnv ≠ []) (hlit : ∀ x ∈ c.options.prefixEnv, x ∉ metaChars)
    (heq : '=' ∉ c.options.prefixEnv) :
    EnvironmentReader lib c env
        = ReadCloser.reader ((env.filter (selects c.options.prefixEnv)).map entryValue) ∧
      ∀ e, selects c.options.prefixEnv e = true ↔
        ∃ k v, e = c.options.prefixEnv ++ k ++ '=' :: v ∧ '=' ∉ k ∧ '\n' ∉ v := by
  constructor
  · rw [EnvironmentReader_literal lib c env hne hlit, ← filterMap_ite_some]
    congr 1
    apply List.filterMap_congr
    intro e _
    exact envValue_eq_selects _ e heq
  · intro e
    have h := envValue_eq_selects c.options.prefixEnv e heq
    constructor
    · intro hs
      rw [if_pos hs] at h
      obtain ⟨k, hk⟩ := (envValue_eq_some_iff _ _ _).mp h
      exact ⟨k, _, hk⟩
    · rintro ⟨k, v, hk⟩
      have hv := (envValue_eq_some_iff _ _ _).mpr ⟨k, hk⟩
      by_contra hs
      rw [if_neg hs, hv] at h
      exact Option.noConfusion h

/-- Witness of C2 amended: prefix `APP_`, entries `["APP_NAME=bob","OTHER=1","APP_X=2"]`
forward `["bob","2"]`, whatever the library does outside the modelled syntax. -/
theorem EnvironmentReader_order_preserving_filter_witness :
    (∀ lib : Library,
      EnvironmentReader lib (envConfig "APP_".toList)
          ["APP_NAME=bob".toList, "OTHER=1".toList, "APP_X=2".toList]
        = ReadCloser.reader
            ((["APP_NAME=bob".toList, "OTHER=1".toList, "APP_X=2".toList].filter
              (selects (envConfig "APP_".toList).options.prefixEnv)).map entryValue) ∧
        ∀ e, selects (envConfig "APP_".toList).options.prefixEnv e = true ↔
          ∃ k v, e = (envConfig "APP_".toList).options.prefixEnv ++ k ++ '=' :: v ∧
            '=' ∉ k ∧ '\n' ∉ v) ∧
    (["APP_NAME=bob".toList, "OTHER=1".toList, "APP_X=2".toList].filter
        (selects (envConfig "APP_".toList).options.prefixEnv)).map entryValue
      = ["bob".toList, "2".toList] :=
  ⟨fun lib => EnvironmentReader_order_preserving_filter lib (envConfig "APP_".toList)
    ["APP_NAME=bob".toList, "OTHER=1".toList, "APP_X=2".toList]
    (by decide) (by decide) (by decide), by decide⟩

/-! ## Claims about the parse entry points -/

theorem EnvironmentReader_ne_nil (lib : Library) (c : Config) (env : List Str)
    (hne : c.options.prefixEnv ≠ []) : EnvironmentReader lib c env ≠ ReadCloser.nil := by
  unfold EnvironmentReader
  rw [if_neg hne]
  cases compile lib (envPattern c.options.prefixEnv) with
  | error e => simp
  | ok re => simp [ArgumentReader]

/-- C3, the code at the failing input: with an empty `prefixEnv`, `EnvironmentReader`
returns a nil reader and `ParseEnvironment` panics on `defer reader.Close()` for every
decoder, destination and list of entries; it does not return nil. -/
theorem ParseEnvironment_empty_prefix_panics (lib : Library) (dec : Decoder) (auto : Bool)
    (setters : GoType → Option (Value → Value)) (t : GoType) (dest : Value)
    (env : List Str) :
    EnvironmentReader lib ⟨⟨[], auto, setters⟩, t, dest⟩ env = ReadCloser.nil ∧
      ParseEnvironment lib dec ⟨⟨[], auto, setters⟩, t, dest⟩ env
        = Outcome.panicked dest := by
  constructor
  · simp [EnvironmentReader]
  · simp [ParseEnvironment, EnvironmentReader]

/-- C4: whenever `regexp.Compile` rejects the pattern built from the prefix (by the
modelled parser or by the library), with whatever error, `EnvironmentReader` returns,
for every list of entries, a non-nil `*errorReader`; its error wraps the compile error
under the message `invalid env variable prefix`, every `Read` returns 0 bytes and that
error, and `Close` returns nil. -/
theorem EnvironmentReader_invalid_prefix_reader (lib : Library) (c : Config)
    (env : List Str) (err : CompileError)
    (herr : compile lib (envPattern c.options.prefixEnv) = .error err) :
    EnvironmentReader lib c env
        = ReadCloser.errorReader
            (GoError.wrap "invalid env variable prefix: ".toList (GoError.syntaxError err)) ∧
      EnvironmentReader lib c env ≠ ReadCloser.nil ∧
      (∀ buf, errorReader.Read
          (GoError.wrap "invalid env variable prefix: ".toList (GoError.syntaxError err)) buf
        = (0, some
            (GoError.wrap "invalid env variable prefix: ".toList
              (GoError.syntaxError err)))) ∧
      errorReader.Close
          (GoError.wrap "invalid env variable prefix: ".toList (GoError.syntaxError err))
        = none := by
  have hne : c.options.prefixEnv ≠ [] := by
    intro h
    rw [h, compile_envPattern lib [] (by simp)] at herr
    exact Except.noConfusion herr
  refine ⟨?_, EnvironmentReader_ne_nil lib c env hne, fun _ => rfl, rfl⟩
  unfold EnvironmentReader
  rw [if_neg hne, herr]

/-- Witness of C4: the prefix `(` gives the pattern `^([^=]*=(.*)$`, which lacks a
closing parenthesis; the library's `missing closing )` error is wrapped, whatever the
library does outside the modelled syntax. -/
theorem EnvironmentReader_invalid_prefix_reader_witness :
    ∃ e, e = GoError.wrap "invalid env variable prefix: ".toList
        (GoError.syntaxError CompileError.missingParen) ∧
      ∀ lib : Library,
        compile lib (envPattern (envConfig "(".toList).options.prefixEnv)
          = .error CompileError.missingParen ∧
        EnvironmentReader lib (envConfig "(".toList) ["APP_NAME=bob".toList]
          = ReadCloser.errorReader e ∧
        EnvironmentReader lib (envConfig "(".toList) ["APP_NAME=bob".toList]
          ≠ ReadCloser.nil ∧
        (∀ buf, errorReader.Read e buf = (0, some e)) ∧
        errorReader.Close e = none :=
  ⟨_, rfl, fun lib =>
    ⟨rfl, EnvironmentReader_invalid_prefix_reader lib (envConfig "(".toList)
      ["APP_NAME=bob".toList] CompileError.missingParen rfl⟩⟩

theorem decode_error_cases (e : Option GoError) :
    (e ≠ none ∧ e ≠ some GoError.eof) ∨ (e = none ∨ e = some GoError.eof) := by
  by_cases h1 : e = none
  · exact Or.inr (Or.inl h1)
  · by_cases h2 : e = some GoError.eof
    · exact Or.inr (Or.inr h2)
    · exact Or.inl ⟨h1, h2⟩

theorem returned_decode_error (r : Value × Option GoError) :
    ∃ e d calls,
      (if r.2 ≠ none ∧ r.2 ≠ some GoError.eof then Outcome.returned r.2 r.1 []
        else Outcome.returned none r.1 []) = Outcome.returned e d calls ∧
      (e = none ↔ r.2 = none ∨ r.2 = some GoError.eof) ∧ (e ≠ none → e = r.2) ∧
      d = r.1 ∧ calls = [] := by
  rcases decode_error_cases r.2 with hd | hd
  · refine ⟨r.2, r.1, [], by rw [if_pos hd], ⟨fun h => absurd h hd.1, ?_⟩, fun _ => rfl,
      rfl, rfl⟩
    rintro (h | h)
    · exact absurd h hd.1
    · exact absurd h hd.2
  · have hn : ¬ (r.2 ≠ none ∧ r.2 ≠ some GoError.eof) := by
      rintro ⟨h1, h2⟩
      rcases hd with h | h
      · exact h1 h
      · exact h2 h
    exact ⟨none, r.1, [], by rw [if_neg hn], ⟨fun _ => hd, fun _ => rfl⟩,
      fun h => absurd rfl h, rfl, rfl⟩

/-- C6, as stated, fails: with auto-apply-defaults enabled, `ParseArguments` with zero
arguments and a decode pass that only reports end of input returns no error but runs
the default applier, which changes the destination. -/
theorem ParseArguments_no_args_changes_dest :
    ParseArguments demoProgram emptyStreamDecoder (demoConfig true) [] 3 =
      Outcome.returned none
        demoDestAfter demoCalls ∧
      demoDestAfter ≠ (demoConfig true).dest := by
  constructor
  · rfl
  · simp [demoConfig, demoDest, demoDestAfter]

/-- C6, amended: when the decode pass of a call with zero arguments reports end of input
without touching the destination, `ParseArguments` returns no error; with
auto-apply-defaults disabled the destination is left exactly as it was and no setter is
called, with the option enabled the destination is left as `ApplyDefaults` leaves it. -/
theorem ParseArguments_no_args (P : Program) (dec : Decoder) (c : Config) (fuel : Nat)
    (hdec : dec c (ArgumentReader c []) = (c.dest, some GoError.eof)) :
    (c.options.autoApplyDefaults = false →
      ParseArguments P dec c [] fuel = Outcome.returned none c.dest []) ∧
    (c.options.autoApplyDefaults = true → ∀ d, ApplyDefaults P c fuel = some d →
      ParseArguments P dec c [] fuel = Outcome.returned none d.1 d.2) := by
  have hn : ¬ ((c.dest, some GoError.eof).2 ≠ none ∧
      (c.dest, some GoError.eof).2 ≠ some GoError.eof) := fun h => h.2 rfl
  constructor
  · intro ha
    unfold ParseArguments ParseYaml
    simp only [ArgumentReader] at hdec ⊢
    rw [hdec, if_neg hn]
    simp [ha]
  · intro ha d hd
    unfold ParseArguments ParseYaml
    simp only [ArgumentReader] at hdec ⊢
    rw [hdec, if_neg hn]
    simp only [ha, if_true]
    rw [show ({ options := c.options, destType := c.destType, dest := c.dest } : Config) = c
      from rfl, hd]

/-- Witness of C6 amended: the example configuration with the option disabled. -/
theorem ParseArguments_no_args_witness :
    (((demoConfig false).options.autoApplyDefaults = false →
      ParseArguments demoProgram emptyStreamDecoder (demoConfig false) [] 3
        = Outcome.returned none (demoConfig false).dest []) ∧
    ((demoConfig false).options.autoApplyDefaults = true →
      ∀ d, ApplyDefaults demoProgram (demoConfig false) 3 = some d →
        ParseArguments demoProgram emptyStreamDecoder (demoConfig false) [] 3
          = Outcome.returned none d.1 d.2)) ∧
    (demoConfig false).options.autoApplyDefaults = false :=
  ⟨ParseArguments_no_args demoProgram emptyStreamDecoder (demoConfig false) 3 rfl, rfl⟩

/-- C10, the code at the failing input: with auto-apply-defaults enabled and a decode
pass that ends at end of input, `ParseEnvironment` returns without a single setter call
and leaves the destination as decoded, while `ParseArguments` on the same configuration
ends by applying the defaults. -/
theorem ParseEnvironment_skips_defaults :
    (demoConfig true).options.autoApplyDefaults = true ∧
    (∀ lib : Library,
      ParseEnvironment lib emptyStreamDecoder (demoConfig true) ["APP_X=1".toList]
        = Outcome.returned none demoDest []) ∧
    ParseArguments demoProgram emptyStreamDecoder (demoConfig true) ["1".toList] 3 =
      Outcome.returned none
        demoDestAfter demoCalls := by
  refine ⟨rfl, fun lib => ?_, rfl⟩
  have h : EnvironmentReader lib (demoConfig true) ["APP_X=1".toList]
      = ReadCloser.reader ["1".toList] := by
    rw [EnvironmentReader_literal lib _ _ (by decide) (by decide)]
    decide
  unfold ParseEnvironment
  rw [h]
  rfl

/-! ## The default applier: where the setter calls happen -/

theorem runSetters_eq (P : Program) (o : Options) (t : GoType) (p : Path) (v : Value) :
    runSetters P o t p v =
      (applySetter (o.defaultSetter t) (applySetter (P.setDefaults t) v),
       setterEvent (P.setDefaults t) SetterKind.own t p ++
         setterEvent (o.defaultSetter t) SetterKind.registered t p) := by
  unfold runSetters applySetter setterEvent
  cases P.setDefaults t <;> cases o.defaultSetter t <;> rfl

theorem setterEvent_path (g : Option (Value → Value)) (k : SetterKind) (t : GoType)
    (p : Path) : ∀ e ∈ setterEvent g k t p, e.path = p := by
  intro e he
  cases g with
  | none => simp [setterEvent] at he
  | some f =>
    simp only [setterEvent, List.mem_singleton] at he
    rw [he]

theorem isPrefix_of_append {p s q : Path} (h : (p ++ s) <+: q) : p <+: q :=
  (List.prefix_append p s).trans h

theorem walkPtr_below (rec : Walk) (hrec : Below rec) (p : Path) (elemT : GoType)
    (v : Value) (r : Value × List Event) (h : walkPtr rec p elemT v = some r) :
    ∀ e ∈ r.2, p <+: e.path := by
  unfold walkPtr at h
  split at h
  · rename_i id x
    cases hr : rec (GoType.struct id) (p ++ [Seg.deref]) x with
    | none => simp [hr] at h
    | some r' =>
      simp only [hr, Option.some.injEq] at h
      subst h
      intro e he
      exact isPrefix_of_append (hrec _ _ _ _ hr e he)
  · simp only [Option.some.injEq] at h
    subst h
    intro e he
    simp at he

theorem walkSliceElem_below (rec : Walk) (hrec : Below rec) (p : Path) (elemT : GoType)
    (x : Value) (r : Value × List Event) (h : walkSliceElem rec p elemT x = some r) :
    ∀ e ∈ r.2, p <+: e.path := by
  unfold walkSliceElem at h
  split at h
  · exact hrec _ _ _ _ h
  · exact walkPtr_below rec hrec _ _ _ _ h
  · simp only [Option.some.injEq] at h
    subst h
    intro e he
    simp at he

theorem walkSlice_below (rec : Walk) (hrec : Below rec) (p : Path) (elemT : GoType) :
    ∀ (xs : List Value) (i : Nat) (r : List Value × List Event),
      walkSlice rec p elemT i xs = some r → ∀ e ∈ r.2, ∃ j, (p ++ [Seg.index j]) <+: e.path := by
  intro xs
  induction xs with
  | nil =>
    intro i r h
    simp only [walkSlice, Option.some.injEq] at h
    subst h
    intro e he
    simp at he
  | cons x xs ih =>
    intro i r h
    simp only [walkSlice] at h
    cases h1 : walkSliceElem rec (p ++ [Seg.index i]) elemT x with
    | none => simp [h1] at h
    | some r1 =>
      cases h2 : walkSlice rec p elemT (i + 1) xs with
      | none => simp [h1, h2] at h
      | some r2 =>
        simp only [h1, h2, Option.some.injEq] at h
        subst h
        intro e he
        rcases List.mem_append.mp he with he | he
        · exact ⟨i, walkSliceElem_below rec hrec _ _ _ _ h1 e he⟩
        · exact ih _ _ h2 e he

theorem walkMap_below (rec : Walk) (hrec : Below rec) (p : Path) (elemT : GoType) :
    ∀ (ks : List Nat) (m : List (Nat × Value)) (r : List (Nat × Value) × List Event),
      walkMap rec p elemT ks m = some r → ∀ e ∈ r.2, ∃ k, (p ++ [Seg.key k]) <+: e.path := by
  intro ks
  induction ks with
  | nil =>
    intro m r h
    simp only [walkMap, Option.some.injEq] at h
    subst h
    intro e he
    simp at he
  | cons k ks ih =>
    intro m r h
    simp only [walkMap] at h
    cases hm : mapIndex m k with
    | none =>
      simp only [hm] at h
      exact ih _ _ h
    | some elem =>
      simp only [hm] at h
      split at h
      · rename_i id
        cases h1 : rec (GoType.struct id) (p ++ [Seg.key k]) elem with
        | none => simp [h1] at h
        | some r1 =>
          cases h2 : walkMap rec p (GoType.struct id) ks (setMapIndex m k r1.1) with
          | none => simp [h1, h2] at h
          | some r2 =>
            simp only [h1, h2, Option.some.injEq] at h
            subst h
            intro e he
            rcases List.mem_append.mp he with he | he
            · exact ⟨k, hrec _ _ _ _ h1 e he⟩
            · exact ih _ _ h2 e he
      · rename_i e'
        cases h1 : walkPtr rec (p ++ [Seg.key k]) e' elem with
        | none => simp [h1] at h
        | some r1 =>
          cases h2 : walkMap rec p (GoType.ptr e') ks (setMapIndex m k r1.1) with
          | none => simp [h1, h2] at h
          | some r2 =>
            simp only [h1, h2, Option.some.injEq] at h
            subst h
            intro e he
            rcases List.mem_append.mp he with he | he
            · exact ⟨k, walkPtr_below rec hrec _ _ _ _ h1 e he⟩
            · exact ih _ _ h2 e he
      · exact ih _ _ h

theorem walkField_below (P : Program) (rec : Walk) (hrec : Below rec) (p : Path)
    (ft : GoType) (fv : Value) (r : Value × List Event)
    (h : walkField P rec p ft fv = some r) : ∀ e ∈ r.2, p <+: e.path := by
  have hnil : ∀ w : Value, some (w, ([] : List Event)) = some r → ∀ e ∈ r.2, p <+: e.path := by
    intro w hw e he
    simp only [Option.some.injEq] at hw
    subst hw
    simp at he
  cases ft with
  | struct id => exact hrec _ _ _ _ h
  | ptr e' => exact walkPtr_below rec hrec _ _ _ _ h
  | other n => exact hnil _ h
  | slice e' =>
    cases fv with
    | slice oxs =>
      cases oxs with
      | none => exact hnil _ h
      | some xs =>
        simp only [walkField] at h
        cases h1 : walkSlice rec p e' 0 xs with
        | none => simp [h1] at h
        | some r1 =>
          simp only [h1, Option.some.injEq] at h
          subst h
          intro e he
          obtain ⟨j, hj⟩ := walkSlice_below rec hrec _ _ _ _ _ h1 e he
          exact isPrefix_of_append hj
    | other n => exact hnil _ h
    | struct fs => exact hnil _ h
    | ptr t => exact hnil _ h
    | map m => exact hnil _ h
  | map e' =>
    cases fv with
    | map om =>
      cases om with
      | none => exact hnil _ h
      | some m =>
        simp only [walkField] at h
        cases h1 : walkMap rec p e' (P.mapRange m) m with
        | none => simp [h1] at h
        | some r1 =>
          simp only [h1, Option.some.injEq] at h
          subst h
          intro e he
          obtain ⟨j, hj⟩ := walkMap_below rec hrec _ _ _ _ _ h1 e he
          exact isPrefix_of_append hj
    | other n => exact hnil _ h
    | struct fs => exact hnil _ h
    | ptr t => exact hnil _ h
    | slice xs => exact hnil _ h

theorem walkFields_below (P : Program) (rec : Walk) (hrec : Below rec) (p : Path) :
    ∀ (fs : List StructField) (vs : List Value) (i : Nat) (r : List Value × List Event),
      walkFields P rec p i fs vs = some r →
        ∀ e ∈ r.2, ∃ j, (p ++ [Seg.field j]) <+: e.path := by
  intro fs
  induction fs with
  | nil =>
    intro vs i r h
    simp only [walkFields, Option.some.injEq] at h
    subst h
    intro e he
    simp at he
  | cons f fs ih =>
    intro vs i r h
    cases vs with
    | nil =>
      simp only [walkFields, Option.some.injEq] at h
      subst h
      intro e he
      simp at he
    | cons v vs =>
      simp only [walkFields] at h
      cases h1 : (if f.exported = true then walkField P rec (p ++ [Seg.field i]) f.type v
          else some (v, [])) with
      | none => simp [h1] at h
      | some r1 =>
        cases h2 : walkFields P rec p (i + 1) fs vs with
        | none => simp [h1, h2] at h
        | some r2 =>
          simp only [h1, h2, Option.some.injEq] at h
          subst h
          intro e he
          rcases List.mem_append.mp he with he | he
          · refine ⟨i, ?_⟩
            by_cases hx : f.exported = true
            · rw [if_pos hx] at h1
              exact walkField_below P rec hrec _ _ _ _ h1 e he
            · rw [if_neg hx] at h1
              simp only [Option.some.injEq] at h1
              subst h1
              simp at he
          · exact ih _ _ _ h2 e he
theorem applyDefaultsRecursive_struct (P : Program) (o : Options) (fuel id : Nat)
    (p : Path) (v : Value) (fs : List Value)
    (hv : applySetter (o.defaultSetter (GoType.struct id))
      (applySetter (P.setDefaults (GoType.struct id)) v) = Value.struct fs) :
    applyDefaultsRecursive P o (fuel + 1) (GoType.struct id) p v =
      match walkFields P (applyDefaultsRecursive P o fuel) p 0 (P.fields id) fs with
      | none => none
      | some rs =>
        some (Value.struct rs.1,
          (setterEvent (P.setDefaults (GoType.struct id)) SetterKind.own (GoType.struct id) p ++
            setterEvent (o.defaultSetter (GoType.struct id)) SetterKind.registered
              (GoType.struct id) p) ++ rs.2) := by
  simp only [applyDefaultsRecursive, runSetters_eq, hv]

theorem applyDefaultsRecursive_not_struct_value (P : Program) (o : Options) (fuel : Nat)
    (t : GoType) (p : Path) (v : Value)
    (hv : ∀ fs, applySetter (o.defaultSetter t) (applySetter (P.setDefaults t) v)
      ≠ Value.struct fs) :
    applyDefaultsRecursive P o (fuel + 1) t p v =
      some (applySetter (o.defaultSetter t) (applySetter (P.setDefaults t) v),
        setterEvent (P.setDefaults t) SetterKind.own t p ++
          setterEvent (o.defaultSetter t) SetterKind.registered t p) := by
  simp only [applyDefaultsRecursive, runSetters_eq]
  split
  · rename_i id fs heq
    exact absurd heq (hv fs)
  · rfl

theorem applyDefaultsRecursive_not_struct_type (P : Program) (o : Options) (fuel : Nat)
    (t : GoType) (p : Path) (v : Value) (ht : ∀ id, t ≠ GoType.struct id) :
    applyDefaultsRecursive P o (fuel + 1) t p v =
      some (applySetter (o.defaultSetter t) (applySetter (P.setDefaults t) v),
        setterEvent (P.setDefaults t) SetterKind.own t p ++
          setterEvent (o.defaultSetter t) SetterKind.registered t p) := by
  simp only [applyDefaultsRecursive, runSetters_eq]
  split
  · rename_i id fs heq
    exact absurd rfl (ht id)
  · rfl

theorem applyDefaultsRecursive_below (P : Program) (o : Options) :
    ∀ fuel, Below (applyDefaultsRecursive P o fuel) := by
  intro fuel
  induction fuel with
  | zero =>
    intro t p v r h
    simp [applyDefaultsRecursive] at h
  | succ fuel ih =>
    intro t p v r h
    have hset : ∀ e ∈ setterEvent (P.setDefaults t) SetterKind.own t p ++
        setterEvent (o.defaultSetter t) SetterKind.registered t p, p <+: e.path := by
      intro e he
      rcases List.mem_append.mp he with he | he
      · rw [setterEvent_path _ _ _ _ e he]
      · rw [setterEvent_path _ _ _ _ e he]
    by_cases ht : ∃ id, t = GoType.struct id
    · obtain ⟨id, rfl⟩ := ht
      by_cases hv : ∃ fs, applySetter (o.defaultSetter (GoType.struct id))
          (applySetter (P.setDefaults (GoType.struct id)) v) = Value.struct fs
      · obtain ⟨fs, hfs⟩ := hv
        rw [applyDefaultsRecursive_struct P o fuel id p v fs hfs] at h
        cases hw : walkFields P (applyDefaultsRecursive P o fuel) p 0 (P.fields id) fs with
        | none => simp [hw] at h
        | some rs =>
          simp only [hw, Option.some.injEq] at h
          subst h
          intro e he
          rcases List.mem_append.mp he with he | he
          · exact hset e he
          · obtain ⟨j, hj⟩ := walkFields_below P _ ih p _ _ _ _ hw e he
            exact isPrefix_of_append hj
      · rw [applyDefaultsRecursive_not_struct_value P o fuel _ p v
          (fun fs hfs => hv ⟨fs, hfs⟩)] at h
        simp only [Option.some.injEq] at h
        subst h
        exact hset
    · rw [applyDefaultsRecursive_not_struct_type P o fuel t p v
        (fun id hid => ht ⟨id, hid⟩)] at h
      simp only [Option.some.injEq] at h
      subst h
      exact hset

theorem walkFields_scalar (P : Program) (rec : Walk) (p : Path) :
    ∀ (fs : List StructField) (vs : List Value) (i : Nat),
      (∀ f ∈ fs, ∃ n, f.type = GoType.other n) →
        walkFields P rec p i fs vs = some (vs, []) := by
  intro fs
  induction fs with
  | nil => intro vs i _; simp [walkFields]
  | cons f fs ih =>
    intro vs i hf
    cases vs with
    | nil => simp [walkFields]
    | cons v vs =>
      obtain ⟨n, hn⟩ := hf f (List.mem_cons_self _ _)
      have ih' := ih vs (i + 1) (fun g hg => hf g (List.mem_cons_of_mem _ hg))
      simp only [walkFields, hn, walkField, ite_self, ih', List.append_nil]

theorem path_ne_of_longer (p q : Path) (s : Seg) (h : (p ++ [s]) <+: q) : q ≠ p := by
  intro hq
  subst hq
  have := h.length_le
  simp at this

/-- C7: a visit of a struct instance calls the instance's own `SetDefaults` (if the
pointer type implements `DefaultSetter`) and then the setter registered for its type (if
any): the calls made by the visit are the own call, the registered call, and then calls
at places strictly below the instance, which come from the field loop run on the value
the two setters left.  For a struct with only scalar fields `ApplyDefaults` therefore
returns `registered (own dest)`. -/
theorem applyDefaultsRecursive_setters_then_fields (P : Program) (o : Options)
    (fuel id : Nat) (p : Path) (v v' : Value) (tr : List Event)
    (h : applyDefaultsRecursive P o (fuel + 1) (GoType.struct id) p v = some (v', tr)) :
    (∃ below, tr = setterEvent (P.setDefaults (GoType.struct id)) SetterKind.own
          (GoType.struct id) p ++
        setterEvent (o.defaultSetter (GoType.struct id)) SetterKind.registered
          (GoType.struct id) p ++ below ∧
      (∀ e ∈ below, e.path ≠ p ∧ p <+: e.path) ∧
      (∀ fs, applySetter (o.defaultSetter (GoType.struct id))
          (applySetter (P.setDefaults (GoType.struct id)) v) = Value.struct fs →
        ∃ fs', walkFields P (applyDefaultsRecursive P o fuel) p 0 (P.fields id) fs
            = some (fs', below) ∧ v' = Value.struct fs')) ∧
    ((∀ f ∈ P.fields id, ∃ n, f.type = GoType.other n) →
      ∀ (c : Config), c.options = o → c.destType = GoType.struct id → c.dest = v →
        ApplyDefaults P c (fuel + 1) =
          some (applySetter (o.defaultSetter (GoType.struct id))
              (applySetter (P.setDefaults (GoType.struct id)) v),
            setterEvent (P.setDefaults (GoType.struct id)) SetterKind.own
                (GoType.struct id) [] ++
              setterEvent (o.defaultSetter (GoType.struct id)) SetterKind.registered
                (GoType.struct id) [])) := by
  constructor
  · by_cases hv : ∃ fs, applySetter (o.defaultSetter (GoType.struct id))
        (applySetter (P.setDefaults (GoType.struct id)) v) = Value.struct fs
    · obtain ⟨fs, hfs⟩ := hv
      rw [applyDefaultsRecursive_struct P o fuel id p v fs hfs] at h
      cases hw : walkFields P (applyDefaultsRecursive P o fuel) p 0 (P.fields id) fs with
      | none => simp [hw] at h
      | some rs =>
        simp only [hw, Option.some.injEq, Prod.mk.injEq] at h
        obtain ⟨h1, h2⟩ := h
        refine ⟨rs.2, h2.symm, ?_, ?_⟩
        · intro e he
          obtain ⟨j, hj⟩ := walkFields_below P _ (applyDefaultsRecursive_below P o fuel)
            p _ _ _ _ hw e he
          exact ⟨path_ne_of_longer p e.path _ hj, isPrefix_of_append hj⟩
        · intro fs2 hfs2
          rw [hfs] at hfs2
          injection hfs2 with hfs2
          subst hfs2
          exact ⟨rs.1, hw, h1.symm⟩
    · rw [applyDefaultsRecursive_not_struct_value P o fuel _ p v
        (fun fs hfs => hv ⟨fs, hfs⟩)] at h
      simp only [Option.some.injEq, Prod.mk.injEq] at h
      obtain ⟨_, h2⟩ := h
      refine ⟨[], by simpa using h2.symm, ?_, ?_⟩
      · intro e he
        simp at he
      · intro fs hfs
        exact absurd ⟨fs, hfs⟩ hv
  · intro hscalar c ho ht hd
    unfold ApplyDefaults
    rw [ho, ht, hd]
    by_cases hv : ∃ fs, applySetter (o.defaultSetter (GoType.struct id))
        (applySetter (P.setDefaults (GoType.struct id)) v) = Value.struct fs
    · obtain ⟨fs, hfs⟩ := hv
      rw [applyDefaultsRecursive_struct P o fuel id [] v fs hfs,
        walkFields_scalar P _ [] _ fs 0 hscalar, hfs]
      simp
    · exact applyDefaultsRecursive_not_struct_value P o fuel _ [] v
        (fun fs hfs => hv ⟨fs, hfs⟩)
/-! ## The map loop -/

theorem mapIndex_setMapIndex_self (m : List (Nat × Value)) (k : Nat) (v : Value) :
    mapIndex (setMapIndex m k v) k = some v := by
  induction m with
  | nil => simp [setMapIndex, mapIndex]
  | cons kv m ih =>
    obtain ⟨k', v'⟩ := kv
    by_cases hk : k' = k
    · simp [setMapIndex, mapIndex, hk]
    · simp [setMapIndex, mapIndex, hk, ih]

theorem mapIndex_setMapIndex_ne (m : List (Nat × Value)) (k k2 : Nat) (v : Value)
    (hne : k2 ≠ k) : mapIndex (setMapIndex m k v) k2 = mapIndex m k2 := by
  induction m with
  | nil =>
    have : ¬ k = k2 := fun h => hne h.symm
    simp [setMapIndex, mapIndex, this]
  | cons kv m ih =>
    obtain ⟨k', v'⟩ := kv
    by_cases hk : k' = k
    · subst hk
      have : ¬ k' = k2 := fun h => hne h.symm
      simp [setMapIndex, mapIndex, this]
    · by_cases hk2 : k' = k2
      · subst hk2
        simp [setMapIndex, mapIndex, hk]
      · simp [setMapIndex, mapIndex, hk, hk2, ih]

theorem keys_setMapIndex (m : List (Nat × Value)) (k : Nat) (v w : Value)
    (h : mapIndex m k = some w) : (setMapIndex m k v).map Prod.fst = m.map Prod.fst := by
  induction m with
  | nil => simp [mapIndex] at h
  | cons kv m ih =>
    obtain ⟨k', v'⟩ := kv
    by_cases hk : k' = k
    · simp [setMapIndex, hk]
    · simp only [mapIndex, hk, if_false] at h
      simp [setMapIndex, hk, ih h]

theorem mem_of_mapIndex (m : List (Nat × Value)) (k : Nat) (v : Value)
    (h : mapIndex m k = some v) : (k, v) ∈ m := by
  induction m with
  | nil => simp [mapIndex] at h
  | cons kv m ih =>
    obtain ⟨k', v'⟩ := kv
    by_cases hk : k' = k
    · simp only [mapIndex, hk, if_true, Option.some.injEq] at h
      simp [hk, h]
    · simp only [mapIndex, hk, if_false] at h
      exact List.mem_cons_of_mem _ (ih h)

theorem mapIndex_of_mem (m : List (Nat × Value)) (k : Nat) (v : Value)
    (hnodup : (m.map Prod.fst).Nodup) (h : (k, v) ∈ m) : mapIndex m k = some v := by
  induction m with
  | nil => simp at h
  | cons kv m ih =>
    obtain ⟨k', v'⟩ := kv
    simp only [List.map_cons, List.nodup_cons] at hnodup
    rcases List.mem_cons.mp h with h | h
    · injection h with h1 h2
      simp [mapIndex, h1, h2]
    · have hk : k' ≠ k := by
        intro hk
        apply hnodup.1
        rw [hk]
        exact List.mem_map.mpr ⟨(k, v), h, rfl⟩
      simp only [mapIndex, hk, if_false]
      exact ih hnodup.2 h

theorem walkMap_struct (rec : Walk) (p : Path) (id : Nat) :
    ∀ (ks : List Nat) (m : List (Nat × Value)), ks.Nodup →
      (∀ k ∈ ks, ∀ v, mapIndex m k = some v →
        (rec (GoType.struct id) (p ++ [Seg.key k]) v).isSome) →
      ∃ m', walkMap rec p (GoType.struct id) ks m
          = some (m', (ks.map (callsAtKey rec p (GoType.struct id) m)).flatten) ∧
        m'.map Prod.fst = m.map Prod.fst ∧
        ∀ k, mapIndex m' k =
          if k ∈ ks then
            (mapIndex m k).bind
              (fun v => (rec (GoType.struct id) (p ++ [Seg.key k]) v).map Prod.fst)
          else mapIndex m k := by
  intro ks
  induction ks with
  | nil =>
    intro m _ _
    exact ⟨m, by simp [walkMap], rfl, fun k => by simp⟩
  | cons k0 ks ih =>
    intro m hnodup hrec
    simp only [List.nodup_cons] at hnodup
    obtain ⟨hk0, hks⟩ := hnodup
    cases hm : mapIndex m k0 with
    | none =>
      obtain ⟨m', h1, h2, h3⟩ := ih m hks
        (fun k hk v hv => hrec k (List.mem_cons_of_mem _ hk) v hv)
      refine ⟨m', ?_, h2, ?_⟩
      · simp only [walkMap, hm, h1, List.map_cons, List.flatten_cons, callsAtKey]
        simp
      · intro k
        rw [h3 k]
        by_cases hk : k = k0
        · subst hk
          simp [hk0, hm]
        · simp [hk]
    | some elem =>
      obtain ⟨r, hr⟩ := Option.isSome_iff_exists.mp (hrec k0 (List.mem_cons_self _ _) elem hm)
      have hother : ∀ k ∈ ks, mapIndex (setMapIndex m k0 r.1) k = mapIndex m k := by
        intro k hk
        apply mapIndex_setMapIndex_ne
        intro h
        exact hk0 (h ▸ hk)
      obtain ⟨m', h1, h2, h3⟩ := ih (setMapIndex m k0 r.1) hks
        (fun k hk v hv => hrec k (List.mem_cons_of_mem _ hk) v (by rw [← hother k hk]; exact hv))
      have hcalls : ks.map (callsAtKey rec p (GoType.struct id) (setMapIndex m k0 r.1))
          = ks.map (callsAtKey rec p (GoType.struct id) m) := by
        apply List.map_congr_left
        intro k hk
        simp only [callsAtKey, hother k hk]
      refine ⟨m', ?_, ?_, ?_⟩
      · simp only [walkMap, hm, hr, h1, List.map_cons, List.flatten_cons, hcalls]
        simp [callsAtKey, hm, hr]
      · rw [h2, keys_setMapIndex m k0 r.1 elem hm]
      · intro k
        rw [h3 k]
        by_cases hk : k = k0
        · subst hk
          simp [hk0, hm, hr, mapIndex_setMapIndex_self]
        · by_cases hk' : k ∈ ks
          · simp [hk, hk', hother k hk']
          · simp [hk, hk', mapIndex_setMapIndex_ne m k0 k r.1 hk]

theorem walkField_map_of_struct (P : Program) (o : Options) (fuel : Nat) (p : Path)
    (id : Nat) (m : List (Nat × Value))
    (hkeys : (m.map Prod.fst).Nodup)
    (hiter : (P.mapRange m).Perm (m.map Prod.fst))
    (hret : ∀ k v, (k, v) ∈ m →
      (applyDefaultsRecursive P o fuel (GoType.struct id) (p ++ [Seg.key k]) v).isSome) :
    ∃ m', walkField P (applyDefaultsRecursive P o fuel) p (GoType.map (GoType.struct id))
          (Value.map (some m)) =
        some (Value.map (some m'),
          ((P.mapRange m).map
            (callsAtKey (applyDefaultsRecursive P o fuel) p (GoType.struct id) m)).flatten) ∧
      m'.map Prod.fst = m.map Prod.fst ∧
      ∀ k v, (k, v) ∈ m →
        ∃ r, applyDefaultsRecursive P o fuel (GoType.struct id) (p ++ [Seg.key k]) v = some r ∧
          (k, r.1) ∈ m' ∧ mapIndex m' k = some r.1 := by
  have hnd : (P.mapRange m).Nodup := hiter.nodup_iff.mpr hkeys
  obtain ⟨m', h1, h2, h3⟩ := walkMap_struct (applyDefaultsRecursive P o fuel) p id
    (P.mapRange m) m hnd (fun k _ v hv => hret k v (mem_of_mapIndex m k v hv))
  refine ⟨m', ?_, h2, ?_⟩
  · simp only [walkField, h1]
  · intro k v hkv
    obtain ⟨r, hr⟩ := Option.isSome_iff_exists.mp (hret k v hkv)
    have hk : k ∈ P.mapRange m :=
      hiter.mem_iff.mpr (List.mem_map.mpr ⟨(k, v), hkv, rfl⟩)
    have hidx : mapIndex m' k = some r.1 := by
      rw [h3 k, if_pos hk, mapIndex_of_mem m k v hkeys hkv]
      simp [hr]
    exact ⟨r, hr, mem_of_mapIndex m' k r.1 hidx, hidx⟩

/-! ## Every struct instance the walk reaches has its setters called -/

theorem walkMap_struct_eq (rec : Walk) (p : Path) (id : Nat) :
    ∀ (ks : List Nat) (m : List (Nat × Value)),
      walkMap rec p (GoType.struct id) ks m =
        mapLoopWith (fun k x => rec (GoType.struct id) (p ++ [Seg.key k]) x) ks m := by
  intro ks
  induction ks with
  | nil => intro m; rfl
  | cons k ks ih =>
    intro m
    simp only [walkMap, mapLoopWith, ih]

theorem walkMap_ptr_eq (rec : Walk) (p : Path) (e : GoType) :
    ∀ (ks : List Nat) (m : List (Nat × Value)),
      walkMap rec p (GoType.ptr e) ks m =
        mapLoopWith (fun k x => walkPtr rec (p ++ [Seg.key k]) e x) ks m := by
  intro ks
  induction ks with
  | nil => intro m; rfl
  | cons k ks ih =>
    intro m
    simp only [walkMap, mapLoopWith, ih]

theorem mapLoopWith_get (w : Nat → Value → Option (Value × List Event)) :
    ∀ (ks : List Nat) (m : List (Nat × Value)) (r : List (Nat × Value) × List Event),
      mapLoopWith w ks m = some r → ∀ k x', mapIndex r.1 k = some x' →
        (k ∈ ks → ∃ x r1, w k x = some r1 ∧ r1.1 = x' ∧ ∀ e ∈ r1.2, e ∈ r.2) ∧
        (k ∉ ks → mapIndex m k = some x') := by
  intro ks
  induction ks with
  | nil =>
    intro m r h k x' hx
    simp only [mapLoopWith, Option.some.injEq] at h
    subst h
    exact ⟨fun hk => absurd hk (List.not_mem_nil _), fun _ => hx⟩
  | cons k0 ks ih =>
    intro m r h k x' hx
    simp only [mapLoopWith] at h
    cases hm : mapIndex m k0 with
    | none =>
      simp only [hm] at h
      obtain ⟨h1, h2⟩ := ih m r h k x' hx
      constructor
      · intro hk
        by_cases hks : k ∈ ks
        · exact h1 hks
        · have hk0 : k = k0 := by
            rcases List.mem_cons.mp hk with hk | hk
            · exact hk
            · exact absurd hk hks
          have := h2 hks
          rw [hk0, hm] at this
          exact Option.noConfusion this
      · intro hk
        exact h2 (fun hks => hk (List.mem_cons_of_mem _ hks))
    | some elem =>
      simp only [hm] at h
      cases hw : w k0 elem with
      | none => simp [hw] at h
      | some r1 =>
        cases hl : mapLoopWith w ks (setMapIndex m k0 r1.1) with
        | none => simp [hw, hl] at h
        | some r2 =>
          simp only [hw, hl, Option.some.injEq] at h
          subst h
          obtain ⟨h1, h2⟩ := ih _ r2 hl k x' hx
          constructor
          · intro hk
            by_cases hks : k ∈ ks
            · obtain ⟨x, r3, hx3, hx4, hx5⟩ := h1 hks
              exact ⟨x, r3, hx3, hx4, fun e he => List.mem_append_right _ (hx5 e he)⟩
            · have hk0 : k = k0 := by
                rcases List.mem_cons.mp hk with hk | hk
                · exact hk
                · exact absurd hk hks
              have := h2 hks
              rw [hk0, mapIndex_setMapIndex_self] at this
              injection this with this
              rw [hk0]
              exact ⟨elem, r1, hw, this, fun e he => List.mem_append_left _ he⟩
          · intro hk
            have hks : k ∉ ks := fun hks => hk (List.mem_cons_of_mem _ hks)
            have hne : k ≠ k0 := fun h => hk (h ▸ List.mem_cons_self _ _)
            have := h2 hks
            rwa [mapIndex_setMapIndex_ne m k0 k r1.1 hne] at this

theorem walkSlice_get (rec : Walk) (p : Path) (elemT : GoType) :
    ∀ (xs : List Value) (i : Nat) (r : List Value × List Event),
      walkSlice rec p elemT i xs = some r → ∀ j x', r.1.get? j = some x' →
        ∃ x r1, xs.get? j = some x ∧
          walkSliceElem rec (p ++ [Seg.index (i + j)]) elemT x = some r1 ∧
          r1.1 = x' ∧ ∀ e ∈ r1.2, e ∈ r.2 := by
  intro xs
  induction xs with
  | nil =>
    intro i r h j x' hx
    simp only [walkSlice, Option.some.injEq] at h
    subst h
    simp at hx
  | cons x xs ih =>
    intro i r h j x' hx
    simp only [walkSlice] at h
    cases h1 : walkSliceElem rec (p ++ [Seg.index i]) elemT x with
    | none => simp [h1] at h
    | some r1 =>
      cases h2 : walkSlice rec p elemT (i + 1) xs with
      | none => simp [h1, h2] at h
      | some r2 =>
        simp only [h1, h2, Option.some.injEq] at h
        subst h
        cases j with
        | zero =>
          simp only [List.get?_cons_zero, Option.some.injEq] at hx
          exact ⟨x, r1, rfl, h1, hx, fun e he => List.mem_append_left _ he⟩
        | succ j =>
          simp only [List.get?_cons_succ] at hx
          obtain ⟨y, r3, hy1, hy2, hy3, hy4⟩ := ih (i + 1) r2 h2 j x' hx
          refine ⟨y, r3, by simpa using hy1, ?_, hy3,
            fun e he => List.mem_append_right _ (hy4 e he)⟩
          rw [show i + (j + 1) = i + 1 + j by omega]
          exact hy2

theorem walkFields_get (P : Program) (rec : Walk) (p : Path) :
    ∀ (fs : List StructField) (vs : List Value) (i : Nat) (r : List Value × List Event),
      walkFields P rec p i fs vs = some r → ∀ j f fv', fs.get? j = some f →
        f.exported = true → r.1.get? j = some fv' →
        ∃ fv r1, vs.get? j = some fv ∧
          walkField P rec (p ++ [Seg.field (i + j)]) f.type fv = some r1 ∧
          r1.1 = fv' ∧ ∀ e ∈ r1.2, e ∈ r.2 := by
  intro fs
  induction fs with
  | nil =>
    intro vs i r h j f fv' hf
    simp at hf
  | cons f0 fs ih =>
    intro vs i r h j f fv' hf hexp hx
    cases vs with
    | nil =>
      simp only [walkFields, Option.some.injEq] at h
      subst h
      simp at hx
    | cons v vs =>
      simp only [walkFields] at h
      cases h1 : (if f0.exported = true then walkField P rec (p ++ [Seg.field i]) f0.type v
          else some (v, [])) with
      | none => simp [h1] at h
      | some r1 =>
        cases h2 : walkFields P rec p (i + 1) fs vs with
        | none => simp [h1, h2] at h
        | some r2 =>
          simp only [h1, h2, Option.some.injEq] at h
          subst h
          cases j with
          | zero =>
            simp only [List.get?_cons_zero, Option.some.injEq] at hf hx
            subst hf
            rw [if_pos hexp] at h1
            exact ⟨v, r1, rfl, h1, hx, fun e he => List.mem_append_left _ he⟩
          | succ j =>
            simp only [List.get?_cons_succ] at hf hx
            obtain ⟨y, r3, hy1, hy2, hy3, hy4⟩ := ih vs (i + 1) r2 h2 j f fv' hf hexp hx
            refine ⟨y, r3, by simpa using hy1, ?_, hy3,
              fun e he => List.mem_append_right _ (hy4 e he)⟩
            rw [show i + (j + 1) = i + 1 + j by omega]
            exact hy2

theorem walkPtr_get (rec : Walk) (p : Path) (id : Nat) (v x' : Value)
    (r : Value × List Event) (h : walkPtr rec p (GoType.struct id) v = some r)
    (hr : r.1 = Value.ptr (some x')) :
    ∃ x r1, rec (GoType.struct id) (p ++ [Seg.deref]) x = some r1 ∧ r1.1 = x' ∧
      r1.2 = r.2 := by
  cases v with
  | ptr tgt =>
    cases tgt with
    | none =>
      simp only [walkPtr, Option.some.injEq] at h
      subst h
      simp at hr
    | some x =>
      simp only [walkPtr] at h
      cases h1 : rec (GoType.struct id) (p ++ [Seg.deref]) x with
      | none => simp [h1] at h
      | some r1 =>
        simp only [h1, Option.some.injEq] at h
        subst h
        simp only [Value.ptr.injEq, Option.some.injEq] at hr
        exact ⟨x, r1, h1, hr, rfl⟩
  | other n =>
    simp only [walkPtr, Option.some.injEq] at h
    subst h
    simp at hr
  | struct fs =>
    simp only [walkPtr, Option.some.injEq] at h
    subst h
    simp at hr
  | slice xs =>
    simp only [walkPtr, Option.some.injEq] at h
    subst h
    simp at hr
  | map m =>
    simp only [walkPtr, Option.some.injEq] at h
    subst h
    simp at hr
theorem walkField_slice_inv (P : Program) (rec : Walk) (p : Path) (e : GoType) (fv : Value)
    (r : Value × List Event) (xs' : List Value)
    (h : walkField P rec p (GoType.slice e) fv = some r)
    (hr : r.1 = Value.slice (some xs')) :
    ∃ xs rr, walkSlice rec p e 0 xs = some rr ∧ rr.1 = xs' ∧ rr.2 = r.2 := by
  cases fv with
  | slice oxs =>
    cases oxs with
    | none =>
      simp only [walkField, Option.some.injEq] at h
      subst h
      simp at hr
    | some xs =>
      simp only [walkField] at h
      cases h1 : walkSlice rec p e 0 xs with
      | none => simp [h1] at h
      | some rr =>
        simp only [h1, Option.some.injEq] at h
        subst h
        simp only [Value.slice.injEq, Option.some.injEq] at hr
        exact ⟨xs, rr, h1, hr, rfl⟩
  | other n =>
    simp only [walkField, Option.some.injEq] at h
    subst h
    simp at hr
  | struct fs =>
    simp only [walkField, Option.some.injEq] at h
    subst h
    simp at hr
  | ptr tgt =>
    simp only [walkField, Option.some.injEq] at h
    subst h
    simp at hr
  | map m =>
    simp only [walkField, Option.some.injEq] at h
    subst h
    simp at hr

theorem walkField_map_inv (P : Program) (rec : Walk) (p : Path) (e : GoType) (fv : Value)
    (r : Value × List Event) (m' : List (Nat × Value))
    (h : walkField P rec p (GoType.map e) fv = some r)
    (hr : r.1 = Value.map (some m')) :
    ∃ m rr, walkMap rec p e (P.mapRange m) m = some rr ∧ rr.1 = m' ∧ rr.2 = r.2 := by
  cases fv with
  | map om =>
    cases om with
    | none =>
      simp only [walkField, Option.some.injEq] at h
      subst h
      simp at hr
    | some m =>
      simp only [walkField] at h
      cases h1 : walkMap rec p e (P.mapRange m) m with
      | none => simp [h1] at h
      | some rr =>
        simp only [h1, Option.some.injEq] at h
        subst h
        simp only [Value.map.injEq, Option.some.injEq] at hr
        exact ⟨m, rr, h1, hr, rfl⟩
  | other n =>
    simp only [walkField, Option.some.injEq] at h
    subst h
    simp at hr
  | struct fs =>
    simp only [walkField, Option.some.injEq] at h
    subst h
    simp at hr
  | ptr tgt =>
    simp only [walkField, Option.some.injEq] at h
    subst h
    simp at hr
  | slice xs =>
    simp only [walkField, Option.some.injEq] at h
    subst h
    simp at hr

theorem Called_mono (P : Program) (o : Options) (t : GoType) (q : Path)
    (tr tr' : List Event) (h : Called P o t q tr) (hsub : ∀ e ∈ tr, e ∈ tr') :
    Called P o t q tr' :=
  ⟨fun hs => hsub _ (h.1 hs), fun hs => hsub _ (h.2 hs)⟩

theorem Called_setters (P : Program) (o : Options) (t : GoType) (p : Path)
    (rest : List Event) :
    Called P o t p (setterEvent (P.setDefaults t) SetterKind.own t p ++
      setterEvent (o.defaultSetter t) SetterKind.registered t p ++ rest) := by
  constructor
  · intro hs
    obtain ⟨f, hf⟩ := Option.isSome_iff_exists.mp hs
    simp [hf, setterEvent]
  · intro hs
    obtain ⟨g, hg⟩ := Option.isSome_iff_exists.mp hs
    simp [hg, setterEvent]

theorem mapLoop_key_walked (P : Program)
    (hmap : ∀ m k, (mapIndex m k).isSome → k ∈ P.mapRange m)
    (w : Nat → Value → Option (Value × List Event)) (m : List (Nat × Value))
    (r : List (Nat × Value) × List Event) (h : mapLoopWith w (P.mapRange m) m = some r)
    (k : Nat) (x' : Value) (hx : mapIndex r.1 k = some x') :
    ∃ x r1, w k x = some r1 ∧ r1.1 = x' ∧ ∀ e ∈ r1.2, e ∈ r.2 := by
  obtain ⟨h1, h2⟩ := mapLoopWith_get w _ m r h k x' hx
  by_cases hk : k ∈ P.mapRange m
  · exact h1 hk
  · have := h2 hk
    exact absurd (hmap m k (by rw [this]; rfl)) hk

theorem reach_called_aux (P : Program) (o : Options)
    (hmap : ∀ m k, (mapIndex m k).isSome → k ∈ P.mapRange m) :
    ∀ (fuel id : Nat) (p : Path) (v : Value) (r : Value × List Event),
      applyDefaultsRecursive P o fuel (GoType.struct id) p v = some r →
        ∀ q t, Reach P id r.1 p q t → Called P o t q r.2 := by
  intro fuel
  induction fuel with
  | zero =>
    intro id p v r h
    simp [applyDefaultsRecursive] at h
  | succ fuel ih =>
    intro id p v r h q t hreach
    by_cases hv : ∃ fs, applySetter (o.defaultSetter (GoType.struct id))
        (applySetter (P.setDefaults (GoType.struct id)) v) = Value.struct fs
    · obtain ⟨fs, hfs⟩ := hv
      rw [applyDefaultsRecursive_struct P o fuel id p v fs hfs] at h
      cases hw : walkFields P (applyDefaultsRecursive P o fuel) p 0 (P.fields id) fs with
      | none => simp [hw] at h
      | some rs =>
        simp only [hw, Option.some.injEq] at h
        subst h
        simp only at hreach ⊢
        have hfield : ∀ e ∈ rs.2, e ∈
            (setterEvent (P.setDefaults (GoType.struct id)) SetterKind.own (GoType.struct id) p ++
              setterEvent (o.defaultSetter (GoType.struct id)) SetterKind.registered
                (GoType.struct id) p) ++ rs.2 :=
          fun e he => List.mem_append_right _ he
        cases hreach with
        | here => exact Called_setters P o _ p rs.2
        | fieldStruct _ _ _ i id' fv _ _ hf hget hsub =>
          obtain ⟨fv0, r1, _, hwf, hr1, hin⟩ :=
            walkFields_get P _ p _ _ 0 rs hw i _ fv hf rfl hget
          rw [Nat.zero_add] at hwf
          have hrec : applyDefaultsRecursive P o fuel (GoType.struct id')
              (p ++ [Seg.field i]) fv0 = some r1 := hwf
          have := ih id' _ fv0 r1 hrec q t (by rw [hr1]; exact hsub)
          exact Called_mono P o t q _ _ this (fun e he => hfield e (hin e he))
        | fieldPtr _ _ _ i id' x _ _ hf hget hsub =>
          obtain ⟨fv0, r1, _, hwf, hr1, hin⟩ :=
            walkFields_get P _ p _ _ 0 rs hw i _ _ hf rfl hget
          rw [Nat.zero_add] at hwf
          have hwp : walkPtr (applyDefaultsRecursive P o fuel) (p ++ [Seg.field i])
              (GoType.struct id') fv0 = some r1 := hwf
          obtain ⟨x0, r2, hrec, hr2, htr⟩ := walkPtr_get _ _ id' fv0 x r1 hwp hr1
          have := ih id' _ x0 r2 hrec q t (by rw [hr2]; exact hsub)
          exact Called_mono P o t q _ _ this
            (fun e he => hfield e (hin e (by rw [← htr]; exact he)))
        | fieldSliceStruct _ _ _ i id' xs j x _ _ hf hget hj hsub =>
          obtain ⟨fv0, r1, _, hwf, hr1, hin⟩ :=
            walkFields_get P _ p _ _ 0 rs hw i _ _ hf rfl hget
          rw [Nat.zero_add] at hwf
          obtain ⟨xs0, rr, hws, hrr, htr⟩ := walkField_slice_inv P _ _ _ fv0 r1 xs hwf hr1
          obtain ⟨y, r2, _, hwe, hr2, hin2⟩ :=
            walkSlice_get _ _ _ xs0 0 rr hws j x (by rw [hrr]; exact hj)
          rw [Nat.zero_add] at hwe
          have hrec : applyDefaultsRecursive P o fuel (GoType.struct id')
              (p ++ [Seg.field i] ++ [Seg.index j]) y = some r2 := hwe
          have := ih id' _ y r2 hrec q t (by rw [hr2]; exact hsub)
          exact Called_mono P o t q _ _ this
            (fun e he => hfield e (hin e (by rw [← htr]; exact hin2 e he)))
        | fieldSlicePtr _ _ _ i id' xs j x _ _ hf hget hj hsub =>
          obtain ⟨fv0, r1, _, hwf, hr1, hin⟩ :=
            walkFields_get P _ p _ _ 0 rs hw i _ _ hf rfl hget
          rw [Nat.zero_add] at hwf
          obtain ⟨xs0, rr, hws, hrr, htr⟩ := walkField_slice_inv P _ _ _ fv0 r1 xs hwf hr1
          obtain ⟨y, r2, _, hwe, hr2, hin2⟩ :=
            walkSlice_get _ _ _ xs0 0 rr hws j _ (by rw [hrr]; exact hj)
          rw [Nat.zero_add] at hwe
          have hwp : walkPtr (applyDefaultsRecursive P o fuel)
              (p ++ [Seg.field i] ++ [Seg.index j]) (GoType.struct id') y = some r2 := hwe
          obtain ⟨x0, r3, hrec, hr3, htr3⟩ := walkPtr_get _ _ id' y x r2 hwp hr2
          have := ih id' _ x0 r3 hrec q t (by rw [hr3]; exact hsub)
          exact Called_mono P o t q _ _ this
            (fun e he => hfield e (hin e (by
              rw [← htr]; exact hin2 e (by rw [← htr3]; exact he))))
        | fieldMapStruct _ _ _ i id' m k x _ _ hf hget hk hsub =>
          obtain ⟨fv0, r1, _, hwf, hr1, hin⟩ :=
            walkFields_get P _ p _ _ 0 rs hw i _ _ hf rfl hget
          rw [Nat.zero_add] at hwf
          obtain ⟨m0, rr, hwm, hrr, htr⟩ := walkField_map_inv P _ _ _ fv0 r1 m hwf hr1
          rw [walkMap_struct_eq] at hwm
          obtain ⟨y, r2, hrec, hr2, hin2⟩ :=
            mapLoop_key_walked P hmap _ m0 rr hwm k x (by rw [hrr]; exact hk)
          have := ih id' _ y r2 hrec q t (by rw [hr2]; exact hsub)
          exact Called_mono P o t q _ _ this
            (fun e he => hfield e (hin e (by rw [← htr]; exact hin2 e he)))
        | fieldMapPtr _ _ _ i id' m k x _ _ hf hget hk hsub =>
          obtain ⟨fv0, r1, _, hwf, hr1, hin⟩ :=
            walkFields_get P _ p _ _ 0 rs hw i _ _ hf rfl hget
          rw [Nat.zero_add] at hwf
          obtain ⟨m0, rr, hwm, hrr, htr⟩ := walkField_map_inv P _ _ _ fv0 r1 m hwf hr1
          rw [walkMap_ptr_eq] at hwm
          obtain ⟨y, r2, hwp, hr2, hin2⟩ :=
            mapLoop_key_walked P hmap _ m0 rr hwm k _ (by rw [hrr]; exact hk)
          obtain ⟨x0, r3, hrec, hr3, htr3⟩ := walkPtr_get _ _ id' y x r2 hwp hr2
          have := ih id' _ x0 r3 hrec q t (by rw [hr3]; exact hsub)
          exact Called_mono P o t q _ _ this
            (fun e he => hfield e (hin e (by
              rw [← htr]; exact hin2 e (by rw [← htr3]; exact he))))
    · rw [applyDefaultsRecursive_not_struct_value P o fuel _ p v
        (fun fs hfs => hv ⟨fs, hfs⟩)] at h
      simp only [Option.some.injEq] at h
      subst h
      simp only at hreach ⊢
      have hcalled := Called_setters P o (GoType.struct id) p []
      rw [List.append_nil] at hcalled
      generalize hval : applySetter (o.defaultSetter (GoType.struct id))
        (applySetter (P.setDefaults (GoType.struct id)) v) = val at hreach hv
      cases hreach with
      | here => exact hcalled
      | fieldStruct fs => exact absurd ⟨_, rfl⟩ hv
      | fieldPtr fs => exact absurd ⟨_, rfl⟩ hv
      | fieldSliceStruct fs => exact absurd ⟨_, rfl⟩ hv
      | fieldSlicePtr fs => exact absurd ⟨_, rfl⟩ hv
      | fieldMapStruct fs => exact absurd ⟨_, rfl⟩ hv
      | fieldMapPtr fs => exact absurd ⟨_, rfl⟩ hv

/-! ## Claims about the reach of the default applier, and worked examples -/

/-- Witness of C7: struct 2 has one scalar field, an own `SetDefaults` (zero becomes 7)
and a registered setter (doubling); the visit of a zero-valued instance calls own, then
registered, and `ApplyDefaults` leaves `registered (own zero)`, the value 14. -/
theorem applyDefaultsRecursive_setters_then_fields_witness :
    ApplyDefaults demoProgram ⟨(demoConfig true).options, GoType.struct 2, zeroItem⟩ 1 =
      some (Value.struct [Value.other 14],
        [⟨SetterKind.own, GoType.struct 2, []⟩, ⟨SetterKind.registered, GoType.struct 2, []⟩]) :=
  ((applyDefaultsRecursive_setters_then_fields demoProgram (demoConfig true).options 0 2 []
      zeroItem (Value.struct [Value.other 14])
      [⟨SetterKind.own, GoType.struct 2, []⟩, ⟨SetterKind.registered, GoType.struct 2, []⟩]
      rfl).2
    (by intro f hf; simp [demoProgram] at hf; exact ⟨0, by rw [hf]⟩)
    ⟨(demoConfig true).options, GoType.struct 2, zeroItem⟩ rfl rfl rfl).trans rfl

/-- C9, as stated, fails: the example destination holds a struct 1 instance behind a
pointer to a pointer, one in a slice of slices and one in a map of slices; `*struct1`
implements `DefaultSetter`, `ApplyDefaults` returns, and it has called no setter at any
of the three places (the instances still hold their zero value). -/
theorem ApplyDefaults_skips_nested_containers :
    ApplyDefaults demoProgram (demoConfig true) 3 = some (demoDestAfter, demoCalls) ∧
    (demoProgram.setDefaults (GoType.struct 1)).isSome = true ∧
    (valueAt demoDest [Seg.field 2, Seg.deref, Seg.deref] = some zeroItem ∧
      valueAt demoDestAfter [Seg.field 2, Seg.deref, Seg.deref] = some zeroItem ∧
      ∀ e ∈ demoCalls, e.path ≠ [Seg.field 2, Seg.deref, Seg.deref]) ∧
    (valueAt demoDest [Seg.field 6, Seg.index 0, Seg.index 0] = some zeroItem ∧
      valueAt demoDestAfter [Seg.field 6, Seg.index 0, Seg.index 0] = some zeroItem ∧
      ∀ e ∈ demoCalls, e.path ≠ [Seg.field 6, Seg.index 0, Seg.index 0]) ∧
    (valueAt demoDest [Seg.field 7, Seg.key 30, Seg.index 0] = some zeroItem ∧
      valueAt demoDestAfter [Seg.field 7, Seg.key 30, Seg.index 0] = some zeroItem ∧
      ∀ e ∈ demoCalls, e.path ≠ [Seg.field 7, Seg.key 30, Seg.index 0]) := by
  refine ⟨rfl, rfl, ⟨rfl, rfl, by decide⟩, ⟨rfl, rfl, by decide⟩, ⟨rfl, rfl, by decide⟩⟩

/-- C9, amended: when `ApplyDefaults` returns, every struct instance that the destination
then holds and that is reached from the root through exported struct fields, exported
non-nil pointer-to-struct fields, and the elements of exported slice and map fields whose
element type is a struct or a (non-nil) pointer to a struct, has had its own
`SetDefaults` (if any) and the setter registered for its type (if any) called.  The
iterator is assumed to yield every key of a map. -/
theorem ApplyDefaults_calls_reached (P : Program) (c : Config) (fuel id : Nat)
    (hmap : ∀ m k, (mapIndex m k).isSome → k ∈ P.mapRange m)
    (ht : c.destType = GoType.struct id) (r : Value × List Event)
    (h : ApplyDefaults P c fuel = some r) (q : Path) (t : GoType)
    (hreach : Reach P id r.1 [] q t) : Called P c.options t q r.2 := by
  unfold ApplyDefaults at h
  rw [ht] at h
  exact reach_called_aux P c.options hmap fuel id [] c.dest r h q t hreach

theorem mapIndex_isSome_mem_keys (m : List (Nat × Value)) (k : Nat)
    (h : (mapIndex m k).isSome) : k ∈ m.map Prod.fst := by
  obtain ⟨v, hv⟩ := Option.isSome_iff_exists.mp h
  exact List.mem_map.mpr ⟨(k, v), mem_of_mapIndex m k v hv, rfl⟩

/-- Witness of C9 amended: in the example, the item under key 10 of the map field is
reached, and both kinds of setter that exist for struct 1 were called on it. -/
theorem ApplyDefaults_calls_reached_witness :
    Called demoProgram (demoConfig true).options (GoType.struct 1)
      [Seg.field 1, Seg.key 10] demoCalls :=
  ApplyDefaults_calls_reached demoProgram (demoConfig true) 3 0
    (fun m k hk => List.mem_reverse.mpr (mapIndex_isSome_mem_keys m k hk))
    rfl (demoDestAfter, demoCalls) rfl [Seg.field 1, Seg.key 10] (GoType.struct 1)
    (Reach.fieldMapStruct 0 _ [] 1 1
      [(10, Value.struct [Value.other 5]), (20, Value.struct [Value.other 5])] 10
      (Value.struct [Value.other 5]) _ _ rfl rfl rfl (Reach.here 1 _ _))

/-! ## The walk runs on the values the setters left -/

theorem walkFields_fwd (P : Program) (rec : Walk) (p : Path) :
    ∀ (fs : List StructField) (vs : List Value) (i : Nat) (r : List Value × List Event),
      walkFields P rec p i fs vs = some r → ∀ j f fv, fs.get? j = some f →
        f.exported = true → vs.get? j = some fv →
        ∃ r1, walkField P rec (p ++ [Seg.field (i + j)]) f.type fv = some r1 ∧
          r.1.get? j = some r1.1 ∧ ∀ e ∈ r1.2, e ∈ r.2 := by
  intro fs
  induction fs with
  | nil =>
    intro vs i r h j f fv hf
    simp at hf
  | cons f0 fs ih =>
    intro vs i r h j f fv hf hexp hv
    cases vs with
    | nil => simp at hv
    | cons v vs =>
      simp only [walkFields] at h
      cases h1 : (if f0.exported = true then walkField P rec (p ++ [Seg.field i]) f0.type v
          else some (v, [])) with
      | none => simp [h1] at h
      | some r1 =>
        cases h2 : walkFields P rec p (i + 1) fs vs with
        | none => simp [h1, h2] at h
        | some r2 =>
          simp only [h1, h2, Option.some.injEq] at h
          subst h
          cases j with
          | zero =>
            simp only [List.get?_cons_zero, Option.some.injEq] at hf hv
            subst hf
            subst hv
            rw [if_pos hexp] at h1
            exact ⟨r1, h1, rfl, fun e he => List.mem_append_left _ he⟩
          | succ j =>
            simp only [List.get?_cons_succ] at hf hv
            obtain ⟨r3, hy2, hy3, hy4⟩ := ih vs (i + 1) r2 h2 j f fv hf hexp hv
            refine ⟨r3, ?_, by simpa using hy3,
              fun e he => List.mem_append_right _ (hy4 e he)⟩
            rw [show i + (j + 1) = i + 1 + j by omega]
            exact hy2

theorem walkSlice_fwd (rec : Walk) (p : Path) (elemT : GoType) :
    ∀ (xs : List Value) (i : Nat) (r : List Value × List Event),
      walkSlice rec p elemT i xs = some r → ∀ j x, xs.get? j = some x →
        ∃ r1, walkSliceElem rec (p ++ [Seg.index (i + j)]) elemT x = some r1 ∧
          r.1.get? j = some r1.1 ∧ ∀ e ∈ r1.2, e ∈ r.2 := by
  intro xs
  induction xs with
  | nil =>
    intro i r h j x hx
    simp at hx
  | cons x0 xs ih =>
    intro i r h j x hx
    simp only [walkSlice] at h
    cases h1 : walkSliceElem rec (p ++ [Seg.index i]) elemT x0 with
    | none => simp [h1] at h
    | some r1 =>
      cases h2 : walkSlice rec p elemT (i + 1) xs with
      | none => simp [h1, h2] at h
      | some r2 =>
        simp only [h1, h2, Option.some.injEq] at h
        subst h
        cases j with
        | zero =>
          simp only [List.get?_cons_zero, Option.some.injEq] at hx
          subst hx
          exact ⟨r1, h1, rfl, fun e he => List.mem_append_left _ he⟩
        | succ j =>
          simp only [List.get?_cons_succ] at hx
          obtain ⟨r3, hy2, hy3, hy4⟩ := ih (i + 1) r2 h2 j x hx
          refine ⟨r3, ?_, by simpa using hy3,
            fun e he => List.mem_append_right _ (hy4 e he)⟩
          rw [show i + (j + 1) = i + 1 + j by omega]
          exact hy2

theorem mapLoopWith_fwd (w : Nat → Value → Option (Value × List Event)) :
    ∀ (ks : List Nat) (m : List (Nat × Value)) (r : List (Nat × Value) × List Event),
      mapLoopWith w ks m = some r → ∀ k x, k ∈ ks → mapIndex m k = some x →
        ∃ r1, w k x = some r1 ∧ ∀ e ∈ r1.2, e ∈ r.2 := by
  intro ks
  induction ks with
  | nil =>
    intro m r h k x hk
    exact absurd hk (List.not_mem_nil _)
  | cons k0 ks ih =>
    intro m r h k x hk hx
    simp only [mapLoopWith] at h
    cases hm : mapIndex m k0 with
    | none =>
      simp only [hm] at h
      have hne : k ≠ k0 := by
        intro hkk
        rw [hkk, hm] at hx
        exact Option.noConfusion hx
      rcases List.mem_cons.mp hk with hk | hk
      · exact absurd hk hne
      · exact ih m r h k x hk hx
    | some elem =>
      simp only [hm] at h
      cases hw : w k0 elem with
      | none => simp [hw] at h
      | some r1 =>
        cases hl : mapLoopWith w ks (setMapIndex m k0 r1.1) with
        | none => simp [hw, hl] at h
        | some r2 =>
          simp only [hw, hl, Option.some.injEq] at h
          subst h
          by_cases hkk : k = k0
          · subst hkk
            rw [hm] at hx
            injection hx with hx
            subst hx
            exact ⟨r1, hw, fun e he => List.mem_append_left _ he⟩
          · have hk' : k ∈ ks := by
              rcases List.mem_cons.mp hk with hk | hk
              · exact absurd hk hkk
              · exact hk
            obtain ⟨r3, h3, h4⟩ := ih _ r2 hl k x hk'
              (by rw [mapIndex_setMapIndex_ne m k0 k r1.1 hkk]; exact hx)
            exact ⟨r3, h3, fun e he => List.mem_append_right _ (h4 e he)⟩

theorem walkPtr_fwd (rec : Walk) (p : Path) (id : Nat) (x : Value) (r : Value × List Event)
    (h : walkPtr rec p (GoType.struct id) (Value.ptr (some x)) = some r) :
    ∃ r1, rec (GoType.struct id) (p ++ [Seg.deref]) x = some r1 ∧
      r = (Value.ptr (some r1.1), r1.2) := by
  simp only [walkPtr] at h
  cases h1 : rec (GoType.struct id) (p ++ [Seg.deref]) x with
  | none => simp [h1] at h
  | some r1 =>
    simp only [h1, Option.some.injEq] at h
    exact ⟨r1, rfl, h.symm⟩

theorem applyDefaultsRecursive_called_here (P : Program) (o : Options) (fuel id : Nat)
    (p : Path) (v : Value) (r : Value × List Event)
    (h : applyDefaultsRecursive P o fuel (GoType.struct id) p v = some r) :
    Called P o (GoType.struct id) p r.2 := by
  cases fuel with
  | zero => simp [applyDefaultsRecursive] at h
  | succ fuel =>
    by_cases hv : ∃ fs, applySetter (o.defaultSetter (GoType.struct id))
        (applySetter (P.setDefaults (GoType.struct id)) v) = Value.struct fs
    · obtain ⟨fs, hfs⟩ := hv
      rw [applyDefaultsRecursive_struct P o fuel id p v fs hfs] at h
      cases hw : walkFields P (applyDefaultsRecursive P o fuel) p 0 (P.fields id) fs with
      | none => simp [hw] at h
      | some rs =>
        simp only [hw, Option.some.injEq] at h
        subst h
        exact Called_setters P o _ p rs.2
    · rw [applyDefaultsRecursive_not_struct_value P o fuel _ p v
        (fun fs hfs => hv ⟨fs, hfs⟩)] at h
      simp only [Option.some.injEq] at h
      subst h
      have := Called_setters P o (GoType.struct id) p []
      rwa [List.append_nil] at this

/-- C11: the field loop runs on the value the instance's setters left.  Whatever the
fields held before, if after the own and registered setter an exported pointer-to-struct
field is non-nil, or an exported slice or map field holds struct elements, then the same
call has invoked the setters of those struct instances. -/
theorem applyDefaultsRecursive_walks_installed (P : Program) (o : Options)
    (hmap : ∀ m k, (mapIndex m k).isSome → k ∈ P.mapRange m)
    (fuel id : Nat) (p : Path) (v : Value) (r : Value × List Event) (fs : List Value)
    (h : applyDefaultsRecursive P o (fuel + 1) (GoType.struct id) p v = some r)
    (hset : applySetter (o.defaultSetter (GoType.struct id))
      (applySetter (P.setDefaults (GoType.struct id)) v) = Value.struct fs) :
    (∀ i id' x, (P.fields id).get? i = some ⟨true, GoType.ptr (GoType.struct id')⟩ →
      fs.get? i = some (Value.ptr (some x)) →
      Called P o (GoType.struct id') (p ++ [Seg.field i] ++ [Seg.deref]) r.2) ∧
    (∀ i id' xs j x, (P.fields id).get? i = some ⟨true, GoType.slice (GoType.struct id')⟩ →
      fs.get? i = some (Value.slice (some xs)) → xs.get? j = some x →
      Called P o (GoType.struct id') (p ++ [Seg.field i] ++ [Seg.index j]) r.2) ∧
    (∀ i id' m k x, (P.fields id).get? i = some ⟨true, GoType.map (GoType.struct id')⟩ →
      fs.get? i = some (Value.map (some m)) → mapIndex m k = some x →
      Called P o (GoType.struct id') (p ++ [Seg.field i] ++ [Seg.key k]) r.2) := by
  rw [applyDefaultsRecursive_struct P o fuel id p v fs hset] at h
  cases hw : walkFields P (applyDefaultsRecursive P o fuel) p 0 (P.fields id) fs with
  | none => simp [hw] at h
  | some rs =>
    simp only [hw, Option.some.injEq] at h
    subst h
    have hfield : ∀ e ∈ rs.2, e ∈
        (setterEvent (P.setDefaults (GoType.struct id)) SetterKind.own (GoType.struct id) p ++
          setterEvent (o.defaultSetter (GoType.struct id)) SetterKind.registered
            (GoType.struct id) p) ++ rs.2 :=
      fun e he => List.mem_append_right _ he
    refine ⟨?_, ?_, ?_⟩
    · intro i id' x hf hget
      obtain ⟨r1, hwf, _, hin⟩ := walkFields_fwd P _ p _ _ 0 rs hw i _ _ hf rfl hget
      rw [Nat.zero_add] at hwf
      have hwp : walkPtr (applyDefaultsRecursive P o fuel) (p ++ [Seg.field i])
          (GoType.struct id') (Value.ptr (some x)) = some r1 := hwf
      obtain ⟨r2, hrec, hr2⟩ := walkPtr_fwd _ _ _ _ _ hwp
      subst hr2
      exact Called_mono P o _ _ _ _ (applyDefaultsRecursive_called_here P o _ _ _ _ _ hrec)
        (fun e he => hfield e (hin e he))
    · intro i id' xs j x hf hget hj
      obtain ⟨r1, hwf, _, hin⟩ := walkFields_fwd P _ p _ _ 0 rs hw i _ _ hf rfl hget
      rw [Nat.zero_add] at hwf
      simp only [walkField] at hwf
      cases hws : walkSlice (applyDefaultsRecursive P o fuel) (p ++ [Seg.field i])
          (GoType.struct id') 0 xs with
      | none => simp [hws] at hwf
      | some rr =>
        simp only [hws, Option.some.injEq] at hwf
        subst hwf
        obtain ⟨r2, hwe, _, hin2⟩ := walkSlice_fwd _ _ _ xs 0 rr hws j x hj
        rw [Nat.zero_add] at hwe
        have hrec : applyDefaultsRecursive P o fuel (GoType.struct id')
            (p ++ [Seg.field i] ++ [Seg.index j]) x = some r2 := hwe
        exact Called_mono P o _ _ _ _ (applyDefaultsRecursive_called_here P o _ _ _ _ _ hrec)
          (fun e he => hfield e (hin e (hin2 e he)))
    · intro i id' m k x hf hget hk
      obtain ⟨r1, hwf, _, hin⟩ := walkFields_fwd P _ p _ _ 0 rs hw i _ _ hf rfl hget
      rw [Nat.zero_add] at hwf
      simp only [walkField] at hwf
      cases hwm : walkMap (applyDefaultsRecursive P o fuel) (p ++ [Seg.field i])
          (GoType.struct id') (P.mapRange m) m with
      | none => simp [hwm] at hwf
      | some rr =>
        simp only [hwm, Option.some.injEq] at hwf
        subst hwf
        rw [walkMap_struct_eq] at hwm
        obtain ⟨r2, hrec, hin2⟩ := mapLoopWith_fwd _ _ m rr hwm k x
          (hmap m k (by rw [hk]; rfl)) hk
        exact Called_mono P o _ _ _ _ (applyDefaultsRecursive_called_here P o _ _ _ _ _ hrec)
          (fun e he => hfield e (hin e (hin2 e he)))

/-- Witness of C11: the root of `installProgram` starts with a nil pointer, a nil slice
and a nil map; its setter installs a struct 1 instance in each, and the same call invokes
`SetDefaults` of the three new instances (their scalar becomes 5). -/
theorem applyDefaultsRecursive_walks_installed_witness :
    applyDefaultsRecursive installProgram plainOptions 2 (GoType.struct 0) [] emptyRoot =
      some (Value.struct [Value.ptr (some (Value.struct [Value.other 5])),
          Value.slice (some [Value.struct [Value.other 5]]),
          Value.map (some [(1, Value.struct [Value.other 5])])],
        [⟨SetterKind.own, GoType.struct 0, []⟩,
         ⟨SetterKind.own, GoType.struct 1, [Seg.field 0, Seg.deref]⟩,
         ⟨SetterKind.own, GoType.struct 1, [Seg.field 1, Seg.index 0]⟩,
         ⟨SetterKind.own, GoType.struct 1, [Seg.field 2, Seg.key 1]⟩]) ∧
    Called installProgram plainOptions (GoType.struct 1) ([] ++ [Seg.field 0] ++ [Seg.deref])
      [⟨SetterKind.own, GoType.struct 0, []⟩,
       ⟨SetterKind.own, GoType.struct 1, [Seg.field 0, Seg.deref]⟩,
       ⟨SetterKind.own, GoType.struct 1, [Seg.field 1, Seg.index 0]⟩,
       ⟨SetterKind.own, GoType.struct 1, [Seg.field 2, Seg.key 1]⟩] :=
  ⟨rfl, (applyDefaultsRecursive_walks_installed installProgram plainOptions
    (fun m k hk => mapIndex_isSome_mem_keys m k hk) 1 0 [] emptyRoot _ _ rfl rfl).1
      0 1 zeroItem rfl rfl⟩

/-! ## The applier writes nothing of its own -/

theorem setMapIndex_same (m : List (Nat × Value)) (k : Nat) (x : Value)
    (h : mapIndex m k = some x) : setMapIndex m k x = m := by
  induction m with
  | nil => simp [mapIndex] at h
  | cons kv m ih =>
    obtain ⟨k', v'⟩ := kv
    by_cases hk : k' = k
    · simp only [mapIndex, hk, if_true, Option.some.injEq] at h
      simp [setMapIndex, hk, h]
    · simp only [mapIndex, hk, if_false] at h
      simp [setMapIndex, hk, ih h]

theorem walkPtr_frame (P : Program) (o : Options) (rec : Walk) (hrec : Untouched P o rec)
    (p : Path) (elemT : GoType) (v : Value) (r : Value × List Event)
    (h : walkPtr rec p elemT v = some r) (hid : ∀ e ∈ r.2, IdentityCall P o e) :
    r.1 = v := by
  unfold walkPtr at h
  split at h
  · rename_i id x
    cases hr : rec (GoType.struct id) (p ++ [Seg.deref]) x with
    | none => simp [hr] at h
    | some r' =>
      simp only [hr, Option.some.injEq] at h
      subst h
      have := hrec _ _ _ _ hr hid
      simp only [this]
  · simp only [Option.some.injEq] at h
    subst h
    rfl

theorem walkSliceElem_frame (P : Program) (o : Options) (rec : Walk) (hrec : Untouched P o rec)
    (p : Path) (elemT : GoType) (x : Value) (r : Value × List Event)
    (h : walkSliceElem rec p elemT x = some r) (hid : ∀ e ∈ r.2, IdentityCall P o e) :
    r.1 = x := by
  unfold walkSliceElem at h
  split at h
  · exact hrec _ _ _ _ h hid
  · exact walkPtr_frame P o rec hrec _ _ _ _ h hid
  · simp only [Option.some.injEq] at h
    subst h
    rfl

theorem walkSlice_frame (P : Program) (o : Options) (rec : Walk) (hrec : Untouched P o rec)
    (p : Path) (elemT : GoType) :
    ∀ (xs : List Value) (i : Nat) (r : List Value × List Event),
      walkSlice rec p elemT i xs = some r → (∀ e ∈ r.2, IdentityCall P o e) → r.1 = xs := by
  intro xs
  induction xs with
  | nil =>
    intro i r h _
    simp only [walkSlice, Option.some.injEq] at h
    subst h
    rfl
  | cons x xs ih =>
    intro i r h hid
    simp only [walkSlice] at h
    cases h1 : walkSliceElem rec (p ++ [Seg.index i]) elemT x with
    | none => simp [h1] at h
    | some r1 =>
      cases h2 : walkSlice rec p elemT (i + 1) xs with
      | none => simp [h1, h2] at h
      | some r2 =>
        simp only [h1, h2, Option.some.injEq] at h
        subst h
        have e1 := walkSliceElem_frame P o rec hrec _ _ _ _ h1
          (fun e he => hid e (List.mem_append_left _ he))
        have e2 := ih _ _ h2 (fun e he => hid e (List.mem_append_right _ he))
        simp only [e1, e2]

theorem mapLoopWith_frame (P : Program) (o : Options)
    (w : Nat → Value → Option (Value × List Event))
    (hw : ∀ k x r1, w k x = some r1 → (∀ e ∈ r1.2, IdentityCall P o e) → r1.1 = x) :
    ∀ (ks : List Nat) (m : List (Nat × Value)) (r : List (Nat × Value) × List Event),
      mapLoopWith w ks m = some r → (∀ e ∈ r.2, IdentityCall P o e) → r.1 = m := by
  intro ks
  induction ks with
  | nil =>
    intro m r h _
    simp only [mapLoopWith, Option.some.injEq] at h
    subst h
    rfl
  | cons k ks ih =>
    intro m r h hid
    simp only [mapLoopWith] at h
    cases hm : mapIndex m k with
    | none =>
      simp only [hm] at h
      exact ih m r h hid
    | some elem =>
      simp only [hm] at h
      cases h1 : w k elem with
      | none => simp [h1] at h
      | some r1 =>
        cases h2 : mapLoopWith w ks (setMapIndex m k r1.1) with
        | none => simp [h1, h2] at h
        | some r2 =>
          simp only [h1, h2, Option.some.injEq] at h
          subst h
          have e1 := hw k elem r1 h1 (fun e he => hid e (List.mem_append_left _ he))
          rw [e1, setMapIndex_same m k elem hm] at h2
          exact ih m r2 h2 (fun e he => hid e (List.mem_append_right _ he))

theorem walkMap_other (rec : Walk) (p : Path) (elemT : GoType)
    (hs : ∀ id, elemT ≠ GoType.struct id) (hp : ∀ e, elemT ≠ GoType.ptr e) :
    ∀ (ks : List Nat) (m : List (Nat × Value)), walkMap rec p elemT ks m = some (m, []) := by
  intro ks
  induction ks with
  | nil => intro m; rfl
  | cons k ks ih =>
    intro m
    simp only [walkMap]
    cases hm : mapIndex m k with
    | none => exact ih m
    | some elem => exact ih m

theorem walkMap_frame (P : Program) (o : Options) (rec : Walk) (hrec : Untouched P o rec)
    (p : Path) (elemT : GoType) (ks : List Nat) (m : List (Nat × Value))
    (r : List (Nat × Value) × List Event) (h : walkMap rec p elemT ks m = some r)
    (hid : ∀ e ∈ r.2, IdentityCall P o e) : r.1 = m := by
  cases elemT with
  | struct id =>
    rw [walkMap_struct_eq] at h
    exact mapLoopWith_frame P o _ (fun k x r1 h1 h2 => hrec _ _ _ _ h1 h2) ks m r h hid
  | ptr e =>
    rw [walkMap_ptr_eq] at h
    exact mapLoopWith_frame P o _
      (fun k x r1 h1 h2 => walkPtr_frame P o rec hrec _ _ _ _ h1 h2) ks m r h hid
  | slice e =>
    rw [walkMap_other rec p _ (fun _ hh => GoType.noConfusion hh)
      (fun _ hh => GoType.noConfusion hh)] at h
    simp only [Option.some.injEq] at h
    subst h
    rfl
  | map e =>
    rw [walkMap_other rec p _ (fun _ hh => GoType.noConfusion hh)
      (fun _ hh => GoType.noConfusion hh)] at h
    simp only [Option.some.injEq] at h
    subst h
    rfl
  | other n =>
    rw [walkMap_other rec p _ (fun _ hh => GoType.noConfusion hh)
      (fun _ hh => GoType.noConfusion hh)] at h
    simp only [Option.some.injEq] at h
    subst h
    rfl

theorem walkField_frame (P : Program) (o : Options) (rec : Walk) (hrec : Untouched P o rec)
    (p : Path) (ft : GoType) (fv : Value) (r : Value × List Event)
    (h : walkField P rec p ft fv = some r) (hid : ∀ e ∈ r.2, IdentityCall P o e) :
    r.1 = fv := by
  have hnil : ∀ w : Value, some (w, ([] : List Event)) = some r → r.1 = w := by
    intro w hw
    simp only [Option.some.injEq] at hw
    subst hw
    rfl
  cases ft with
  | struct id => exact hrec _ _ _ _ h hid
  | ptr e' => exact walkPtr_frame P o rec hrec _ _ _ _ h hid
  | other n => exact hnil _ h
  | slice e' =>
    cases fv with
    | slice oxs =>
      cases oxs with
      | none => exact hnil _ h
      | some xs =>
        simp only [walkField] at h
        cases h1 : walkSlice rec p e' 0 xs with
        | none => simp [h1] at h
        | some r1 =>
          simp only [h1, Option.some.injEq] at h
          subst h
          have := walkSlice_frame P o rec hrec _ _ _ _ _ h1 hid
          simp only [this]
    | other n => exact hnil _ h
    | struct fs => exact hnil _ h
    | ptr t => exact hnil _ h
    | map m => exact hnil _ h
  | map e' =>
    cases fv with
    | map om =>
      cases om with
      | none => exact hnil _ h
      | some m =>
        simp only [walkField] at h
        cases h1 : walkMap rec p e' (P.mapRange m) m with
        | none => simp [h1] at h
        | some r1 =>
          simp only [h1, Option.some.injEq] at h
          subst h
          have := walkMap_frame P o rec hrec _ _ _ _ _ h1 hid
          simp only [this]
    | other n => exact hnil _ h
    | struct fs => exact hnil _ h
    | ptr t => exact hnil _ h
    | slice xs => exact hnil _ h

theorem walkFields_frame (P : Program) (o : Options) (rec : Walk) (hrec : Untouched P o rec)
    (p : Path) :
    ∀ (fs : List StructField) (vs : List Value) (i : Nat) (r : List Value × List Event),
      walkFields P rec p i fs vs = some r → (∀ e ∈ r.2, IdentityCall P o e) → r.1 = vs := by
  intro fs
  induction fs with
  | nil =>
    intro vs i r h _
    simp only [walkFields, Option.some.injEq] at h
    subst h
    rfl
  | cons f fs ih =>
    intro vs i r h hid
    cases vs with
    | nil =>
      simp only [walkFields, Option.some.injEq] at h
      subst h
      rfl
    | cons v vs =>
      simp only [walkFields] at h
      cases h1 : (if f.exported = true then walkField P rec (p ++ [Seg.field i]) f.type v
          else some (v, [])) with
      | none => simp [h1] at h
      | some r1 =>
        cases h2 : walkFields P rec p (i + 1) fs vs with
        | none => simp [h1, h2] at h
        | some r2 =>
          simp only [h1, h2, Option.some.injEq] at h
          subst h
          have e2 := ih _ _ _ h2 (fun e he => hid e (List.mem_append_right _ he))
          have e1 : r1.1 = v := by
            by_cases hx : f.exported = true
            · rw [if_pos hx] at h1
              exact walkField_frame P o rec hrec _ _ _ _ h1
                (fun e he => hid e (List.mem_append_left _ he))
            · rw [if_neg hx] at h1
              simp only [Option.some.injEq] at h1
              subst h1
              rfl
          simp only [e1, e2]

theorem setters_identity (P : Program) (o : Options) (t : GoType) (p : Path) (v : Value)
    (hid : ∀ e ∈ setterEvent (P.setDefaults t) SetterKind.own t p ++
      setterEvent (o.defaultSetter t) SetterKind.registered t p, IdentityCall P o e) :
    applySetter (o.defaultSetter t) (applySetter (P.setDefaults t) v) = v := by
  have h1 : applySetter (P.setDefaults t) v = v := by
    cases hf : P.setDefaults t with
    | none => rfl
    | some f =>
      have := hid ⟨SetterKind.own, t, p⟩ (by simp [hf, setterEvent])
      exact this f hf v
  rw [h1]
  cases hg : o.defaultSetter t with
  | none => rfl
  | some g =>
    have := hid ⟨SetterKind.registered, t, p⟩ (by simp [hg, setterEvent])
    exact this g hg v

theorem applyDefaultsRecursive_frame (P : Program) (o : Options) :
    ∀ fuel, Untouched P o (applyDefaultsRecursive P o fuel) := by
  intro fuel
  induction fuel with
  | zero =>
    intro t p v r h
    simp [applyDefaultsRecursive] at h
  | succ fuel ih =>
    intro t p v r h hid
    by_cases ht : ∃ id, t = GoType.struct id
    · obtain ⟨id, rfl⟩ := ht
      by_cases hv : ∃ fs, applySetter (o.defaultSetter (GoType.struct id))
          (applySetter (P.setDefaults (GoType.struct id)) v) = Value.struct fs
      · obtain ⟨fs, hfs⟩ := hv
        rw [applyDefaultsRecursive_struct P o fuel id p v fs hfs] at h
        cases hw : walkFields P (applyDefaultsRecursive P o fuel) p 0 (P.fields id) fs with
        | none => simp [hw] at h
        | some rs =>
          simp only [hw, Option.some.injEq] at h
          subst h
          have hs := setters_identity P o (GoType.struct id) p v
            (fun e he => hid e (List.mem_append_left _ he))
          have hf := walkFields_frame P o _ ih p _ _ _ _ hw
            (fun e he => hid e (List.mem_append_right _ he))
          simp only [hf]
          rw [← hfs, hs]
      · rw [applyDefaultsRecursive_not_struct_value P o fuel _ p v
          (fun fs hfs => hv ⟨fs, hfs⟩)] at h
        simp only [Option.some.injEq] at h
        subst h
        exact setters_identity P o _ p v hid
    · rw [applyDefaultsRecursive_not_struct_type P o fuel t p v
        (fun id hid => ht ⟨id, hid⟩)] at h
      simp only [Option.some.injEq] at h
      subst h
      exact setters_identity P o _ p v hid

/-! ## Relations every step of the walk respects -/

theorem walkPtr_rel (R : Value → Value → Prop) (hR : WalkRel R) (rec : Walk)
    (hrec : Relates R rec) (p : Path) (elemT : GoType) (v : Value) (r : Value × List Event)
    (h : walkPtr rec p elemT v = some r) : R v r.1 := by
  unfold walkPtr at h
  split at h
  · rename_i id x
    cases hr : rec (GoType.struct id) (p ++ [Seg.deref]) x with
    | none => simp [hr] at h
    | some r' =>
      simp only [hr, Option.some.injEq] at h
      subst h
      exact hR.ptr _ _ (hrec _ _ _ _ hr)
  · simp only [Option.some.injEq] at h
    subst h
    exact hR.refl _

theorem walkSliceElem_rel (R : Value → Value → Prop) (hR : WalkRel R) (rec : Walk)
    (hrec : Relates R rec) (p : Path) (elemT : GoType) (x : Value) (r : Value × List Event)
    (h : walkSliceElem rec p elemT x = some r) : R x r.1 := by
  unfold walkSliceElem at h
  split at h
  · exact hrec _ _ _ _ h
  · exact walkPtr_rel R hR rec hrec _ _ _ _ h
  · simp only [Option.some.injEq] at h
    subst h
    exact hR.refl _

theorem walkSlice_rel (R : Value → Value → Prop) (hR : WalkRel R) (rec : Walk)
    (hrec : Relates R rec) (p : Path) (elemT : GoType) :
    ∀ (xs : List Value) (i : Nat) (r : List Value × List Event),
      walkSlice rec p elemT i xs = some r → List.Forall₂ R xs r.1 := by
  intro xs
  induction xs with
  | nil =>
    intro i r h
    simp only [walkSlice, Option.some.injEq] at h
    subst h
    exact List.Forall₂.nil
  | cons x xs ih =>
    intro i r h
    simp only [walkSlice] at h
    cases h1 : walkSliceElem rec (p ++ [Seg.index i]) elemT x with
    | none => simp [h1] at h
    | some r1 =>
      cases h2 : walkSlice rec p elemT (i + 1) xs with
      | none => simp [h1, h2] at h
      | some r2 =>
        simp only [h1, h2, Option.some.injEq] at h
        subst h
        exact List.Forall₂.cons (walkSliceElem_rel R hR rec hrec _ _ _ _ h1) (ih _ _ h2)

theorem mapLoopWith_rel (R : Value → Value → Prop) (hR : WalkRel R)
    (w : Nat → Value → Option (Value × List Event))
    (hw : ∀ k x r1, w k x = some r1 → R x r1.1) :
    ∀ (ks : List Nat) (m : List (Nat × Value)) (r : List (Nat × Value) × List Event),
      mapLoopWith w ks m = some r → R (Value.map (some m)) (Value.map (some r.1)) := by
  intro ks
  induction ks with
  | nil =>
    intro m r h
    simp only [mapLoopWith, Option.some.injEq] at h
    subst h
    exact hR.refl _
  | cons k ks ih =>
    intro m r h
    simp only [mapLoopWith] at h
    cases hm : mapIndex m k with
    | none =>
      simp only [hm] at h
      exact ih m r h
    | some elem =>
      simp only [hm] at h
      cases h1 : w k elem with
      | none => simp [h1] at h
      | some r1 =>
        cases h2 : mapLoopWith w ks (setMapIndex m k r1.1) with
        | none => simp [h1, h2] at h
        | some r2 =>
          simp only [h1, h2, Option.some.injEq] at h
          subst h
          exact hR.trans _ _ _ (hR.map m k elem r1.1 hm (hw k elem r1 h1)) (ih _ r2 h2)

theorem walkMap_rel (R : Value → Value → Prop) (hR : WalkRel R) (rec : Walk)
    (hrec : Relates R rec) (p : Path) (elemT : GoType) (ks : List Nat)
    (m : List (Nat × Value)) (r : List (Nat × Value) × List Event)
    (h : walkMap rec p elemT ks m = some r) :
    R (Value.map (some m)) (Value.map (some r.1)) := by
  have hother : ∀ t : GoType, (∀ id, t ≠ GoType.struct id) → (∀ e, t ≠ GoType.ptr e) →
      walkMap rec p t ks m = some r → R (Value.map (some m)) (Value.map (some r.1)) := by
    intro t h1 h2 h3
    rw [walkMap_other rec p t h1 h2] at h3
    simp only [Option.some.injEq] at h3
    subst h3
    exact hR.refl _
  cases elemT with
  | struct id =>
    rw [walkMap_struct_eq] at h
    exact mapLoopWith_rel R hR _ (fun k x r1 h1 => hrec _ _ _ _ h1) ks m r h
  | ptr e =>
    rw [walkMap_ptr_eq] at h
    exact mapLoopWith_rel R hR _
      (fun k x r1 h1 => walkPtr_rel R hR rec hrec _ _ _ _ h1) ks m r h
  | slice e =>
    exact hother _ (fun _ hh => GoType.noConfusion hh) (fun _ hh => GoType.noConfusion hh) h
  | map e =>
    exact hother _ (fun _ hh => GoType.noConfusion hh) (fun _ hh => GoType.noConfusion hh) h
  | other n =>
    exact hother _ (fun _ hh => GoType.noConfusion hh) (fun _ hh => GoType.noConfusion hh) h

theorem walkField_rel (P : Program) (R : Value → Value → Prop) (hR : WalkRel R) (rec : Walk)
    (hrec : Relates R rec) (p : Path) (ft : GoType) (fv : Value) (r : Value × List Event)
    (h : walkField P rec p ft fv = some r) : R fv r.1 := by
  have hnil : ∀ w : Value, some (w, ([] : List Event)) = some r → R w r.1 := by
    intro w hw
    simp only [Option.some.injEq] at hw
    subst hw
    exact hR.refl _
  cases ft with
  | struct id => exact hrec _ _ _ _ h
  | ptr e' => exact walkPtr_rel R hR rec hrec _ _ _ _ h
  | other n => exact hnil _ h
  | slice e' =>
    cases fv with
    | slice oxs =>
      cases oxs with
      | none => exact hnil _ h
      | some xs =>
        simp only [walkField] at h
        cases h1 : walkSlice rec p e' 0 xs with
        | none => simp [h1] at h
        | some r1 =>
          simp only [h1, Option.some.injEq] at h
          subst h
          exact hR.slice _ _ (walkSlice_rel R hR rec hrec _ _ _ _ _ h1)
    | other n => exact hnil _ h
    | struct fs => exact hnil _ h
    | ptr t => exact hnil _ h
    | map m => exact hnil _ h
  | map e' =>
    cases fv with
    | map om =>
      cases om with
      | none => exact hnil _ h
      | some m =>
        simp only [walkField] at h
        cases h1 : walkMap rec p e' (P.mapRange m) m with
        | none => simp [h1] at h
        | some r1 =>
          simp only [h1, Option.some.injEq] at h
          subst h
          exact walkMap_rel R hR rec hrec _ _ _ _ _ h1
    | other n => exact hnil _ h
    | struct fs => exact hnil _ h
    | ptr t => exact hnil _ h
    | slice xs => exact hnil _ h

theorem walkFields_rel (P : Program) (R : Value → Value → Prop) (hR : WalkRel R)
    (rec : Walk) (hrec : Relates R rec) (p : Path) :
    ∀ (fs : List StructField) (vs : List Value) (i : Nat) (r : List Value × List Event),
      walkFields P rec p i fs vs = some r → List.Forall₂ R vs r.1 := by
  have hrefl : ∀ l : List Value, List.Forall₂ R l l := by
    intro l
    induction l with
    | nil => exact List.Forall₂.nil
    | cons a l ih => exact List.Forall₂.cons (hR.refl a) ih
  intro fs
  induction fs with
  | nil =>
    intro vs i r h
    simp only [walkFields, Option.some.injEq] at h
    subst h
    exact hrefl vs
  | cons f fs ih =>
    intro vs i r h
    cases vs with
    | nil =>
      simp only [walkFields, Option.some.injEq] at h
      subst h
      exact List.Forall₂.nil
    | cons v vs =>
      simp only [walkFields] at h
      cases h1 : (if f.exported = true then walkField P rec (p ++ [Seg.field i]) f.type v
          else some (v, [])) with
      | none => simp [h1] at h
      | some r1 =>
        cases h2 : walkFields P rec p (i + 1) fs vs with
        | none => simp [h1, h2] at h
        | some r2 =>
          simp only [h1, h2, Option.some.injEq] at h
          subst h
          refine List.Forall₂.cons ?_ (ih _ _ _ h2)
          by_cases hx : f.exported = true
          · rw [if_pos hx] at h1
            exact walkField_rel P R hR rec hrec _ _ _ _ h1
          · rw [if_neg hx] at h1
            simp only [Option.some.injEq] at h1
            subst h1
            exact hR.refl _

theorem setters_rel (P : Program) (o : Options) (R : Value → Value → Prop) (hR : WalkRel R)
    (hset : SettersRelate P o R) (t : GoType) (v : Value) :
    R v (applySetter (o.defaultSetter t) (applySetter (P.setDefaults t) v)) := by
  have h1 : R v (applySetter (P.setDefaults t) v) := by
    cases hf : P.setDefaults t with
    | none => exact hR.refl _
    | some f => exact hset.1 t f hf v
  refine hR.trans _ _ _ h1 ?_
  cases hg : o.defaultSetter t with
  | none => exact hR.refl _
  | some g => exact hset.2 t g hg _

theorem applyDefaultsRecursive_rel (P : Program) (o : Options) (R : Value → Value → Prop)
    (hR : WalkRel R) (hset : SettersRelate P o R) :
    ∀ fuel, Relates R (applyDefaultsRecursive P o fuel) := by
  intro fuel
  induction fuel with
  | zero =>
    intro t p v r h
    simp [applyDefaultsRecursive] at h
  | succ fuel ih =>
    intro t p v r h
    have hs := setters_rel P o R hR hset t v
    by_cases ht : ∃ id, t = GoType.struct id
    · obtain ⟨id, rfl⟩ := ht
      by_cases hv : ∃ fs, applySetter (o.defaultSetter (GoType.struct id))
          (applySetter (P.setDefaults (GoType.struct id)) v) = Value.struct fs
      · obtain ⟨fs, hfs⟩ := hv
        rw [applyDefaultsRecursive_struct P o fuel id p v fs hfs] at h
        cases hw : walkFields P (applyDefaultsRecursive P o fuel) p 0 (P.fields id) fs with
        | none => simp [hw] at h
        | some rs =>
          simp only [hw, Option.some.injEq] at h
          subst h
          rw [hfs] at hs
          exact hR.trans _ _ _ hs (hR.struct _ _ (walkFields_rel P R hR _ ih p _ _ _ _ hw))
      · rw [applyDefaultsRecursive_not_struct_value P o fuel _ p v
          (fun fs hfs => hv ⟨fs, hfs⟩)] at h
        simp only [Option.some.injEq] at h
        subst h
        exact hs
    · rw [applyDefaultsRecursive_not_struct_type P o fuel t p v
        (fun id hid => ht ⟨id, hid⟩)] at h
      simp only [Option.some.injEq] at h
      subst h
      exact hs

/-! ## Non-zero scalars survive the walk -/

theorem forall₂_get? {R : Value → Value → Prop} :
    ∀ (xs xs' : List Value), List.Forall₂ R xs xs' → ∀ i x, xs.get? i = some x →
      ∃ x', xs'.get? i = some x' ∧ R x x' := by
  intro xs xs' h
  induction h with
  | nil => intro i x hx; simp at hx
  | cons hab _ ih =>
    intro i x hx
    cases i with
    | zero =>
      simp only [List.get?_cons_zero, Option.some.injEq] at hx
      subst hx
      exact ⟨_, rfl, hab⟩
    | succ i =>
      simp only [List.get?_cons_succ] at hx
      obtain ⟨x', h1, h2⟩ := ih i x hx
      exact ⟨x', by simpa using h1, h2⟩

theorem mapIndex_setMapIndex (m : List (Nat × Value)) (k k2 : Nat) (v : Value) :
    mapIndex (setMapIndex m k v) k2 = if k2 = k then some v else mapIndex m k2 := by
  by_cases h : k2 = k
  · subst h
    simp [mapIndex_setMapIndex_self]
  · simp [h, mapIndex_setMapIndex_ne m k k2 v h]

theorem keepsScalars_walkRel : WalkRel KeepsScalars where
  refl := fun _ _ _ h _ => h
  trans := fun _ _ _ h1 h2 q n h hn => h2 q n (h1 q n h hn) hn
  ptr := by
    intro x x' h q n hq hn
    cases q with
    | nil => simp [valueAt] at hq
    | cons s q =>
      cases s with
      | deref =>
        simp only [valueAt] at hq ⊢
        exact h q n hq hn
      | field i => simp [valueAt] at hq
      | index i => simp [valueAt] at hq
      | key k => simp [valueAt] at hq
  slice := by
    intro xs xs' h q n hq hn
    cases q with
    | nil => simp [valueAt] at hq
    | cons s q =>
      cases s with
      | index i =>
        simp only [valueAt] at hq ⊢
        cases hx : xs.get? i with
        | none => rw [hx] at hq; simp at hq
        | some x =>
          simp only [hx] at hq
          obtain ⟨x', h1, h2⟩ := forall₂_get? xs xs' h i x hx
          simp only [h1]
          exact h2 q n hq hn
      | field i => simp [valueAt] at hq
      | deref => simp [valueAt] at hq
      | key k => simp [valueAt] at hq
  struct := by
    intro fs fs' h q n hq hn
    cases q with
    | nil => simp [valueAt] at hq
    | cons s q =>
      cases s with
      | field i =>
        simp only [valueAt] at hq ⊢
        cases hx : fs.get? i with
        | none => rw [hx] at hq; simp at hq
        | some x =>
          simp only [hx] at hq
          obtain ⟨x', h1, h2⟩ := forall₂_get? fs fs' h i x hx
          simp only [h1]
          exact h2 q n hq hn
      | index i => simp [valueAt] at hq
      | deref => simp [valueAt] at hq
      | key k => simp [valueAt] at hq
  map := by
    intro m k x x' hm h q n hq hn
    cases q with
    | nil => simp [valueAt] at hq
    | cons s q =>
      cases s with
      | key k2 =>
        simp only [valueAt, mapIndex_setMapIndex] at hq ⊢
        by_cases hk : k2 = k
        · subst hk
          simp only [hm] at hq
          simp only [if_true]
          exact h q n hq hn
        · simp only [hk, if_false]
          exact hq
      | index i => simp [valueAt] at hq
      | deref => simp [valueAt] at hq
      | field i => simp [valueAt] at hq

/-- C13: if every setter, own or registered, leaves unchanged every scalar that holds a
non-zero value at or below the instance it is invoked on, then every scalar of the
destination that holds a non-zero value before `ApplyDefaults` holds the same value at
the same place afterwards; so a second call overwrites no non-zero scalar the first call
(or the user) left. -/
theorem ApplyDefaults_keeps_nonzero_scalars (P : Program) (c : Config)
    (hset : SettersRelate P c.options KeepsScalars) (fuel : Nat) (r : Value × List Event)
    (h : ApplyDefaults P c fuel = some r) :
    (∀ q n, valueAt c.dest q = some (Value.other n) → n ≠ 0 →
      valueAt r.1 q = some (Value.other n)) ∧
    (∀ fuel2 r2, ApplyDefaults P { c with dest := r.1 } fuel2 = some r2 →
      ∀ q n, valueAt r.1 q = some (Value.other n) → n ≠ 0 →
        valueAt r2.1 q = some (Value.other n)) :=
  ⟨applyDefaultsRecursive_rel P c.options KeepsScalars keepsScalars_walkRel hset fuel
      _ _ _ _ h,
    fun fuel2 _ h2 =>
      applyDefaultsRecursive_rel P c.options KeepsScalars keepsScalars_walkRel hset fuel2
        _ _ _ _ h2⟩
theorem fillFirst_keeps (n : Nat) (v : Value) : KeepsScalars v (fillFirst n v) := by
  unfold fillFirst
  split
  · rename_i rest
    intro q m hq hm
    cases q with
    | nil => simp [valueAt] at hq
    | cons s q =>
      cases s with
      | field i =>
        cases i with
        | zero =>
          cases q with
          | nil =>
            simp only [valueAt, List.get?_cons_zero, Option.some.injEq, Value.other.injEq] at hq
            exact absurd hq.symm hm
          | cons s2 q2 => simp [valueAt] at hq
        | succ i =>
          simp only [valueAt, List.get?_cons_succ] at hq ⊢
          exact hq
      | index i => simp [valueAt] at hq
      | deref => simp [valueAt] at hq
      | key k => simp [valueAt] at hq
  · intro q m hq _
    exact hq

theorem demoProgram_setters_keep : SettersRelate demoProgram plainOptions KeepsScalars := by
  constructor
  · intro t f hf v
    simp only [demoProgram] at hf
    split_ifs at hf <;> (injection hf with hf; subst hf; exact fillFirst_keeps _ v)
  · intro t g hg
    exact Option.noConfusion hg

/-- Witness of C13: the setters of `demoProgram` fill a field only when it is zero; the
user's values 3 and 9 are still there after `ApplyDefaults`. -/
theorem ApplyDefaults_keeps_nonzero_scalars_witness :
    valueAt userDestAfter [Seg.field 0] = some (Value.other 3) ∧
      valueAt userDestAfter [Seg.field 3, Seg.index 0, Seg.field 0] = some (Value.other 9) :=
  ⟨(ApplyDefaults_keeps_nonzero_scalars demoProgram ⟨plainOptions, GoType.struct 0, userDest⟩
      demoProgram_setters_keep 3 (userDestAfter, userCalls) rfl).1 [Seg.field 0] 3 rfl
      (by decide),
    (ApplyDefaults_keeps_nonzero_scalars demoProgram ⟨plainOptions, GoType.struct 0, userDest⟩
      demoProgram_setters_keep 3 (userDestAfter, userCalls) rfl).1
      [Seg.field 3, Seg.index 0, Seg.field 0] 9 rfl (by decide)⟩

/-! ## Termination on finite values -/

theorem depthAtMost_succ : ∀ (n : Nat) (v : Value),
    depthAtMost n v = true → depthAtMost (n + 1) v = true := by
  intro n
  induction n with
  | zero => intro v h; simp [depthAtMost] at h
  | succ n ih =>
    intro v h
    cases v with
    | other k => simp [depthAtMost]
    | struct fs =>
      simp only [depthAtMost, List.all_eq_true] at h ⊢
      exact fun x hx => ih x (h x hx)
    | ptr t =>
      cases t with
      | none => simp [depthAtMost]
      | some x =>
        simp only [depthAtMost] at h ⊢
        exact ih x h
    | slice oxs =>
      cases oxs with
      | none => simp [depthAtMost]
      | some xs =>
        simp only [depthAtMost, List.all_eq_true] at h ⊢
        exact fun x hx => ih x (h x hx)
    | map om =>
      cases om with
      | none => simp [depthAtMost]
      | some m =>
        simp only [depthAtMost, List.all_eq_true] at h ⊢
        exact fun x hx => ih x.2 (h x hx)

theorem forall₂_all {R : Value → Value → Prop} (q q' : Value → Bool)
    (hq : ∀ x x', R x x' → q x = true → q' x' = true) :
    ∀ (xs xs' : List Value), List.Forall₂ R xs xs' → xs.all q = true → xs'.all q' = true := by
  intro xs xs' h
  induction h with
  | nil => intro _; rfl
  | cons hab _ ih =>
    intro hall
    simp only [List.all_cons, Bool.and_eq_true] at hall ⊢
    exact ⟨hq _ _ hab hall.1, ih hall.2⟩

theorem setMapIndex_all (q : Nat × Value → Bool) :
    ∀ (m : List (Nat × Value)) (k : Nat) (x : Value), m.all q = true → q (k, x) = true →
      (setMapIndex m k x).all q = true := by
  intro m
  induction m with
  | nil =>
    intro k x _ hx
    simp [setMapIndex, hx]
  | cons kv m ih =>
    intro k x hall hx
    obtain ⟨k', v'⟩ := kv
    simp only [List.all_cons, Bool.and_eq_true] at hall
    by_cases hk : k' = k
    · simp only [setMapIndex, hk, if_true, List.all_cons, Bool.and_eq_true]
      exact ⟨hx, hall.2⟩
    · simp only [setMapIndex, hk, if_false, List.all_cons, Bool.and_eq_true]
      exact ⟨hall.1, ih k x hall.2 hx⟩

theorem noDeeper_walkRel : WalkRel NoDeeper where
  refl := fun _ _ h => h
  trans := fun _ _ _ h1 h2 k h => h2 k (h1 k h)
  ptr := by
    intro x x' h k hk
    cases k with
    | zero => simp [depthAtMost] at hk
    | succ k =>
      simp only [depthAtMost] at hk ⊢
      exact h k hk
  slice := by
    intro xs xs' h k hk
    cases k with
    | zero => simp [depthAtMost] at hk
    | succ k =>
      simp only [depthAtMost] at hk ⊢
      exact forall₂_all _ _ (fun x x' hr hx => hr k hx) xs xs' h hk
  struct := by
    intro fs fs' h k hk
    cases k with
    | zero => simp [depthAtMost] at hk
    | succ k =>
      simp only [depthAtMost] at hk ⊢
      exact forall₂_all _ _ (fun x x' hr hx => hr k hx) fs fs' h hk
  map := by
    intro m j x x' hm h k hk
    cases k with
    | zero => simp [depthAtMost] at hk
    | succ k =>
      simp only [depthAtMost] at hk ⊢
      apply setMapIndex_all _ m j x' hk
      have hx : depthAtMost k x = true :=
        (List.all_eq_true.mp hk) (j, x) (mem_of_mapIndex m j x hm)
      exact h k hx
theorem depthAtMost_ptr (n : Nat) (x : Value)
    (h : depthAtMost n (Value.ptr (some x)) = true) : depthAtMost n x = true := by
  cases n with
  | zero => simp [depthAtMost] at h
  | succ n =>
    simp only [depthAtMost] at h
    exact depthAtMost_succ n x h

theorem depthAtMost_slice (n : Nat) (xs : List Value)
    (h : depthAtMost n (Value.slice (some xs)) = true) :
    ∀ x ∈ xs, depthAtMost n x = true := by
  cases n with
  | zero => simp [depthAtMost] at h
  | succ n =>
    simp only [depthAtMost, List.all_eq_true] at h
    exact fun x hx => depthAtMost_succ n x (h x hx)

theorem depthAtMost_map (n : Nat) (m : List (Nat × Value))
    (h : depthAtMost n (Value.map (some m)) = true) :
    m.all (fun kv => depthAtMost n kv.2) = true := by
  cases n with
  | zero => simp [depthAtMost] at h
  | succ n =>
    simp only [depthAtMost, List.all_eq_true] at h ⊢
    exact fun x hx => depthAtMost_succ n x.2 (h x hx)

theorem walkPtr_total (n : Nat) (rec : Walk) (hT : TotalAt n rec) (p : Path)
    (elemT : GoType) (v : Value) (hv : depthAtMost n v = true) :
    ∃ r, walkPtr rec p elemT v = some r := by
  unfold walkPtr
  split
  · rename_i id x
    obtain ⟨r, hr⟩ := hT (GoType.struct id) (p ++ [Seg.deref]) x (depthAtMost_ptr n x hv)
    exact ⟨_, by rw [hr]⟩
  · exact ⟨_, rfl⟩

theorem walkSliceElem_total (n : Nat) (rec : Walk) (hT : TotalAt n rec) (p : Path)
    (elemT : GoType) (x : Value) (hx : depthAtMost n x = true) :
    ∃ r, walkSliceElem rec p elemT x = some r := by
  unfold walkSliceElem
  split
  · exact hT _ _ _ hx
  · exact walkPtr_total n rec hT _ _ _ hx
  · exact ⟨_, rfl⟩

theorem walkSlice_total (n : Nat) (rec : Walk) (hT : TotalAt n rec) (p : Path)
    (elemT : GoType) :
    ∀ (xs : List Value) (i : Nat), (∀ x ∈ xs, depthAtMost n x = true) →
      ∃ r, walkSlice rec p elemT i xs = some r := by
  intro xs
  induction xs with
  | nil => intro i _; exact ⟨_, rfl⟩
  | cons x xs ih =>
    intro i hxs
    obtain ⟨r1, h1⟩ := walkSliceElem_total n rec hT (p ++ [Seg.index i]) elemT x
      (hxs x (List.mem_cons_self _ _))
    obtain ⟨r2, h2⟩ := ih (i + 1) (fun y hy => hxs y (List.mem_cons_of_mem _ hy))
    exact ⟨_, by simp only [walkSlice, h1, h2]; rfl⟩

theorem mapLoopWith_total (n : Nat) (w : Nat → Value → Option (Value × List Event))
    (hw : ∀ k x, depthAtMost n x = true → ∃ r, w k x = some r)
    (hwP : ∀ k x r, w k x = some r → depthAtMost n x = true → depthAtMost n r.1 = true) :
    ∀ (ks : List Nat) (m : List (Nat × Value)),
      m.all (fun kv => depthAtMost n kv.2) = true → ∃ r, mapLoopWith w ks m = some r := by
  intro ks
  induction ks with
  | nil => intro m _; exact ⟨_, rfl⟩
  | cons k ks ih =>
    intro m hm
    cases hk : mapIndex m k with
    | none =>
      obtain ⟨r, hr⟩ := ih m hm
      exact ⟨r, by simp only [mapLoopWith, hk, hr]⟩
    | some elem =>
      have he : depthAtMost n elem = true :=
        (List.all_eq_true.mp hm) (k, elem) (mem_of_mapIndex m k elem hk)
      obtain ⟨r1, h1⟩ := hw k elem he
      have hm1 : (setMapIndex m k r1.1).all (fun kv => depthAtMost n kv.2) = true :=
        setMapIndex_all _ m k r1.1 hm (hwP k elem r1 h1 he)
      obtain ⟨r2, h2⟩ := ih _ hm1
      exact ⟨_, by simp only [mapLoopWith, hk, h1, h2]; rfl⟩

theorem walkPtr_noDeeper_at (n : Nat) (rec : Walk) (hP : Relates NoDeeper rec) (p : Path)
    (elemT : GoType) (v : Value) (r : Value × List Event)
    (h : walkPtr rec p elemT v = some r) (hv : depthAtMost n v = true) :
    depthAtMost n r.1 = true :=
  walkPtr_rel NoDeeper noDeeper_walkRel rec hP p elemT v r h n hv

theorem walkMap_total (n : Nat) (rec : Walk) (hT : TotalAt n rec)
    (hP : Relates NoDeeper rec) (p : Path) (elemT : GoType) (ks : List Nat)
    (m : List (Nat × Value)) (hm : m.all (fun kv => depthAtMost n kv.2) = true) :
    ∃ r, walkMap rec p elemT ks m = some r := by
  cases elemT with
  | struct id =>
    rw [walkMap_struct_eq]
    exact mapLoopWith_total n _ (fun k x hx => hT _ _ _ hx)
      (fun k x r h hx => hP _ _ _ _ h n hx) ks m hm
  | ptr e =>
    rw [walkMap_ptr_eq]
    exact mapLoopWith_total n _ (fun k x hx => walkPtr_total n rec hT _ _ _ hx)
      (fun k x r h hx => walkPtr_noDeeper_at n rec hP _ _ _ _ h hx) ks m hm
  | slice e =>
    exact ⟨_, walkMap_other rec p _ (fun _ hh => GoType.noConfusion hh)
      (fun _ hh => GoType.noConfusion hh) ks m⟩
  | map e =>
    exact ⟨_, walkMap_other rec p _ (fun _ hh => GoType.noConfusion hh)
      (fun _ hh => GoType.noConfusion hh) ks m⟩
  | other k =>
    exact ⟨_, walkMap_other rec p _ (fun _ hh => GoType.noConfusion hh)
      (fun _ hh => GoType.noConfusion hh) ks m⟩

theorem walkField_total (P : Program) (n : Nat) (rec : Walk) (hT : TotalAt n rec)
    (hP : Relates NoDeeper rec) (p : Path) (ft : GoType) (fv : Value)
    (hv : depthAtMost n fv = true) : ∃ r, walkField P rec p ft fv = some r := by
  cases ft with
  | struct id => exact hT _ _ _ hv
  | ptr e' => exact walkPtr_total n rec hT _ _ _ hv
  | other k => exact ⟨_, rfl⟩
  | slice e' =>
    cases fv with
    | slice oxs =>
      cases oxs with
      | none => exact ⟨_, rfl⟩
      | some xs =>
        obtain ⟨r, hr⟩ := walkSlice_total n rec hT p e' xs 0 (depthAtMost_slice n xs hv)
        exact ⟨_, by simp only [walkField, hr]; rfl⟩
    | other k => exact ⟨_, rfl⟩
    | struct fs => exact ⟨_, rfl⟩
    | ptr t => exact ⟨_, rfl⟩
    | map m => exact ⟨_, rfl⟩
  | map e' =>
    cases fv with
    | map om =>
      cases om with
      | none => exact ⟨_, rfl⟩
      | some m =>
        obtain ⟨r, hr⟩ := walkMap_total n rec hT hP p e' (P.mapRange m) m
          (depthAtMost_map n m hv)
        exact ⟨_, by simp only [walkField, hr]; rfl⟩
    | other k => exact ⟨_, rfl⟩
    | struct fs => exact ⟨_, rfl⟩
    | ptr t => exact ⟨_, rfl⟩
    | slice xs => exact ⟨_, rfl⟩

theorem walkFields_total (P : Program) (n : Nat) (rec : Walk) (hT : TotalAt n rec)
    (hP : Relates NoDeeper rec) (p : Path) :
    ∀ (fs : List StructField) (vs : List Value) (i : Nat),
      (∀ v ∈ vs, depthAtMost n v = true) → ∃ r, walkFields P rec p i fs vs = some r := by
  intro fs
  induction fs with
  | nil => intro vs i _; exact ⟨_, rfl⟩
  | cons f fs ih =>
    intro vs i hvs
    cases vs with
    | nil => exact ⟨_, rfl⟩
    | cons v vs =>
      have h1 : ∃ r1, (if f.exported = true then
          walkField P rec (p ++ [Seg.field i]) f.type v else some (v, [])) = some r1 := by
        by_cases hx : f.exported = true
        · rw [if_pos hx]
          exact walkField_total P n rec hT hP _ _ _ (hvs v (List.mem_cons_self _ _))
        · rw [if_neg hx]
          exact ⟨_, rfl⟩
      obtain ⟨r1, h1⟩ := h1
      obtain ⟨r2, h2⟩ := ih vs (i + 1) (fun y hy => hvs y (List.mem_cons_of_mem _ hy))
      exact ⟨_, by simp only [walkFields, h1, h2]; rfl⟩

theorem applyDefaultsRecursive_total (P : Program) (o : Options)
    (hset : SettersRelate P o NoDeeper) :
    ∀ n, TotalAt n (applyDefaultsRecursive P o n) := by
  intro n
  induction n with
  | zero =>
    intro t p v hv
    simp [depthAtMost] at hv
  | succ n ih =>
    intro t p v hv
    have hsv := setters_rel P o NoDeeper noDeeper_walkRel hset t v (n + 1) hv
    by_cases ht : ∃ id, t = GoType.struct id
    · obtain ⟨id, rfl⟩ := ht
      by_cases hs : ∃ fs, applySetter (o.defaultSetter (GoType.struct id))
          (applySetter (P.setDefaults (GoType.struct id)) v) = Value.struct fs
      · obtain ⟨fs, hfs⟩ := hs
        rw [applyDefaultsRecursive_struct P o n id p v fs hfs]
        rw [hfs] at hsv
        simp only [depthAtMost, List.all_eq_true] at hsv
        obtain ⟨rs, hrs⟩ := walkFields_total P n _ ih
          (applyDefaultsRecursive_rel P o NoDeeper noDeeper_walkRel hset n) p
          (P.fields id) fs 0 hsv
        exact ⟨_, by rw [hrs]⟩
      · exact ⟨_, applyDefaultsRecursive_not_struct_value P o n _ p v
          (fun fs hfs => hs ⟨fs, hfs⟩)⟩
    · exact ⟨_, applyDefaultsRecursive_not_struct_type P o n t p v
        (fun id hid => ht ⟨id, hid⟩)⟩

/-! ## No setter is called twice on the same instance -/

theorem seg_eq_of_prefixes (p q : Path) (s1 s2 : Seg) (h1 : (p ++ [s1]) <+: q)
    (h2 : (p ++ [s2]) <+: q) : s1 = s2 := by
  obtain ⟨r1, hr1⟩ := h1
  obtain ⟨r2, hr2⟩ := h2
  rw [← hr2, List.append_assoc, List.append_assoc] at hr1
  have := List.append_cancel_left hr1
  simp only [List.singleton_append, List.cons.injEq] at this
  exact this.1

theorem nodup_append_of_paths (a b : List Event) (ha : a.Nodup) (hb : b.Nodup)
    (hab : ∀ e ∈ a, ∀ e' ∈ b, e.path ≠ e'.path) : (a ++ b).Nodup := by
  rw [List.nodup_append]
  refine ⟨ha, hb, ?_⟩
  intro e he he'
  exact hab e he e he' rfl

theorem walkPtr_once (rec : Walk) (hN : CallsOnce rec) (p : Path) (elemT : GoType)
    (v : Value) (r : Value × List Event) (h : walkPtr rec p elemT v = some r) :
    r.2.Nodup := by
  unfold walkPtr at h
  split at h
  · rename_i id x
    cases hr : rec (GoType.struct id) (p ++ [Seg.deref]) x with
    | none => simp [hr] at h
    | some r' =>
      simp only [hr, Option.some.injEq] at h
      subst h
      exact hN _ _ _ r' hr
  · simp only [Option.some.injEq] at h
    subst h
    exact List.nodup_nil

theorem walkSliceElem_once (rec : Walk) (hN : CallsOnce rec) (p : Path) (elemT : GoType)
    (x : Value) (r : Value × List Event) (h : walkSliceElem rec p elemT x = some r) :
    r.2.Nodup := by
  unfold walkSliceElem at h
  split at h
  · exact hN _ _ _ _ h
  · exact walkPtr_once rec hN _ _ _ _ h
  · simp only [Option.some.injEq] at h
    subst h
    exact List.nodup_nil

theorem walkSlice_once (rec : Walk) (hN : CallsOnce rec) (hB : Below rec) (p : Path)
    (elemT : GoType) :
    ∀ (xs : List Value) (i : Nat) (r : List Value × List Event),
      walkSlice rec p elemT i xs = some r →
        r.2.Nodup ∧ ∀ e ∈ r.2, ∃ j, i ≤ j ∧ (p ++ [Seg.index j]) <+: e.path := by
  intro xs
  induction xs with
  | nil =>
    intro i r h
    simp only [walkSlice, Option.some.injEq] at h
    subst h
    exact ⟨List.nodup_nil, fun e he => absurd he (List.not_mem_nil _)⟩
  | cons x xs ih =>
    intro i r h
    simp only [walkSlice] at h
    cases h1 : walkSliceElem rec (p ++ [Seg.index i]) elemT x with
    | none => simp [h1] at h
    | some r1 =>
      cases h2 : walkSlice rec p elemT (i + 1) xs with
      | none => simp [h1, h2] at h
      | some r2 =>
        simp only [h1, h2, Option.some.injEq] at h
        subst h
        have hb1 := walkSliceElem_below rec hB _ _ _ _ h1
        obtain ⟨hn2, hb2⟩ := ih _ _ h2
        constructor
        · apply nodup_append_of_paths _ _ (walkSliceElem_once rec hN _ _ _ _ h1) hn2
          intro e he e' he' hpath
          obtain ⟨j, hj, hpre⟩ := hb2 e' he'
          have h3 := hb1 e he
          rw [hpath] at h3
          have := seg_eq_of_prefixes p _ _ _ h3 hpre
          injection this with this
          omega
        · intro e he
          rcases List.mem_append.mp he with he | he
          · exact ⟨i, Nat.le_refl _, hb1 e he⟩
          · obtain ⟨j, hj, hpre⟩ := hb2 e he
            exact ⟨j, by omega, hpre⟩

theorem mapLoopWith_once (p : Path) (w : Nat → Value → Option (Value × List Event))
    (hwN : ∀ k x r1, w k x = some r1 → r1.2.Nodup)
    (hwB : ∀ k x r1, w k x = some r1 → ∀ e ∈ r1.2, (p ++ [Seg.key k]) <+: e.path) :
    ∀ (ks : List Nat) (m : List (Nat × Value)) (r : List (Nat × Value) × List Event),
      ks.Nodup → mapLoopWith w ks m = some r →
        r.2.Nodup ∧ ∀ e ∈ r.2, ∃ k ∈ ks, (p ++ [Seg.key k]) <+: e.path := by
  intro ks
  induction ks with
  | nil =>
    intro m r _ h
    simp only [mapLoopWith, Option.some.injEq] at h
    subst h
    exact ⟨List.nodup_nil, fun e he => absurd he (List.not_mem_nil _)⟩
  | cons k ks ih =>
    intro m r hnd h
    simp only [List.nodup_cons] at hnd
    simp only [mapLoopWith] at h
    cases hm : mapIndex m k with
    | none =>
      simp only [hm] at h
      obtain ⟨h1, h2⟩ := ih m r hnd.2 h
      refine ⟨h1, fun e he => ?_⟩
      obtain ⟨k', hk', hpre⟩ := h2 e he
      exact ⟨k', List.mem_cons_of_mem _ hk', hpre⟩
    | some elem =>
      simp only [hm] at h
      cases h1 : w k elem with
      | none => simp [h1] at h
      | some r1 =>
        cases h2 : mapLoopWith w ks (setMapIndex m k r1.1) with
        | none => simp [h1, h2] at h
        | some r2 =>
          simp only [h1, h2, Option.some.injEq] at h
          subst h
          obtain ⟨hn2, hb2⟩ := ih _ r2 hnd.2 h2
          have hb1 := hwB k elem r1 h1
          constructor
          · apply nodup_append_of_paths _ _ (hwN k elem r1 h1) hn2
            intro e he e' he' hpath
            obtain ⟨k', hk', hpre⟩ := hb2 e' he'
            have h3 := hb1 e he
            rw [hpath] at h3
            have := seg_eq_of_prefixes p _ _ _ h3 hpre
            injection this with this
            exact hnd.1 (this ▸ hk')
          · intro e he
            rcases List.mem_append.mp he with he | he
            · exact ⟨k, List.mem_cons_self _ _, hb1 e he⟩
            · obtain ⟨k', hk', hpre⟩ := hb2 e he
              exact ⟨k', List.mem_cons_of_mem _ hk', hpre⟩

theorem walkMap_once (rec : Walk) (hN : CallsOnce rec) (hB : Below rec) (p : Path)
    (elemT : GoType) (ks : List Nat) (hks : ks.Nodup) (m : List (Nat × Value))
    (r : List (Nat × Value) × List Event) (h : walkMap rec p elemT ks m = some r) :
    r.2.Nodup := by
  have hother : ∀ t : GoType, (∀ id, t ≠ GoType.struct id) → (∀ e, t ≠ GoType.ptr e) →
      walkMap rec p t ks m = some r → r.2.Nodup := by
    intro t h1 h2 h3
    rw [walkMap_other rec p t h1 h2] at h3
    simp only [Option.some.injEq] at h3
    subst h3
    exact List.nodup_nil
  cases elemT with
  | struct id =>
    rw [walkMap_struct_eq] at h
    exact (mapLoopWith_once p _ (fun k x r1 h1 => hN _ _ _ _ h1)
      (fun k x r1 h1 => hB _ _ _ _ h1) ks m r hks h).1
  | ptr e =>
    rw [walkMap_ptr_eq] at h
    exact (mapLoopWith_once p _ (fun k x r1 h1 => walkPtr_once rec hN _ _ _ _ h1)
      (fun k x r1 h1 => walkPtr_below rec hB _ _ _ _ h1) ks m r hks h).1
  | slice e =>
    exact hother _ (fun _ hh => GoType.noConfusion hh) (fun _ hh => GoType.noConfusion hh) h
  | map e =>
    exact hother _ (fun _ hh => GoType.noConfusion hh) (fun _ hh => GoType.noConfusion hh) h
  | other n =>
    exact hother _ (fun _ hh => GoType.noConfusion hh) (fun _ hh => GoType.noConfusion hh) h

theorem walkField_once (P : Program) (hiter : ∀ m, (P.mapRange m).Nodup) (rec : Walk)
    (hN : CallsOnce rec) (hB : Below rec) (p : Path) (ft : GoType) (fv : Value)
    (r : Value × List Event) (h : walkField P rec p ft fv = some r) : r.2.Nodup := by
  have hnil : ∀ w : Value, some (w, ([] : List Event)) = some r → r.2.Nodup := by
    intro w hw
    simp only [Option.some.injEq] at hw
    subst hw
    exact List.nodup_nil
  cases ft with
  | struct id => exact hN _ _ _ _ h
  | ptr e' => exact walkPtr_once rec hN _ _ _ _ h
  | other n => exact hnil _ h
  | slice e' =>
    cases fv with
    | slice oxs =>
      cases oxs with
      | none => exact hnil _ h
      | some xs =>
        simp only [walkField] at h
        cases h1 : walkSlice rec p e' 0 xs with
        | none => simp [h1] at h
        | some r1 =>
          simp only [h1, Option.some.injEq] at h
          subst h
          exact (walkSlice_once rec hN hB _ _ _ _ _ h1).1
    | other n => exact hnil _ h
    | struct fs => exact hnil _ h
    | ptr t => exact hnil _ h
    | map m => exact hnil _ h
  | map e' =>
    cases fv with
    | map om =>
      cases om with
      | none => exact hnil _ h
      | some m =>
        simp only [walkField] at h
        cases h1 : walkMap rec p e' (P.mapRange m) m with
        | none => simp [h1] at h
        | some r1 =>
          simp only [h1, Option.some.injEq] at h
          subst h
          exact walkMap_once rec hN hB _ _ _ (hiter m) _ _ h1
    | other n => exact hnil _ h
    | struct fs => exact hnil _ h
    | ptr t => exact hnil _ h
    | slice xs => exact hnil _ h

theorem walkFields_once (P : Program) (hiter : ∀ m, (P.mapRange m).Nodup) (rec : Walk)
    (hN : CallsOnce rec) (hB : Below rec) (p : Path) :
    ∀ (fs : List StructField) (vs : List Value) (i : Nat) (r : List Value × List Event),
      walkFields P rec p i fs vs = some r →
        r.2.Nodup ∧ ∀ e ∈ r.2, ∃ j, i ≤ j ∧ (p ++ [Seg.field j]) <+: e.path := by
  intro fs
  induction fs with
  | nil =>
    intro vs i r h
    simp only [walkFields, Option.some.injEq] at h
    subst h
    exact ⟨List.nodup_nil, fun e he => absurd he (List.not_mem_nil _)⟩
  | cons f fs ih =>
    intro vs i r h
    cases vs with
    | nil =>
      simp only [walkFields, Option.some.injEq] at h
      subst h
      exact ⟨List.nodup_nil, fun e he => absurd he (List.not_mem_nil _)⟩
    | cons v vs =>
      simp only [walkFields] at h
      cases h1 : (if f.exported = true then walkField P rec (p ++ [Seg.field i]) f.type v
          else some (v, [])) with
      | none => simp [h1] at h
      | some r1 =>
        cases h2 : walkFields P rec p (i + 1) fs vs with
        | none => simp [h1, h2] at h
        | some r2 =>
          simp only [h1, h2, Option.some.injEq] at h
          subst h
          obtain ⟨hn2, hb2⟩ := ih _ _ _ h2
          have h1' : r1.2.Nodup ∧ ∀ e ∈ r1.2, (p ++ [Seg.field i]) <+: e.path := by
            by_cases hx : f.exported = true
            · rw [if_pos hx] at h1
              exact ⟨walkField_once P hiter rec hN hB _ _ _ _ h1,
                walkField_below P rec hB _ _ _ _ h1⟩
            · rw [if_neg hx] at h1
              simp only [Option.some.injEq] at h1
              subst h1
              exact ⟨List.nodup_nil, fun e he => absurd he (List.not_mem_nil _)⟩
          obtain ⟨hn1, hb1⟩ := h1'
          constructor
          · apply nodup_append_of_paths _ _ hn1 hn2
            intro e he e' he' hpath
            obtain ⟨j, hj, hpre⟩ := hb2 e' he'
            have h3 := hb1 e he
            rw [hpath] at h3
            have := seg_eq_of_prefixes p _ _ _ h3 hpre
            injection this with this
            omega
          · intro e he
            rcases List.mem_append.mp he with he | he
            · exact ⟨i, Nat.le_refl _, hb1 e he⟩
            · obtain ⟨j, hj, hpre⟩ := hb2 e he
              exact ⟨j, by omega, hpre⟩

theorem setterEvents_nodup (P : Program) (o : Options) (t : GoType) (p : Path) :
    (setterEvent (P.setDefaults t) SetterKind.own t p ++
      setterEvent (o.defaultSetter t) SetterKind.registered t p).Nodup := by
  cases P.setDefaults t <;> cases o.defaultSetter t <;> simp [setterEvent]

theorem applyDefaultsRecursive_once (P : Program) (o : Options)
    (hiter : ∀ m, (P.mapRange m).Nodup) :
    ∀ fuel, CallsOnce (applyDefaultsRecursive P o fuel) := by
  intro fuel
  induction fuel with
  | zero =>
    intro t p v r h
    simp [applyDefaultsRecursive] at h
  | succ fuel ih =>
    intro t p v r h
    by_cases ht : ∃ id, t = GoType.struct id
    · obtain ⟨id, rfl⟩ := ht
      by_cases hv : ∃ fs, applySetter (o.defaultSetter (GoType.struct id))
          (applySetter (P.setDefaults (GoType.struct id)) v) = Value.struct fs
      · obtain ⟨fs, hfs⟩ := hv
        rw [applyDefaultsRecursive_struct P o fuel id p v fs hfs] at h
        cases hw : walkFields P (applyDefaultsRecursive P o fuel) p 0 (P.fields id) fs with
        | none => simp [hw] at h
        | some rs =>
          simp only [hw, Option.some.injEq] at h
          subst h
          obtain ⟨hn, hb⟩ := walkFields_once P hiter _ ih
            (applyDefaultsRecursive_below P o fuel) p _ _ _ _ hw
          apply nodup_append_of_paths _ _ (setterEvents_nodup P o _ p) hn
          intro e he e' he' hpath
          obtain ⟨j, _, hpre⟩ := hb e' he'
          have hp : e.path = p := by
            rcases List.mem_append.mp he with he | he
            · exact setterEvent_path _ _ _ _ e he
            · exact setterEvent_path _ _ _ _ e he
          exact path_ne_of_longer p e'.path _ hpre (by rw [← hpath, hp])
      · rw [applyDefaultsRecursive_not_struct_value P o fuel _ p v
          (fun fs hfs => hv ⟨fs, hfs⟩)] at h
        simp only [Option.some.injEq] at h
        subst h
        exact setterEvents_nodup P o _ p
    · rw [applyDefaultsRecursive_not_struct_type P o fuel t p v
        (fun id hid => ht ⟨id, hid⟩)] at h
      simp only [Option.some.injEq] at h
      subst h
      exact setterEvents_nodup P o _ p

/-! ## Claims about what the applier leaves alone and when it terminates -/

/-- C12: the applier writes nothing of its own.  When `ApplyDefaults` returns and every
setter it called is the identity (in particular when no visited type has a setter), the
destination is exactly the value it was before: nil pointers, nil slices and nil maps
stay nil, slices keep their elements and maps their entries.  When every setter is the
identity, the call returns on every destination with a budget of its nesting depth. -/
theorem ApplyDefaults_identity_setters_unchanged (P : Program) (c : Config) (fuel : Nat)
    (r : Value × List Event) (h : ApplyDefaults P c fuel = some r)
    (hid : ∀ e ∈ r.2, IdentityCall P c.options e) :
    r.1 = c.dest ∧
      (SettersRelate P c.options Eq → ∀ n, depthAtMost n c.dest = true →
        ∃ tr, ApplyDefaults P c n = some (c.dest, tr)) := by
  refine ⟨applyDefaultsRecursive_frame P c.options fuel _ _ _ _ h hid, ?_⟩
  intro hset n hn
  have hnd : SettersRelate P c.options NoDeeper :=
    ⟨fun t f hf v k hk => by rw [← hset.1 t f hf v]; exact hk,
     fun t g hg v k hk => by rw [← hset.2 t g hg v]; exact hk⟩
  obtain ⟨r2, hr2⟩ := applyDefaultsRecursive_total P c.options hnd n c.destType [] c.dest hn
  have hall : ∀ e ∈ r2.2, IdentityCall P c.options e := by
    intro e _
    unfold IdentityCall
    cases e.kind with
    | own => exact fun f hf w => (hset.1 e.type f hf w).symm
    | registered => exact fun g hg w => (hset.2 e.type g hg w).symm
  have heq := applyDefaultsRecursive_frame P c.options n _ _ _ _ hr2 hall
  refine ⟨r2.2, ?_⟩
  unfold ApplyDefaults
  rw [hr2, ← heq]

/-- Witness of C12: the example destination under a program without setters. -/
theorem ApplyDefaults_identity_setters_unchanged_witness :
    (demoDest, ([] : List Event)).1 = (Config.mk plainOptions (GoType.struct 0) demoDest).dest ∧
      (SettersRelate bareProgram (Config.mk plainOptions (GoType.struct 0) demoDest).options Eq →
        ∀ n, depthAtMost n (Config.mk plainOptions (GoType.struct 0) demoDest).dest = true →
          ∃ tr, ApplyDefaults bareProgram (Config.mk plainOptions (GoType.struct 0) demoDest) n
            = some ((Config.mk plainOptions (GoType.struct 0) demoDest).dest, tr)) :=
  ApplyDefaults_identity_setters_unchanged bareProgram
    (Config.mk plainOptions (GoType.struct 0) demoDest) 3 (demoDest, []) rfl
    (fun _ he => absurd he (List.not_mem_nil _))

/-! ## Termination along the declared types -/

theorem walkPtr_totalOn (S : Nat → Prop) (rec : Walk)
    (hT : ∀ id, S id → ∀ p v, ∃ r, rec (GoType.struct id) p v = some r) (p : Path)
    (elemT : GoType) (v : Value) (hS : ∀ id ∈ mentions elemT, S id) :
    ∃ r, walkPtr rec p elemT v = some r := by
  unfold walkPtr
  split
  · rename_i id x
    obtain ⟨r, hr⟩ := hT id (hS id (by simp [mentions])) (p ++ [Seg.deref]) x
    exact ⟨_, by rw [hr]⟩
  · exact ⟨_, rfl⟩

theorem walkSliceElem_totalOn (S : Nat → Prop) (rec : Walk)
    (hT : ∀ id, S id → ∀ p v, ∃ r, rec (GoType.struct id) p v = some r) (p : Path)
    (elemT : GoType) (x : Value) (hS : ∀ id ∈ mentions elemT, S id) :
    ∃ r, walkSliceElem rec p elemT x = some r := by
  unfold walkSliceElem
  split
  · rename_i id
    exact hT id (hS id (by simp [mentions])) _ _
  · rename_i e
    exact walkPtr_totalOn S rec hT _ _ _ (fun id hid => hS id (by simpa [mentions] using hid))
  · exact ⟨_, rfl⟩

theorem walkSlice_totalOn (S : Nat → Prop) (rec : Walk)
    (hT : ∀ id, S id → ∀ p v, ∃ r, rec (GoType.struct id) p v = some r) (p : Path)
    (elemT : GoType) (hS : ∀ id ∈ mentions elemT, S id) :
    ∀ (xs : List Value) (i : Nat), ∃ r, walkSlice rec p elemT i xs = some r := by
  intro xs
  induction xs with
  | nil => intro i; exact ⟨_, rfl⟩
  | cons x xs ih =>
    intro i
    obtain ⟨r1, h1⟩ := walkSliceElem_totalOn S rec hT (p ++ [Seg.index i]) elemT x hS
    obtain ⟨r2, h2⟩ := ih (i + 1)
    exact ⟨_, by simp only [walkSlice, h1, h2]; rfl⟩

theorem mapLoopWith_totalOn (w : Nat → Value → Option (Value × List Event))
    (hw : ∀ k x, ∃ r, w k x = some r) :
    ∀ (ks : List Nat) (m : List (Nat × Value)), ∃ r, mapLoopWith w ks m = some r := by
  intro ks
  induction ks with
  | nil => intro m; exact ⟨_, rfl⟩
  | cons k ks ih =>
    intro m
    cases hk : mapIndex m k with
    | none =>
      obtain ⟨r, hr⟩ := ih m
      exact ⟨r, by simp only [mapLoopWith, hk, hr]⟩
    | some elem =>
      obtain ⟨r1, h1⟩ := hw k elem
      obtain ⟨r2, h2⟩ := ih (setMapIndex m k r1.1)
      exact ⟨_, by simp only [mapLoopWith, hk, h1, h2]; rfl⟩

theorem walkMap_totalOn (S : Nat → Prop) (rec : Walk)
    (hT : ∀ id, S id → ∀ p v, ∃ r, rec (GoType.struct id) p v = some r) (p : Path)
    (elemT : GoType) (hS : ∀ id ∈ mentions elemT, S id) (ks : List Nat)
    (m : List (Nat × Value)) : ∃ r, walkMap rec p elemT ks m = some r := by
  cases elemT with
  | struct id =>
    rw [walkMap_struct_eq]
    exact mapLoopWith_totalOn _ (fun k x => hT id (hS id (by simp [mentions])) _ _) ks m
  | ptr e =>
    rw [walkMap_ptr_eq]
    exact mapLoopWith_totalOn _ (fun k x => walkPtr_totalOn S rec hT _ _ _
      (fun id hid => hS id (by simpa [mentions] using hid))) ks m
  | slice e =>
    exact ⟨_, walkMap_other rec p _ (fun _ hh => GoType.noConfusion hh)
      (fun _ hh => GoType.noConfusion hh) ks m⟩
  | map e =>
    exact ⟨_, walkMap_other rec p _ (fun _ hh => GoType.noConfusion hh)
      (fun _ hh => GoType.noConfusion hh) ks m⟩
  | other k =>
    exact ⟨_, walkMap_other rec p _ (fun _ hh => GoType.noConfusion hh)
      (fun _ hh => GoType.noConfusion hh) ks m⟩

theorem walkField_totalOn (P : Program) (S : Nat → Prop) (rec : Walk)
    (hT : ∀ id, S id → ∀ p v, ∃ r, rec (GoType.struct id) p v = some r) (p : Path)
    (ft : GoType) (fv : Value) (hS : ∀ id ∈ mentions ft, S id) :
    ∃ r, walkField P rec p ft fv = some r := by
  cases ft with
  | struct id => exact hT id (hS id (by simp [mentions])) _ _
  | ptr e' =>
    exact walkPtr_totalOn S rec hT _ _ _ (fun id hid => hS id (by simpa [mentions] using hid))
  | other k => exact ⟨_, rfl⟩
  | slice e' =>
    cases fv with
    | slice oxs =>
      cases oxs with
      | none => exact ⟨_, rfl⟩
      | some xs =>
        obtain ⟨r, hr⟩ := walkSlice_totalOn S rec hT p e'
          (fun id hid => hS id (by simpa [mentions] using hid)) xs 0
        exact ⟨_, by simp only [walkField, hr]; rfl⟩
    | other k => exact ⟨_, rfl⟩
    | struct fs => exact ⟨_, rfl⟩
    | ptr t => exact ⟨_, rfl⟩
    | map m => exact ⟨_, rfl⟩
  | map e' =>
    cases fv with
    | map om =>
      cases om with
      | none => exact ⟨_, rfl⟩
      | some m =>
        obtain ⟨r, hr⟩ := walkMap_totalOn S rec hT p e'
          (fun id hid => hS id (by simpa [mentions] using hid)) (P.mapRange m) m
        exact ⟨_, by simp only [walkField, hr]; rfl⟩
    | other k => exact ⟨_, rfl⟩
    | struct fs => exact ⟨_, rfl⟩
    | ptr t => exact ⟨_, rfl⟩
    | slice xs => exact ⟨_, rfl⟩

theorem walkFields_totalOn (P : Program) (S : Nat → Prop) (rec : Walk)
    (hT : ∀ id, S id → ∀ p v, ∃ r, rec (GoType.struct id) p v = some r) (p : Path) :
    ∀ (fs : List StructField) (vs : List Value) (i : Nat),
      (∀ f ∈ fs, ∀ id ∈ mentions f.type, S id) →
        ∃ r, walkFields P rec p i fs vs = some r := by
  intro fs
  induction fs with
  | nil => intro vs i _; exact ⟨_, rfl⟩
  | cons f fs ih =>
    intro vs i hfs
    cases vs with
    | nil => exact ⟨_, rfl⟩
    | cons v vs =>
      have h1 : ∃ r1, (if f.exported = true then
          walkField P rec (p ++ [Seg.field i]) f.type v else some (v, [])) = some r1 := by
        by_cases hx : f.exported = true
        · rw [if_pos hx]
          exact walkField_totalOn P S rec hT _ _ _ (hfs f (List.mem_cons_self _ _))
        · rw [if_neg hx]
          exact ⟨_, rfl⟩
      obtain ⟨r1, h1⟩ := h1
      obtain ⟨r2, h2⟩ := ih vs (i + 1) (fun g hg => hfs g (List.mem_cons_of_mem _ hg))
      exact ⟨_, by simp only [walkFields, h1, h2]; rfl⟩

theorem applyDefaultsRecursive_total_of_rank (P : Program) (o : Options) (rank : Nat → Nat)
    (hacyc : Acyclic P rank) :
    ∀ n id, rank id < n → ∀ p v, ∃ r, applyDefaultsRecursive P o n (GoType.struct id) p v
      = some r := by
  intro n
  induction n with
  | zero => intro id h; exact absurd h (Nat.not_lt_zero _)
  | succ n ih =>
    intro id hid p v
    by_cases hs : ∃ fs, applySetter (o.defaultSetter (GoType.struct id))
        (applySetter (P.setDefaults (GoType.struct id)) v) = Value.struct fs
    · obtain ⟨fs, hfs⟩ := hs
      rw [applyDefaultsRecursive_struct P o n id p v fs hfs]
      obtain ⟨rs, hrs⟩ := walkFields_totalOn P (fun id' => rank id' < n) _ ih p
        (P.fields id) fs 0
        (fun f hf id' hid' => Nat.lt_of_lt_of_le (hacyc id f hf id' hid')
          (Nat.lt_succ_iff.mp hid))
      exact ⟨_, by rw [hrs]⟩
    · exact ⟨_, applyDefaultsRecursive_not_struct_value P o n _ p v
        (fun fs hfs => hs ⟨fs, hfs⟩)⟩
/-! ## A larger budget gives the same result -/

theorem walkPtr_extends (rec rec' : Walk) (hE : Extends rec rec') (p : Path)
    (elemT : GoType) (v : Value) (r : Value × List Event)
    (h : walkPtr rec p elemT v = some r) : walkPtr rec' p elemT v = some r := by
  unfold walkPtr at h ⊢
  split at h
  · rename_i id x
    cases hr : rec (GoType.struct id) (p ++ [Seg.deref]) x with
    | none => simp [hr] at h
    | some r' =>
      simp only [hr] at h
      simp only [hE _ _ _ _ hr]
      exact h
  · exact h

theorem walkSliceElem_extends (rec rec' : Walk) (hE : Extends rec rec') (p : Path)
    (elemT : GoType) (x : Value) (r : Value × List Event)
    (h : walkSliceElem rec p elemT x = some r) : walkSliceElem rec' p elemT x = some r := by
  cases elemT with
  | struct id => exact hE _ _ _ _ h
  | ptr e => exact walkPtr_extends rec rec' hE _ _ _ _ h
  | slice e => exact h
  | map e => exact h
  | other n => exact h

theorem walkSlice_extends (rec rec' : Walk) (hE : Extends rec rec') (p : Path)
    (elemT : GoType) :
    ∀ (xs : List Value) (i : Nat) (r : List Value × List Event),
      walkSlice rec p elemT i xs = some r → walkSlice rec' p elemT i xs = some r := by
  intro xs
  induction xs with
  | nil => intro i r h; exact h
  | cons x xs ih =>
    intro i r h
    simp only [walkSlice] at h ⊢
    cases h1 : walkSliceElem rec (p ++ [Seg.index i]) elemT x with
    | none => simp [h1] at h
    | some r1 =>
      cases h2 : walkSlice rec p elemT (i + 1) xs with
      | none => simp [h1, h2] at h
      | some r2 =>
        simp only [h1, h2] at h
        simp only [walkSliceElem_extends rec rec' hE _ _ _ _ h1, ih _ _ h2]
        exact h

theorem mapLoopWith_extends (w w' : Nat → Value → Option (Value × List Event))
    (hw : ∀ k x r, w k x = some r → w' k x = some r) :
    ∀ (ks : List Nat) (m : List (Nat × Value)) (r : List (Nat × Value) × List Event),
      mapLoopWith w ks m = some r → mapLoopWith w' ks m = some r := by
  intro ks
  induction ks with
  | nil => intro m r h; exact h
  | cons k ks ih =>
    intro m r h
    simp only [mapLoopWith] at h ⊢
    cases hm : mapIndex m k with
    | none =>
      simp only [hm] at h ⊢
      exact ih m r h
    | some elem =>
      simp only [hm] at h ⊢
      cases h1 : w k elem with
      | none => simp [h1] at h
      | some r1 =>
        cases h2 : mapLoopWith w ks (setMapIndex m k r1.1) with
        | none => simp [h1, h2] at h
        | some r2 =>
          simp only [h1, h2] at h
          simp only [hw _ _ _ h1, ih _ _ h2]
          exact h

theorem walkMap_extends (rec rec' : Walk) (hE : Extends rec rec') (p : Path)
    (elemT : GoType) (ks : List Nat) (m : List (Nat × Value))
    (r : List (Nat × Value) × List Event) (h : walkMap rec p elemT ks m = some r) :
    walkMap rec' p elemT ks m = some r := by
  have hother : ∀ t : GoType, (∀ id, t ≠ GoType.struct id) → (∀ e, t ≠ GoType.ptr e) →
      walkMap rec p t ks m = some r → walkMap rec' p t ks m = some r := by
    intro t h1 h2 h3
    rw [walkMap_other rec p t h1 h2] at h3
    rw [walkMap_other rec' p t h1 h2]
    exact h3
  cases elemT with
  | struct id =>
    rw [walkMap_struct_eq] at h ⊢
    exact mapLoopWith_extends _ _ (fun k x r1 h1 => hE _ _ _ _ h1) ks m r h
  | ptr e =>
    rw [walkMap_ptr_eq] at h ⊢
    exact mapLoopWith_extends _ _
      (fun k x r1 h1 => walkPtr_extends rec rec' hE _ _ _ _ h1) ks m r h
  | slice e =>
    exact hother _ (fun _ hh => GoType.noConfusion hh) (fun _ hh => GoType.noConfusion hh) h
  | map e =>
    exact hother _ (fun _ hh => GoType.noConfusion hh) (fun _ hh => GoType.noConfusion hh) h
  | other n =>
    exact hother _ (fun _ hh => GoType.noConfusion hh) (fun _ hh => GoType.noConfusion hh) h

theorem walkField_extends (P : Program) (rec rec' : Walk) (hE : Extends rec rec') (p : Path)
    (ft : GoType) (fv : Value) (r : Value × List Event)
    (h : walkField P rec p ft fv = some r) : walkField P rec' p ft fv = some r := by
  cases ft with
  | struct id => exact hE _ _ _ _ h
  | ptr e' => exact walkPtr_extends rec rec' hE _ _ _ _ h
  | other n => exact h
  | slice e' =>
    cases fv with
    | slice oxs =>
      cases oxs with
      | none => exact h
      | some xs =>
        simp only [walkField] at h ⊢
        cases h1 : walkSlice rec p e' 0 xs with
        | none => simp [h1] at h
        | some r1 =>
          simp only [h1] at h
          simp only [walkSlice_extends rec rec' hE _ _ _ _ _ h1]
          exact h
    | other n => exact h
    | struct fs => exact h
    | ptr t => exact h
    | map m => exact h
  | map e' =>
    cases fv with
    | map om =>
      cases om with
      | none => exact h
      | some m =>
        simp only [walkField] at h ⊢
        cases h1 : walkMap rec p e' (P.mapRange m) m with
        | none => simp [h1] at h
        | some r1 =>
          simp only [h1] at h
          simp only [walkMap_extends rec rec' hE _ _ _ _ _ h1]
          exact h
    | other n => exact h
    | struct fs => exact h
    | ptr t => exact h
    | slice xs => exact h

theorem walkFields_extends (P : Program) (rec rec' : Walk) (hE : Extends rec rec')
    (p : Path) :
    ∀ (fs : List StructField) (vs : List Value) (i : Nat) (r : List Value × List Event),
      walkFields P rec p i fs vs = some r → walkFields P rec' p i fs vs = some r := by
  intro fs
  induction fs with
  | nil => intro vs i r h; exact h
  | cons f fs ih =>
    intro vs i r h
    cases vs with
    | nil => exact h
    | cons v vs =>
      simp only [walkFields] at h ⊢
      cases h1 : (if f.exported = true then walkField P rec (p ++ [Seg.field i]) f.type v
          else some (v, [])) with
      | none => simp [h1] at h
      | some r1 =>
        cases h2 : walkFields P rec p (i + 1) fs vs with
        | none => simp [h1, h2] at h
        | some r2 =>
          simp only [h1, h2] at h
          have h1' : (if f.exported = true then
              walkField P rec' (p ++ [Seg.field i]) f.type v else some (v, [])) = some r1 := by
            by_cases hx : f.exported = true
            · rw [if_pos hx] at h1 ⊢
              exact walkField_extends P rec rec' hE _ _ _ _ h1
            · rw [if_neg hx] at h1 ⊢
              exact h1
          simp only [h1', ih _ _ _ h2]
          exact h

theorem applyDefaultsRecursive_succ (P : Program) (o : Options) :
    ∀ n, Extends (applyDefaultsRecursive P o n) (applyDefaultsRecursive P o (n + 1)) := by
  intro n
  induction n with
  | zero =>
    intro t p v r h
    simp [applyDefaultsRecursive] at h
  | succ n ih =>
    intro t p v r h
    by_cases ht : ∃ id, t = GoType.struct id
    · obtain ⟨id, rfl⟩ := ht
      by_cases hv : ∃ fs, applySetter (o.defaultSetter (GoType.struct id))
          (applySetter (P.setDefaults (GoType.struct id)) v) = Value.struct fs
      · obtain ⟨fs, hfs⟩ := hv
        rw [applyDefaultsRecursive_struct P o n id p v fs hfs] at h
        rw [applyDefaultsRecursive_struct P o (n + 1) id p v fs hfs]
        cases hw : walkFields P (applyDefaultsRecursive P o n) p 0 (P.fields id) fs with
        | none => simp [hw] at h
        | some rs =>
          simp only [hw] at h
          simp only [walkFields_extends P _ _ ih p _ _ _ _ hw]
          exact h
      · rw [applyDefaultsRecursive_not_struct_value P o n _ p v
          (fun fs hfs => hv ⟨fs, hfs⟩)] at h
        rw [applyDefaultsRecursive_not_struct_value P o (n + 1) _ p v
          (fun fs hfs => hv ⟨fs, hfs⟩)]
        exact h
    · rw [applyDefaultsRecursive_not_struct_type P o n t p v
        (fun id hid => ht ⟨id, hid⟩)] at h
      rw [applyDefaultsRecursive_not_struct_type P o (n + 1) t p v
        (fun id hid => ht ⟨id, hid⟩)]
      exact h

theorem applyDefaultsRecursive_mono (P : Program) (o : Options) (n m : Nat) (hnm : n ≤ m) :
    Extends (applyDefaultsRecursive P o n) (applyDefaultsRecursive P o m) := by
  induction hnm with
  | refl => exact fun _ _ _ _ h => h
  | step _ ih => exact fun t p v r h => applyDefaultsRecursive_succ P o _ t p v r (ih t p v r h)
/-- C14: when the declared type shape is not self-referential (`rank` bounds the nesting
depth of the struct types), `ApplyDefaults` returns for every destination value and
every family of setters, own and registered, whatever they assign or install; a budget
of the nesting depth of the destination type suffices, and every larger budget gives the
same result. -/
theorem ApplyDefaults_terminates_on_acyclic_types (P : Program) (c : Config)
    (rank : Nat → Nat) (id : Nat) (hacyc : Acyclic P rank)
    (ht : c.destType = GoType.struct id) :
    ∃ r, ApplyDefaults P c (rank id + 1) = some r ∧
      ∀ fuel, rank id + 1 ≤ fuel → ApplyDefaults P c fuel = some r := by
  unfold ApplyDefaults
  rw [ht]
  obtain ⟨r, hr⟩ := applyDefaultsRecursive_total_of_rank P c.options rank hacyc
    (rank id + 1) id (Nat.lt_succ_self _) [] c.dest
  exact ⟨r, hr, fun fuel hf => applyDefaultsRecursive_mono P c.options _ fuel hf _ _ _ _ hr⟩

theorem demoProgram_acyclic : Acyclic demoProgram demoRank := by
  intro id f hf id' hid'
  simp only [demoProgram] at hf
  split_ifs at hf with h0 h1 h2
  · subst h0
    simp only [List.mem_cons, List.mem_singleton, List.not_mem_nil, or_false] at hf
    rcases hf with rfl | rfl | rfl | rfl | rfl | rfl | rfl | rfl <;>
      simp [mentions] at hid' <;> simp [hid', demoRank]
  · subst h1
    simp only [List.mem_singleton] at hf
    subst hf
    simp [mentions] at hid'
  · subst h2
    simp only [List.mem_singleton] at hf
    subst hf
    simp [mentions] at hid'
  · simp at hf

/-- Witness of C14: the types of `demoProgram` nest one level deep; `ApplyDefaults` on
the example destination returns with budget 2 and with every larger budget. -/
theorem ApplyDefaults_terminates_on_acyclic_types_witness :
    ∃ r, ApplyDefaults demoProgram (demoConfig true) (demoRank 0 + 1) = some r ∧
      ∀ fuel, demoRank 0 + 1 ≤ fuel → ApplyDefaults demoProgram (demoConfig true) fuel = some r :=
  ApplyDefaults_terminates_on_acyclic_types demoProgram (demoConfig true) demoRank 0
    demoProgram_acyclic rfl

/-! ## Claims about declared defaults -/

theorem getDefaultValue_uncomparable (P : Program) (o : Options) (fuel id i : Nat)
    (f : StructField)
    (hcap : (P.setDefaults (GoType.struct id)).isSome = true ∨
      (o.defaultSetter (GoType.struct id)).isSome = true)
    (hf : (P.fields id).get? i = some f) (hcmp : comparable P fuel f.type = false) :
    getDefaultValue P o fuel (GoType.struct id) i = DefaultResult.panics := by
  have happlied : (match o.defaultSetter (GoType.struct id) with
      | some g =>
        (g (match P.setDefaults (GoType.struct id) with
          | some f => (f (zeroValue P fuel (GoType.struct id)), true)
          | none => (zeroValue P fuel (GoType.struct id), false)).1, true)
      | none =>
        (match P.setDefaults (GoType.struct id) with
          | some f => (f (zeroValue P fuel (GoType.struct id)), true)
          | none => (zeroValue P fuel (GoType.struct id), false))).2 = true := by
    cases hg : o.defaultSetter (GoType.struct id) with
    | some g => rfl
    | none =>
      cases hs : P.setDefaults (GoType.struct id) with
      | some s => rfl
      | none =>
        rw [hg, hs] at hcap
        simp at hcap
  unfold getDefaultValue
  simp only [happlied, if_true, hf]
  split
  · rename_i f' u z heq _ _
    injection heq with heq
    subst heq
    by_cases hx : f.exported = true
    · simp [hx, hcmp]
    · simp [hx]
  · rfl

/-- C16, the code at failing inputs: struct 0 of `demoProgram` has a `SetDefaults`; for
its slice-typed field 3 and its map-typed field 1, which that setter leaves nil,
`getDefaultValue` panics on the comparison of two interface values of uncomparable type
instead of returning `(nil, false)`; with a setter that fills the slice it panics instead
of returning the slice.  For the scalar field 0 it returns the declared default 7. -/
theorem getDefaultValue_panics_on_slice_and_map_fields :
    getDefaultValue demoProgram plainOptions 2 (GoType.struct 0) 3 = DefaultResult.panics ∧
    getDefaultValue demoProgram plainOptions 2 (GoType.struct 0) 1 = DefaultResult.panics ∧
    getDefaultValue sliceDefaultProgram plainOptions 2 (GoType.struct 0) 3
      = DefaultResult.panics ∧
    getDefaultValue demoProgram plainOptions 2 (GoType.struct 0) 0
      = DefaultResult.found (Value.other 7) :=
  ⟨rfl, rfl, rfl, rfl⟩

/-! ## The map case inside a visit of a struct instance -/

theorem walkFields_below_from (P : Program) (rec : Walk) (hrec : Below rec) (p : Path) :
    ∀ (fs : List StructField) (vs : List Value) (i : Nat) (r : List Value × List Event),
      walkFields P rec p i fs vs = some r →
        ∀ e ∈ r.2, ∃ j, i ≤ j ∧ (p ++ [Seg.field j]) <+: e.path := by
  intro fs
  induction fs with
  | nil =>
    intro vs i r h
    simp only [walkFields, Option.some.injEq] at h
    subst h
    intro e he
    simp at he
  | cons f fs ih =>
    intro vs i r h
    cases vs with
    | nil =>
      simp only [walkFields, Option.some.injEq] at h
      subst h
      intro e he
      simp at he
    | cons v vs =>
      simp only [walkFields] at h
      cases h1 : (if f.exported = true then walkField P rec (p ++ [Seg.field i]) f.type v
          else some (v, [])) with
      | none => simp [h1] at h
      | some r1 =>
        cases h2 : walkFields P rec p (i + 1) fs vs with
        | none => simp [h1, h2] at h
        | some r2 =>
          simp only [h1, h2, Option.some.injEq] at h
          subst h
          intro e he
          rcases List.mem_append.mp he with he | he
          · refine ⟨i, Nat.le_refl _, ?_⟩
            by_cases hx : f.exported = true
            · rw [if_pos hx] at h1
              exact walkField_below P rec hrec _ _ _ _ h1 e he
            · rw [if_neg hx] at h1
              simp only [Option.some.injEq] at h1
              subst h1
              simp at he
          · obtain ⟨j, hj, hpre⟩ := ih _ _ _ h2 e he
            exact ⟨j, Nat.le_of_succ_le hj, hpre⟩

theorem walkFields_split (P : Program) (rec : Walk) (hrec : Below rec) (p : Path) :
    ∀ (fs : List StructField) (vs : List Value) (i : Nat) (r : List Value × List Event),
      walkFields P rec p i fs vs = some r → ∀ j f fv, fs.get? j = some f →
        f.exported = true → vs.get? j = some fv →
        ∃ r1 pre post, walkField P rec (p ++ [Seg.field (i + j)]) f.type fv = some r1 ∧
          r.1.get? j = some r1.1 ∧ r.2 = pre ++ r1.2 ++ post ∧
          ∀ e, e ∈ pre ∨ e ∈ post →
            ∃ j', j' ≠ i + j ∧ (p ++ [Seg.field j']) <+: e.path := by
  intro fs
  induction fs with
  | nil =>
    intro vs i r h j f fv hf
    simp at hf
  | cons f0 fs ih =>
    intro vs i r h j f fv hf hexp hv
    cases vs with
    | nil => simp at hv
    | cons v vs =>
      simp only [walkFields] at h
      cases h1 : (if f0.exported = true then walkField P rec (p ++ [Seg.field i]) f0.type v
          else some (v, [])) with
      | none => simp [h1] at h
      | some r1 =>
        cases h2 : walkFields P rec p (i + 1) fs vs with
        | none => simp [h1, h2] at h
        | some r2 =>
          simp only [h1, h2, Option.some.injEq] at h
          subst h
          cases j with
          | zero =>
            simp only [List.get?_cons_zero, Option.some.injEq] at hf hv
            subst hf
            subst hv
            rw [if_pos hexp] at h1
            refine ⟨r1, [], r2.2, h1, rfl, by simp, ?_⟩
            intro e he
            rcases he with he | he
            · simp at he
            · obtain ⟨j', hj', hpre⟩ := walkFields_below_from P rec hrec p _ _ _ _ h2 e he
              exact ⟨j', by omega, hpre⟩
          | succ j =>
            simp only [List.get?_cons_succ] at hf hv
            obtain ⟨r3, pre, post, hy2, hy3, hy4, hy5⟩ :=
              ih vs (i + 1) r2 h2 j f fv hf hexp hv
            refine ⟨r3, r1.2 ++ pre, post, ?_, by simpa using hy3, ?_, ?_⟩
            · rw [show i + (j + 1) = i + 1 + j by omega]
              exact hy2
            · simp only [hy4, List.append_assoc]
            · intro e he
              rw [show i + (j + 1) = i + 1 + j by omega]
              rcases he with he | he
              · rcases List.mem_append.mp he with he | he
                · refine ⟨i, by omega, ?_⟩
                  by_cases hx : f0.exported = true
                  · rw [if_pos hx] at h1
                    exact walkField_below P rec hrec _ _ _ _ h1 e he
                  · rw [if_neg hx] at h1
                    simp only [Option.some.injEq] at h1
                    subst h1
                    simp at he
                · exact hy5 e (Or.inl he)
              · exact hy5 e (Or.inr he)

theorem filter_below_field (p : Path) (i : Nat) (own pre mid post : List Event)
    (hown : ∀ e ∈ own, e.path = p)
    (hmid : ∀ e ∈ mid, (p ++ [Seg.field i]) <+: e.path)
    (hout : ∀ e, e ∈ pre ∨ e ∈ post → ∃ j, j ≠ i ∧ (p ++ [Seg.field j]) <+: e.path) :
    (own ++ (pre ++ mid ++ post)).filter
        (fun e => decide ((p ++ [Seg.field i]) <+: e.path)) = mid := by
  have hno : ∀ l : List Event,
      (∀ e ∈ l, ¬ (p ++ [Seg.field i]) <+: e.path) →
      l.filter (fun e => decide ((p ++ [Seg.field i]) <+: e.path)) = [] := by
    intro l hl
    apply List.filter_eq_nil_iff.mpr
    intro e he
    simpa using hl e he
  have hout' : ∀ e, e ∈ pre ∨ e ∈ post → ¬ (p ++ [Seg.field i]) <+: e.path := by
    intro e he hpre
    obtain ⟨j, hj, hj'⟩ := hout e he
    have := seg_eq_of_prefixes p e.path _ _ hj' hpre
    injection this with hji
    exact hj hji
  have h1 := hno own (fun e he hpre => path_ne_of_longer p e.path _ hpre (hown e he))
  have h2 := hno pre (fun e he => hout' e (Or.inl he))
  have h3 := hno post (fun e he => hout' e (Or.inr he))
  have h4 : mid.filter (fun e => decide ((p ++ [Seg.field i]) <+: e.path)) = mid := by
    apply List.filter_eq_self.mpr
    intro e he
    simpa using hmid e he
  simp only [List.filter_append, h1, h2, h3, h4, List.nil_append, List.append_nil]

/-- C8: a visit of a struct instance (for `ApplyDefaults`: of the destination root)
applies the map case to every exported map field whose values are structs and that is
non-nil when the field loop reaches it (after the setters of the instance).  When the
keys of the map are distinct and the iterator yields every key once, in whatever order,
and the visit returns, the field of the returned struct holds a map with the same keys;
the walk of the value stored under each key returned, and its result is the value now
stored under that key; and the setter calls of the visit at places at or below the field
are the calls of one walk per key, in iteration order. -/
theorem applyDefaultsRecursive_map_of_struct (P : Program) (o : Options)
    (fuel id id' i : Nat) (p : Path) (v : Value) (r : Value × List Event)
    (fs : List Value) (m : List (Nat × Value))
    (hkeys : (m.map Prod.fst).Nodup)
    (hiter : (P.mapRange m).Perm (m.map Prod.fst))
    (h : applyDefaultsRecursive P o (fuel + 1) (GoType.struct id) p v = some r)
    (hset : applySetter (o.defaultSetter (GoType.struct id))
      (applySetter (P.setDefaults (GoType.struct id)) v) = Value.struct fs)
    (hf : (P.fields id).get? i = some ⟨true, GoType.map (GoType.struct id')⟩)
    (hget : fs.get? i = some (Value.map (some m))) :
    ∃ fs' m', r.1 = Value.struct fs' ∧ fs'.get? i = some (Value.map (some m')) ∧
      m'.map Prod.fst = m.map Prod.fst ∧
      (∀ k x, (k, x) ∈ m →
        ∃ rx, applyDefaultsRecursive P o fuel (GoType.struct id')
            (p ++ [Seg.field i] ++ [Seg.key k]) x = some rx ∧
          mapIndex m' k = some rx.1 ∧ (k, rx.1) ∈ m') ∧
      r.2.filter (fun e => decide ((p ++ [Seg.field i]) <+: e.path)) =
        ((P.mapRange m).map (callsAtKey (applyDefaultsRecursive P o fuel)
          (p ++ [Seg.field i]) (GoType.struct id') m)).flatten := by
  rw [applyDefaultsRecursive_struct P o fuel id p v fs hset] at h
  cases hw : walkFields P (applyDefaultsRecursive P o fuel) p 0 (P.fields id) fs with
  | none => simp [hw] at h
  | some rs =>
    simp only [hw, Option.some.injEq] at h
    subst h
    obtain ⟨r1, pre, post, hwf, hr1, hsplit, hout⟩ :=
      walkFields_split P _ (applyDefaultsRecursive_below P o fuel) p _ _ 0 rs hw i _ _
        hf rfl hget
    rw [Nat.zero_add] at hwf hout
    have hbelow := walkField_below P _ (applyDefaultsRecursive_below P o fuel) _ _ _ _ hwf
    have hret : ∀ k x, (k, x) ∈ m →
        (applyDefaultsRecursive P o fuel (GoType.struct id')
          (p ++ [Seg.field i] ++ [Seg.key k]) x).isSome := by
      intro k x hkx
      have hwf' := hwf
      simp only [walkField] at hwf'
      cases hwm : walkMap (applyDefaultsRecursive P o fuel) (p ++ [Seg.field i])
          (GoType.struct id') (P.mapRange m) m with
      | none => simp [hwm] at hwf'
      | some rr =>
        rw [walkMap_struct_eq] at hwm
        obtain ⟨rx, hrx, _⟩ := mapLoopWith_fwd _ _ m rr hwm k x
          (hiter.mem_iff.mpr (List.mem_map.mpr ⟨(k, x), hkx, rfl⟩))
          (mapIndex_of_mem m k x hkeys hkx)
        rw [hrx]
        rfl
    obtain ⟨m', hm1, hm2, hm3⟩ :=
      walkField_map_of_struct P o fuel (p ++ [Seg.field i]) id' m hkeys hiter hret
    rw [hwf, Option.some.injEq] at hm1
    subst hm1
    refine ⟨rs.1, m', rfl, hr1, hm2, ?_, ?_⟩
    · intro k x hkx
      obtain ⟨rx, h1, h2, h3⟩ := hm3 k x hkx
      exact ⟨rx, h1, h3, h2⟩
    · simp only [hsplit]
      exact filter_below_field p i _ pre _ post
        (fun e he => by
          rcases List.mem_append.mp he with he | he
          · exact setterEvent_path _ _ _ _ e he
          · exact setterEvent_path _ _ _ _ e he)
        hbelow hout

/-- Witness of C8: `ApplyDefaults` on the example destination, whose field 1 is a map
holding two zero-valued items under the keys 10 and 20, iterated from the last key to
the first: the returned map holds both keys, each item has been walked (its scalar is 5)
and the calls at or below the field are the walk at key 20, then the walk at key 10. -/
theorem applyDefaultsRecursive_map_of_struct_witness :
    ApplyDefaults demoProgram (demoConfig true) 3 = some (demoDestAfter, demoCalls) ∧
    (∃ fs' m', demoDestAfter = Value.struct fs' ∧
      fs'.get? 1 = some (Value.map (some m')) ∧
      m'.map Prod.fst = [(10, zeroItem), (20, zeroItem)].map Prod.fst ∧
      (∀ k x, (k, x) ∈ [(10, zeroItem), (20, zeroItem)] →
        ∃ rx, applyDefaultsRecursive demoProgram (demoConfig true).options 2
            (GoType.struct 1) ([] ++ [Seg.field 1] ++ [Seg.key k]) x = some rx ∧
          mapIndex m' k = some rx.1 ∧ (k, rx.1) ∈ m') ∧
      demoCalls.filter (fun e => decide (([] ++ [Seg.field 1]) <+: e.path)) =
        ((demoProgram.mapRange [(10, zeroItem), (20, zeroItem)]).map
          (callsAtKey (applyDefaultsRecursive demoProgram (demoConfig true).options 2)
            ([] ++ [Seg.field 1]) (GoType.struct 1)
            [(10, zeroItem), (20, zeroItem)])).flatten) ∧
    demoCalls.filter (fun e => decide (([] ++ [Seg.field 1]) <+: e.path)) =
      [⟨SetterKind.own, GoType.struct 1, [Seg.field 1, Seg.key 20]⟩,
       ⟨SetterKind.own, GoType.struct 1, [Seg.field 1, Seg.key 10]⟩] :=
  ⟨rfl,
    applyDefaultsRecursive_map_of_struct demoProgram (demoConfig true).options 2 0 1 1 []
      demoDest (demoDestAfter, demoCalls)
      [Value.other 14, Value.map (some [(10, zeroItem), (20, zeroItem)]),
        Value.ptr (some (Value.ptr (some zeroItem))), Value.slice (some [zeroItem]),
        Value.ptr none, zeroItem, Value.slice (some [Value.slice (some [zeroItem])]),
        Value.map (some [(30, Value.slice (some [zeroItem]))])]
      [(10, zeroItem), (20, zeroItem)]
      (by decide) (List.Perm.swap 10 20 []) rfl rfl rfl rfl,
    by decide⟩

/-! ## Termination on finite chains of struct instances -/

theorem structDepthList_le_iff (n : Nat) :
    ∀ fs : List Value, structDepthList fs ≤ n ↔ ∀ x ∈ fs, structDepth x ≤ n := by
  intro fs
  induction fs with
  | nil => simp [structDepthList]
  | cons x xs ih => simp [structDepthList, ih]

theorem structDepthMap_le_iff (n : Nat) :
    ∀ m : List (Nat × Value), structDepthMap m ≤ n ↔ ∀ kv ∈ m, structDepth kv.2 ≤ n := by
  intro m
  induction m with
  | nil => simp [structDepthMap]
  | cons kv m ih =>
    obtain ⟨k, x⟩ := kv
    simp [structDepthMap, ih]

theorem structDepthList_forall₂ :
    ∀ (xs xs' : List Value), List.Forall₂ NoDeeperStructs xs xs' →
      structDepthList xs' ≤ structDepthList xs := by
  intro xs xs' h
  induction h with
  | nil => exact Nat.le_refl _
  | cons hab _ ih =>
    simp only [structDepthList]
    exact max_le_max hab ih

theorem structDepthMap_setMapIndex :
    ∀ (m : List (Nat × Value)) (k : Nat) (x x' : Value), mapIndex m k = some x →
      structDepth x' ≤ structDepth x →
      structDepthMap (setMapIndex m k x') ≤ structDepthMap m := by
  intro m
  induction m with
  | nil =>
    intro k x x' hm
    simp [mapIndex] at hm
  | cons kv m ih =>
    intro k x x' hm hx
    obtain ⟨k', v'⟩ := kv
    by_cases hk : k' = k
    · simp only [mapIndex, hk, if_true, Option.some.injEq] at hm
      subst hm
      simp only [setMapIndex, hk, if_true, structDepthMap]
      exact max_le_max hx (Nat.le_refl _)
    · simp only [mapIndex, hk, if_false] at hm
      simp only [setMapIndex, hk, if_false, structDepthMap]
      exact max_le_max (Nat.le_refl _) (ih k x x' hm hx)

theorem noDeeperStructs_walkRel : WalkRel NoDeeperStructs where
  refl := fun _ => Nat.le_refl _
  trans := fun _ _ _ h1 h2 => Nat.le_trans h2 h1
  ptr := by
    intro x x' h
    simpa [NoDeeperStructs, structDepth] using h
  slice := by
    intro xs xs' h
    simpa [NoDeeperStructs, structDepth] using structDepthList_forall₂ xs xs' h
  struct := by
    intro fs fs' h
    simpa [NoDeeperStructs, structDepth] using structDepthList_forall₂ fs fs' h
  map := by
    intro m k x x' hm h
    simpa [NoDeeperStructs, structDepth] using structDepthMap_setMapIndex m k x x' hm h

theorem walkPtr_totalBelow (n : Nat) (rec : Walk) (hT : TotalBelow n rec) (p : Path)
    (elemT : GoType) (v : Value) (hv : structDepth v ≤ n) :
    ∃ r, walkPtr rec p elemT v = some r := by
  unfold walkPtr
  split
  · rename_i id x
    obtain ⟨r, hr⟩ := hT (GoType.struct id) (p ++ [Seg.deref]) x
      (by simpa [structDepth] using hv)
    exact ⟨_, by rw [hr]⟩
  · exact ⟨_, rfl⟩

theorem walkSliceElem_totalBelow (n : Nat) (rec : Walk) (hT : TotalBelow n rec) (p : Path)
    (elemT : GoType) (x : Value) (hx : structDepth x ≤ n) :
    ∃ r, walkSliceElem rec p elemT x = some r := by
  unfold walkSliceElem
  split
  · exact hT _ _ _ hx
  · exact walkPtr_totalBelow n rec hT _ _ _ hx
  · exact ⟨_, rfl⟩

theorem walkSlice_totalBelow (n : Nat) (rec : Walk) (hT : TotalBelow n rec) (p : Path)
    (elemT : GoType) :
    ∀ (xs : List Value) (i : Nat), (∀ x ∈ xs, structDepth x ≤ n) →
      ∃ r, walkSlice rec p elemT i xs = some r := by
  intro xs
  induction xs with
  | nil => intro i _; exact ⟨_, rfl⟩
  | cons x xs ih =>
    intro i hxs
    obtain ⟨r1, h1⟩ := walkSliceElem_totalBelow n rec hT (p ++ [Seg.index i]) elemT x
      (hxs x (List.mem_cons_self _ _))
    obtain ⟨r2, h2⟩ := ih (i + 1) (fun y hy => hxs y (List.mem_cons_of_mem _ hy))
    exact ⟨_, by simp only [walkSlice, h1, h2]; rfl⟩

theorem mapLoopWith_totalBelow (n : Nat) (w : Nat → Value → Option (Value × List Event))
    (hw : ∀ k x, structDepth x ≤ n → ∃ r, w k x = some r)
    (hwP : ∀ k x r, w k x = some r → structDepth r.1 ≤ structDepth x) :
    ∀ (ks : List Nat) (m : List (Nat × Value)),
      structDepthMap m ≤ n → ∃ r, mapLoopWith w ks m = some r := by
  intro ks
  induction ks with
  | nil => intro m _; exact ⟨_, rfl⟩
  | cons k ks ih =>
    intro m hm
    cases hk : mapIndex m k with
    | none =>
      obtain ⟨r, hr⟩ := ih m hm
      exact ⟨r, by simp only [mapLoopWith, hk, hr]⟩
    | some elem =>
      have he : structDepth elem ≤ n :=
        (structDepthMap_le_iff n m).mp hm (k, elem) (mem_of_mapIndex m k elem hk)
      obtain ⟨r1, h1⟩ := hw k elem he
      have hm1 : structDepthMap (setMapIndex m k r1.1) ≤ n :=
        Nat.le_trans (structDepthMap_setMapIndex m k elem r1.1 hk (hwP k elem r1 h1)) hm
      obtain ⟨r2, h2⟩ := ih _ hm1
      exact ⟨_, by simp only [mapLoopWith, hk, h1, h2]; rfl⟩

theorem walkMap_totalBelow (n : Nat) (rec : Walk) (hT : TotalBelow n rec)
    (hP : Relates NoDeeperStructs rec) (p : Path) (elemT : GoType) (ks : List Nat)
    (m : List (Nat × Value)) (hm : structDepthMap m ≤ n) :
    ∃ r, walkMap rec p elemT ks m = some r := by
  cases elemT with
  | struct id =>
    rw [walkMap_struct_eq]
    exact mapLoopWith_totalBelow n _ (fun k x hx => hT _ _ _ hx)
      (fun k x r h => hP _ _ _ _ h) ks m hm
  | ptr e =>
    rw [walkMap_ptr_eq]
    exact mapLoopWith_totalBelow n _ (fun k x hx => walkPtr_totalBelow n rec hT _ _ _ hx)
      (fun k x r h => walkPtr_rel NoDeeperStructs noDeeperStructs_walkRel rec hP _ _ _ _ h)
      ks m hm
  | slice e =>
    exact ⟨_, walkMap_other rec p _ (fun _ hh => GoType.noConfusion hh)
      (fun _ hh => GoType.noConfusion hh) ks m⟩
  | map e =>
    exact ⟨_, walkMap_other rec p _ (fun _ hh => GoType.noConfusion hh)
      (fun _ hh => GoType.noConfusion hh) ks m⟩
  | other k =>
    exact ⟨_, walkMap_other rec p _ (fun _ hh => GoType.noConfusion hh)
      (fun _ hh => GoType.noConfusion hh) ks m⟩

theorem walkField_totalBelow (P : Program) (n : Nat) (rec : Walk) (hT : TotalBelow n rec)
    (hP : Relates NoDeeperStructs rec) (p : Path) (ft : GoType) (fv : Value)
    (hv : structDepth fv ≤ n) : ∃ r, walkField P rec p ft fv = some r := by
  cases ft with
  | struct id => exact hT _ _ _ hv
  | ptr e' => exact walkPtr_totalBelow n rec hT _ _ _ hv
  | other k => exact ⟨_, rfl⟩
  | slice e' =>
    cases fv with
    | slice oxs =>
      cases oxs with
      | none => exact ⟨_, rfl⟩
      | some xs =>
        obtain ⟨r, hr⟩ := walkSlice_totalBelow n rec hT p e' xs 0
          ((structDepthList_le_iff n xs).mp (by simpa [structDepth] using hv))
        exact ⟨_, by simp only [walkField, hr]; rfl⟩
    | other k => exact ⟨_, rfl⟩
    | struct fs => exact ⟨_, rfl⟩
    | ptr t => exact ⟨_, rfl⟩
    | map m => exact ⟨_, rfl⟩
  | map e' =>
    cases fv with
    | map om =>
      cases om with
      | none => exact ⟨_, rfl⟩
      | some m =>
        obtain ⟨r, hr⟩ := walkMap_totalBelow n rec hT hP p e' (P.mapRange m) m
          (by simpa [structDepth] using hv)
        exact ⟨_, by simp only [walkField, hr]; rfl⟩
    | other k => exact ⟨_, rfl⟩
    | struct fs => exact ⟨_, rfl⟩
    | ptr t => exact ⟨_, rfl⟩
    | slice xs => exact ⟨_, rfl⟩

theorem walkFields_totalBelow (P : Program) (n : Nat) (rec : Walk) (hT : TotalBelow n rec)
    (hP : Relates NoDeeperStructs rec) (p : Path) :
    ∀ (fs : List StructField) (vs : List Value) (i : Nat),
      (∀ v ∈ vs, structDepth v ≤ n) → ∃ r, walkFields P rec p i fs vs = some r := by
  intro fs
  induction fs with
  | nil => intro vs i _; exact ⟨_, rfl⟩
  | cons f fs ih =>
    intro vs i hvs
    cases vs with
    | nil => exact ⟨_, rfl⟩
    | cons v vs =>
      have h1 : ∃ r1, (if f.exported = true then
          walkField P rec (p ++ [Seg.field i]) f.type v else some (v, [])) = some r1 := by
        by_cases hx : f.exported = true
        · rw [if_pos hx]
          exact walkField_totalBelow P n rec hT hP _ _ _ (hvs v (List.mem_cons_self _ _))
        · rw [if_neg hx]
          exact ⟨_, rfl⟩
      obtain ⟨r1, h1⟩ := h1
      obtain ⟨r2, h2⟩ := ih vs (i + 1) (fun y hy => hvs y (List.mem_cons_of_mem _ hy))
      exact ⟨_, by simp only [walkFields, h1, h2]; rfl⟩

theorem applyDefaultsRecursive_totalBelow (P : Program) (o : Options)
    (hset : SettersRelate P o NoDeeperStructs) :
    ∀ n, TotalBelow n (applyDefaultsRecursive P o (n + 1)) := by
  intro n
  induction n with
  | zero =>
    intro t p v hv
    have hsv : structDepth _ ≤ structDepth v :=
      setters_rel P o NoDeeperStructs noDeeperStructs_walkRel hset t v
    by_cases ht : ∃ id, t = GoType.struct id
    · obtain ⟨id, rfl⟩ := ht
      by_cases hs : ∃ fs, applySetter (o.defaultSetter (GoType.struct id))
          (applySetter (P.setDefaults (GoType.struct id)) v) = Value.struct fs
      · obtain ⟨fs, hfs⟩ := hs
        rw [hfs] at hsv
        simp only [structDepth] at hsv
        omega
      · exact ⟨_, applyDefaultsRecursive_not_struct_value P o 0 _ p v
          (fun fs hfs => hs ⟨fs, hfs⟩)⟩
    · exact ⟨_, applyDefaultsRecursive_not_struct_type P o 0 t p v
        (fun id hid => ht ⟨id, hid⟩)⟩
  | succ n ih =>
    intro t p v hv
    have hsv : structDepth _ ≤ structDepth v :=
      setters_rel P o NoDeeperStructs noDeeperStructs_walkRel hset t v
    by_cases ht : ∃ id, t = GoType.struct id
    · obtain ⟨id, rfl⟩ := ht
      by_cases hs : ∃ fs, applySetter (o.defaultSetter (GoType.struct id))
          (applySetter (P.setDefaults (GoType.struct id)) v) = Value.struct fs
      · obtain ⟨fs, hfs⟩ := hs
        rw [applyDefaultsRecursive_struct P o (n + 1) id p v fs hfs]
        rw [hfs] at hsv
        simp only [structDepth] at hsv
        have hfields : ∀ x ∈ fs, structDepth x ≤ n :=
          (structDepthList_le_iff n fs).mp (by omega)
        obtain ⟨rs, hrs⟩ := walkFields_totalBelow P n _ ih
          (applyDefaultsRecursive_rel P o NoDeeperStructs noDeeperStructs_walkRel hset
            (n + 1)) p (P.fields id) fs 0 hfields
        exact ⟨_, by rw [hrs]⟩
      · exact ⟨_, applyDefaultsRecursive_not_struct_value P o (n + 1) _ p v
          (fun fs hfs => hs ⟨fs, hfs⟩)⟩
    · exact ⟨_, applyDefaultsRecursive_not_struct_type P o (n + 1) t p v
        (fun id hid => ht ⟨id, hid⟩)⟩

/-- C15: whatever the types are (a struct type may hold pointers, slices and maps of
itself), if no setter makes a chain of struct instances longer, which holds for every
setter that installs no struct instance, `ApplyDefaults` returns on every destination:
the walk follows the value and stops at nil pointers and empty containers, so that a
budget of one more than the nesting depth of the struct instances of the destination
suffices, and every larger budget gives the same result.  No setter call is made twice
on the same instance, and every struct instance reached in the resulting graph has had
its setters called. -/
theorem ApplyDefaults_terminates_on_finite_value (P : Program) (c : Config)
    (hset : SettersRelate P c.options NoDeeperStructs)
    (hiter : ∀ m, (P.mapRange m).Nodup)
    (hmap : ∀ m k, (mapIndex m k).isSome → k ∈ P.mapRange m) :
    ∃ r, ApplyDefaults P c (structDepth c.dest + 1) = some r ∧
      (∀ fuel, structDepth c.dest + 1 ≤ fuel → ApplyDefaults P c fuel = some r) ∧
      r.2.Nodup ∧
      ∀ id, c.destType = GoType.struct id → ∀ q t, Reach P id r.1 [] q t →
        Called P c.options t q r.2 := by
  obtain ⟨r, hr⟩ := applyDefaultsRecursive_totalBelow P c.options hset (structDepth c.dest)
    c.destType [] c.dest (Nat.le_refl _)
  refine ⟨r, hr, fun fuel hf => applyDefaultsRecursive_mono P c.options _ fuel hf _ _ _ _ hr,
    applyDefaultsRecursive_once P c.options hiter _ _ _ _ _ hr, ?_⟩
  intro id hid q t hreach
  rw [hid] at hr
  exact reach_called_aux P c.options hmap _ id [] c.dest r hr q t hreach

theorem fillTags_noDeeperStructs (v : Value) : NoDeeperStructs v (fillTags v) := by
  unfold fillTags
  split
  · simp [NoDeeperStructs, structDepth, structDepthList]
  · exact Nat.le_refl _

theorem nodeProgram_setters : SettersRelate nodeProgram plainOptions NoDeeperStructs := by
  constructor
  · intro t f hf v
    simp only [nodeProgram] at hf
    split_ifs at hf
    injection hf with hf
    subst hf
    exact fillTags_noDeeperStructs v
  · intro t g hg
    exact Option.noConfusion hg

/-- Witness of C15: a chain of nodes of the self-referential type of `nodeProgram`, whose
setter fills a nil slice of scalars and a nil pointer to a scalar; the struct instances
are nested two deep and the call returns with budget 3, having called the setter once on
each of the three nodes. -/
theorem ApplyDefaults_terminates_on_finite_value_witness :
    (∃ r, ApplyDefaults nodeProgram (Config.mk plainOptions (GoType.struct 0) nodeDest)
          (structDepth (Config.mk plainOptions (GoType.struct 0) nodeDest).dest + 1)
        = some r ∧
      (∀ fuel, structDepth (Config.mk plainOptions (GoType.struct 0) nodeDest).dest + 1
          ≤ fuel →
        ApplyDefaults nodeProgram (Config.mk plainOptions (GoType.struct 0) nodeDest) fuel
          = some r) ∧
      r.2.Nodup ∧
      ∀ id, (Config.mk plainOptions (GoType.struct 0) nodeDest).destType = GoType.struct id →
        ∀ q t, Reach nodeProgram id r.1 [] q t →
          Called nodeProgram (Config.mk plainOptions (GoType.struct 0) nodeDest).options
            t q r.2) ∧
    structDepth nodeDest + 1 = 3 ∧
    ApplyDefaults nodeProgram (Config.mk plainOptions (GoType.struct 0) nodeDest) 3 =
      some (Value.struct [Value.other 0,
          Value.ptr (some (Value.struct [Value.other 0, Value.ptr none, Value.slice none,
            Value.slice (some [Value.other 1]), Value.ptr (some (Value.other 1))])),
          Value.slice (some [Value.struct [Value.other 0, Value.ptr none, Value.slice none,
            Value.slice (some [Value.other 1]), Value.ptr (some (Value.other 1))]]),
          Value.slice (some [Value.other 1]), Value.ptr (some (Value.other 1))],
        [⟨SetterKind.own, GoType.struct 0, []⟩,
         ⟨SetterKind.own, GoType.struct 0, [Seg.field 1, Seg.deref]⟩,
         ⟨SetterKind.own, GoType.struct 0, [Seg.field 2, Seg.index 0]⟩]) :=
  ⟨ApplyDefaults_terminates_on_finite_value nodeProgram
    (Config.mk plainOptions (GoType.struct 0) nodeDest) nodeProgram_setters
    (fun _ => List.nodup_dedup _)
    (fun m k hk => List.mem_dedup.mpr (mapIndex_isSome_mem_keys m k hk)), by decide, rfl⟩

/-! ## The error the parse entry points return -/

/-- C5: for every configuration (with or without a prefix), argument list and budget,
`ParseArguments` returns, and the error it returns is nil exactly when the decode pass
returned nil or `io.EOF` and is otherwise the decode error itself, with the destination
as decoded and no setter called; the one exception is that the decode pass returned nil
or `io.EOF`, auto-apply-defaults is on and the default applier does not return within
the budget.  After a swallowed error the destination is as decoded when the option is
off and as `ApplyDefaults` leaves it when the option is on.  When the declared types are
not self-referential the applier returns, so that `ParseArguments` returns with every
budget above the nesting depth of the destination type.  `ParseEnvironment` with a
non-empty prefix returns for every list of entries, with the same mapping of the decode
error and the destination as decoded. -/
theorem Parse_error_mapping (lib : Library) (P : Program) (dec : Decoder) (c : Config)
    (args env : List Str) (fuel : Nat) :
    ((∃ e d calls, ParseArguments P dec c args fuel = Outcome.returned e d calls ∧
        (e = none ↔ (dec c (ArgumentReader c args)).2 = none ∨
          (dec c (ArgumentReader c args)).2 = some GoError.eof) ∧
        (e ≠ none → e = (dec c (ArgumentReader c args)).2 ∧
          d = (dec c (ArgumentReader c args)).1 ∧ calls = []) ∧
        (e = none → c.options.autoApplyDefaults = false →
          d = (dec c (ArgumentReader c args)).1 ∧ calls = []) ∧
        (e = none → c.options.autoApplyDefaults = true →
          ApplyDefaults P { c with dest := (dec c (ArgumentReader c args)).1 } fuel
            = some (d, calls))) ∨
      (ParseArguments P dec c args fuel = Outcome.outOfFuel ∧
        ((dec c (ArgumentReader c args)).2 = none ∨
          (dec c (ArgumentReader c args)).2 = some GoError.eof) ∧
        c.options.autoApplyDefaults = true ∧
        ApplyDefaults P { c with dest := (dec c (ArgumentReader c args)).1 } fuel
          = none)) ∧
    (∀ rank id, Acyclic P rank → c.destType = GoType.struct id → rank id < fuel →
      ∃ e d calls, ParseArguments P dec c args fuel = Outcome.returned e d calls) ∧
    (c.options.prefixEnv ≠ [] →
      ∃ e d calls, ParseEnvironment lib dec c env = Outcome.returned e d calls ∧
        (e = none ↔ (dec c (EnvironmentReader lib c env)).2 = none ∨
          (dec c (EnvironmentReader lib c env)).2 = some GoError.eof) ∧
        (e ≠ none → e = (dec c (EnvironmentReader lib c env)).2) ∧
        d = (dec c (EnvironmentReader lib c env)).1 ∧ calls = []) := by
  have hmain : (∃ e d calls, ParseArguments P dec c args fuel = Outcome.returned e d calls ∧
        (e = none ↔ (dec c (ArgumentReader c args)).2 = none ∨
          (dec c (ArgumentReader c args)).2 = some GoError.eof) ∧
        (e ≠ none → e = (dec c (ArgumentReader c args)).2 ∧
          d = (dec c (ArgumentReader c args)).1 ∧ calls = []) ∧
        (e = none → c.options.autoApplyDefaults = false →
          d = (dec c (ArgumentReader c args)).1 ∧ calls = []) ∧
        (e = none → c.options.autoApplyDefaults = true →
          ApplyDefaults P { c with dest := (dec c (ArgumentReader c args)).1 } fuel
            = some (d, calls))) ∨
      (ParseArguments P dec c args fuel = Outcome.outOfFuel ∧
        ((dec c (ArgumentReader c args)).2 = none ∨
          (dec c (ArgumentReader c args)).2 = some GoError.eof) ∧
        c.options.autoApplyDefaults = true ∧
        ApplyDefaults P { c with dest := (dec c (ArgumentReader c args)).1 } fuel
          = none) := by
    unfold ParseArguments ParseYaml
    simp only [ArgumentReader]
    rcases decode_error_cases (dec c (ReadCloser.reader args)).2 with hd | hd
    · refine Or.inl ⟨(dec c (ReadCloser.reader args)).2, (dec c (ReadCloser.reader args)).1,
        [], by rw [if_pos hd], ⟨fun h => absurd h hd.1, ?_⟩, fun _ => ⟨rfl, rfl, rfl⟩,
        fun h => absurd h hd.1, fun h => absurd h hd.1⟩
      rintro (h | h)
      · exact absurd h hd.1
      · exact absurd h hd.2
    · have hn : ¬ ((dec c (ReadCloser.reader args)).2 ≠ none ∧
          (dec c (ReadCloser.reader args)).2 ≠ some GoError.eof) := by
        rintro ⟨h1, h2⟩
        rcases hd with h | h
        · exact h1 h
        · exact h2 h
      by_cases ha : c.options.autoApplyDefaults = true
      · cases hr : ApplyDefaults P
            { c with dest := (dec c (ReadCloser.reader args)).1 } fuel with
        | none =>
          refine Or.inr ⟨?_, hd, ha, rfl⟩
          simp only [if_neg hn, ha, if_true, hr]
        | some r =>
          refine Or.inl ⟨none, r.1, r.2, ?_, ⟨fun _ => hd, fun _ => rfl⟩,
            fun h => absurd rfl h, fun _ hf => ?_, fun _ _ => rfl⟩
          · simp only [if_neg hn, ha, if_true, hr]
          · rw [ha] at hf
            exact Bool.noConfusion hf
      · refine Or.inl ⟨none, (dec c (ReadCloser.reader args)).1, [], ?_,
          ⟨fun _ => hd, fun _ => rfl⟩, fun h => absurd rfl h, fun _ _ => ⟨rfl, rfl⟩,
          fun _ h => absurd h ha⟩
        simp only [if_neg hn, ha]
        rfl
  refine ⟨hmain, ?_, ?_⟩
  · intro rank id hacyc ht hfuel
    rcases hmain with ⟨e, d, calls, h, _⟩ | ⟨_, _, _, hnone⟩
    · exact ⟨e, d, calls, h⟩
    · obtain ⟨r, hr⟩ := applyDefaultsRecursive_total_of_rank P c.options rank hacyc fuel id
        hfuel [] (dec c (ArgumentReader c args)).1
      unfold ApplyDefaults at hnone
      simp only [ht] at hnone
      rw [hr] at hnone
      exact Option.noConfusion hnone
  · intro hne
    unfold ParseEnvironment ParseYaml
    have hnil := EnvironmentReader_ne_nil lib c env hne
    cases hr : EnvironmentReader lib c env with
    | nil => exact absurd hr hnil
    | errorReader x => exact returned_decode_error _
    | reader a => exact returned_decode_error _

/-- Instance of C5: the example configuration without a prefix and with a decoder that
fails with error 1: `ParseArguments` returns that error at budget 0.  The types of the
example program nest one level deep, so with budget 3 `ParseArguments` returns for every
decoder.  With the prefix `APP_`, `ParseEnvironment` returns the decode error as well,
whatever the library does outside the modelled syntax. -/
theorem Parse_error_mapping_witness :
    ParseArguments demoProgram failingDecoder
        ⟨⟨[], true, (demoConfig true).options.defaultSetter⟩, GoType.struct 0, demoDest⟩ [] 0
      = Outcome.returned (some (GoError.other 1)) demoDest [] ∧
    (∀ dec : Decoder, ∃ e d calls,
      ParseArguments demoProgram dec (demoConfig true) [] 3 = Outcome.returned e d calls) ∧
    (demoConfig true).options.prefixEnv ≠ [] ∧
    ∀ lib : Library,
      ∃ e d calls, ParseEnvironment lib failingDecoder (demoConfig true) ["APP_X=1".toList]
          = Outcome.returned e d calls ∧
        (e = none ↔ (failingDecoder (demoConfig true)
            (EnvironmentReader lib (demoConfig true) ["APP_X=1".toList])).2 = none ∨
          (failingDecoder (demoConfig true)
            (EnvironmentReader lib (demoConfig true) ["APP_X=1".toList])).2
              = some GoError.eof) ∧
        (e ≠ none → e = (failingDecoder (demoConfig true)
            (EnvironmentReader lib (demoConfig true) ["APP_X=1".toList])).2) ∧
        d = (failingDecoder (demoConfig true)
            (EnvironmentReader lib (demoConfig true) ["APP_X=1".toList])).1 ∧
        calls = [] :=
  ⟨rfl,
    fun dec => (Parse_error_mapping (fun _ => .error (CompileError.other 0)) demoProgram dec
      (demoConfig true) [] [] 3).2.1 demoRank 0 demoProgram_acyclic rfl (by decide),
    by decide, fun lib =>
    (Parse_error_mapping lib demoProgram failingDecoder (demoConfig true) []
      ["APP_X=1".toList] 3).2.2 (by decide)⟩

end Yacl
